import Mathlib

/-!
# Snapshot intake queue of `storage/badger_queue.go`

A shallow embedding of the dedup-aware snapshot queue (`Queue`, with its two
rings and two dedup maps) and of the storage adapter built on it
(`QueueAppendSnapshot`, `QueuePollSnapshots`), followed by the properties
proved about them.

Modelling conventions.

* There are two readings of the items.  In the first (`Queue`), a
  `*PeerSnapshot` is the record it points to, read when the item is put, and the
  assignment `ps.Snapshot.Signatures = ...` of `PopCache` is a record update of
  the returned item.  This gives what every call returns, and the whole state as
  long as no two items in the rings share a `*common.Snapshot`.  In the second
  (`RefQueue`), the snapshot objects live in a memory and the rings hold the
  pointers, so that the write of `PopCache` is seen through every pointer to the
  same object.  The theorems `view_PutFinal`, `view_PutCache`, `view_PopFinal`
  and `view_PopCache` relate the two.  What `PopCache` does to the final channel
  is stated on the second reading.
* A Go map is a function from keys to `Option` values: `none` is an absent
  key, `Function.update m k (some v)` is `m[k] = v`, and
  `Function.update m k none` is `delete(m, k)`.  Reading `m[k]` of an absent
  key gives the zero value (`false`, resp. the nil slice).
* A slice of signatures is `Option (List Signature)`; `none` is the nil slice.
* In the sequential definitions every operation is one atomic transition of the
  queue state, which is what holding the mutex for the whole call gives.  The
  mutex itself appears in the section on two callers (`Conc`), where a `Put`
  that is inside its retry loop is followed step by step.
* `time.Sleep` does not change the state.  The two `for` loops that retry
  `Offer` take a number of iterations (`fuel`); the result `Outcome.blocked`
  says that the call is still inside its loop after that many iterations.
-/

namespace Storage

/-- The type `crypto.Hash` (32 bytes), read as a number. -/
abbrev Hash := Nat

/-- The type `crypto.Signature` (64 bytes), read as a number. -/
abbrev Signature := Nat

/-- Modelled from the spec: `common.Snapshot` is declared in package `common`,
which is not among the sources.  The spec gives it an ordered sequence of
signatures and an identity computed over its other fields; `Payload` stands for
those other fields (node, transaction, references, round, timestamp). -/
structure Snapshot where
  Payload : Nat
  Signatures : Option (List Signature)
deriving DecidableEq

/-- Modelled from the spec: `Snapshot.PayloadHash` is declared in package
`common`.  The identity is a content hash over the normalized fields, the
signatures excluded; the hash function `H` itself is a parameter. -/
def Snapshot.PayloadHash (H : Nat → Hash) (s : Snapshot) : Hash :=
  H s.Payload

/-- The struct `PeerSnapshot`. -/
structure PeerSnapshot where
  PeerId : Hash
  Snapshot : Snapshot
deriving DecidableEq

/-- The only error the ring buffer reports: access to a disposed buffer. -/
inductive Err where
  | disposed
deriving DecidableEq

/-- Modelled from the spec: the bounded ring buffer (`RingBuffer`, section 4.1)
is declared in a file that is not among the sources.  It has a capacity fixed
at construction, the pending items in FIFO order (oldest first), and a disposal
flag. -/
structure RingBuffer (α : Type) where
  capacity : Nat
  items : List α
  disposed : Bool
deriving DecidableEq

/-- Modelled from the spec: `NewRingBuffer(size)` constructs an empty buffer of
the given fixed capacity. -/
def NewRingBuffer {α : Type} (size : Nat) : RingBuffer α :=
  { capacity := size, items := [], disposed := false }

/-- Modelled from the spec: `Offer(item)` inserts if space is available, returns
`(false, nil)` when full, and returns an error only for a disposed buffer.  The
result is the new buffer, the flag `accepted` and the error. -/
def RingBuffer.Offer {α : Type} (rb : RingBuffer α) (item : α) :
    RingBuffer α × Bool × Option Err :=
  if rb.disposed then (rb, false, some Err.disposed)
  else if rb.items.length < rb.capacity then
    ({ rb with items := rb.items ++ [item] }, true, none)
  else (rb, false, none)

/-- Modelled from the spec: `Poll(false)`, the non-blocking poll, returns
`(nil, nil)` if the buffer is empty, the oldest item otherwise, and an error for
a disposed buffer. -/
def RingBuffer.Poll {α : Type} (rb : RingBuffer α) :
    RingBuffer α × Option α × Option Err :=
  if rb.disposed then (rb, none, some Err.disposed)
  else
    match rb.items with
    | [] => (rb, none, none)
    | x :: rest => ({ rb with items := rest }, some x, none)

/-- Modelled from the spec: `Len()` is the current occupancy, a `uint64`. -/
def RingBuffer.Len {α : Type} (rb : RingBuffer α) : Nat :=
  rb.items.length % 2 ^ 64

/-- Modelled from the spec: `Dispose()` makes all subsequent operations fail
with a disposal error. -/
def RingBuffer.Dispose {α : Type} (rb : RingBuffer α) : RingBuffer α :=
  { rb with disposed := true }

/-- The struct `Queue` (the mutex left out). -/
structure Queue where
  cacheRing : RingBuffer PeerSnapshot
  finalRing : RingBuffer PeerSnapshot
  cacheSet : Hash → Option (Option (List Signature))
  finalSet : Hash → Option Bool

/-- The constructor `NewQueue`. -/
def NewQueue : Queue :=
  { cacheSet := fun _ => none
    finalSet := fun _ => none
    cacheRing := NewRingBuffer (1024 * 1024)
    finalRing := NewRingBuffer (1024 * 1024) }

/-- The method `Queue.Dispose`. -/
def Queue.Dispose (q : Queue) : Queue :=
  { q with finalRing := q.finalRing.Dispose, cacheRing := q.cacheRing.Dispose }

/-- The method `Queue.Len`: a `uint64` sum. -/
def Queue.Len (q : Queue) : Nat :=
  (q.finalRing.Len + q.cacheRing.Len) % 2 ^ 64

/-- What is known of a call that may retry for ever: it has returned the given
error value (`none` is `nil`), or it is still inside its retry loop. -/
inductive Outcome where
  | returned (err : Option Err)
  | blocked
deriving DecidableEq

/-- One pass through the body of `for { put, err := ring.Offer(ps); ... }`:
`some err` when the pass executes `return err`, `none` when it reaches the
sleep and goes round again. -/
def offerPass (rb : RingBuffer PeerSnapshot) (ps : PeerSnapshot) :
    RingBuffer PeerSnapshot × Option (Option Err) :=
  match rb.Offer ps with
  | (rb1, put, err) =>
    if err.isSome || put then (rb1, some err) else (rb1, none)

/-- The retry loop shared by `PutFinal` and `PutCache`, run for at most `fuel`
iterations. -/
def retryOffer : Nat → RingBuffer PeerSnapshot → PeerSnapshot →
    RingBuffer PeerSnapshot × Outcome
  | 0, rb, _ => (rb, Outcome.blocked)
  | fuel + 1, rb, ps =>
    match offerPass rb ps with
    | (rb1, some err) => (rb1, Outcome.returned err)
    | (rb1, none) => retryOffer fuel rb1 ps

/-- The method `Queue.PutFinal`. -/
def Queue.PutFinal (H : Nat → Hash) (fuel : Nat) (q : Queue) (ps : PeerSnapshot) :
    Queue × Outcome :=
  let hash := ps.Snapshot.PayloadHash H
  if (q.finalSet hash).getD false then (q, Outcome.returned none)
  else
    let q1 := { q with finalSet := Function.update q.finalSet hash (some true) }
    match retryOffer fuel q1.finalRing ps with
    | (rb, out) => ({ q1 with finalRing := rb }, out)

/-- The method `Queue.PopFinal`. -/
def Queue.PopFinal (H : Nat → Hash) (q : Queue) :
    Queue × Option PeerSnapshot × Option Err :=
  match q.finalRing.Poll with
  | (rb, _, some err) => ({ q with finalRing := rb }, none, some err)
  | (rb, none, none) => ({ q with finalRing := rb }, none, none)
  | (rb, some ps, none) =>
    let hash := ps.Snapshot.PayloadHash H
    ({ q with finalRing := rb, finalSet := Function.update q.finalSet hash none },
      some ps, none)

/-- The method `Queue.PutCache`. -/
def Queue.PutCache (H : Nat → Hash) (fuel : Nat) (q : Queue) (ps : PeerSnapshot) :
    Queue × Outcome :=
  let hash := ps.Snapshot.PayloadHash H
  let found := (q.cacheSet hash).isSome
  let q1 := { q with cacheSet := Function.update q.cacheSet hash (some ps.Snapshot.Signatures) }
  if found then (q1, Outcome.returned none)
  else
    match retryOffer fuel q1.cacheRing ps with
    | (rb, out) => ({ q1 with cacheRing := rb }, out)

/-- The method `Queue.PopCache`, on records: the returned item is the popped
record with its signatures replaced.  The same assignment as a write through the
pointer `ps.Snapshot`, visible in any other item that holds the same pointer, is
`RefQueue.PopCache`. -/
def Queue.PopCache (H : Nat → Hash) (q : Queue) :
    Queue × Option PeerSnapshot × Option Err :=
  match q.cacheRing.Poll with
  | (rb, _, some err) => ({ q with cacheRing := rb }, none, some err)
  | (rb, none, none) => ({ q with cacheRing := rb }, none, none)
  | (rb, some ps, none) =>
    let hash := ps.Snapshot.PayloadHash H
    let ps1 : PeerSnapshot :=
      { ps with Snapshot := { ps.Snapshot with Signatures := (q.cacheSet hash).getD none } }
    ({ q with cacheRing := rb, cacheSet := Function.update q.cacheSet hash none },
      some ps1, none)

/-- The part of `BadgerStore` that the queue methods use. -/
structure BadgerStore where
  queue : Queue
  closing : Bool

/-- The method `BadgerStore.QueueAppendSnapshot`. -/
def BadgerStore.QueueAppendSnapshot (H : Nat → Hash) (fuel : Nat) (s : BadgerStore)
    (peerId : Hash) (snap : Snapshot) (finalized : Bool) : BadgerStore × Outcome :=
  let ps : PeerSnapshot := { PeerId := peerId, Snapshot := snap }
  if finalized then
    match s.queue.PutFinal H fuel ps with
    | (q, out) => ({ s with queue := q }, out)
  else
    match s.queue.PutCache H fuel ps with
    | (q, out) => ({ s with queue := q }, out)

/-- One invocation of the hook: its arguments and the value it returned. -/
structure HookCall where
  peerId : Hash
  snap : Snapshot
  result : Option Err
deriving DecidableEq

/-- One iteration of the body of the loop of `BadgerStore.QueuePollSnapshots`:
the new store and the hook invocations made by the iteration. -/
def BadgerStore.pollBody (H : Nat → Hash) (hook : Hash → Snapshot → Option Err)
    (s : BadgerStore) : BadgerStore × List HookCall :=
  match s.queue.PopFinal H with
  | (q1, _, some _) => ({ s with queue := q1 }, [])
  | (q1, some ps, none) =>
    ({ s with queue := q1 }, [⟨ps.PeerId, ps.Snapshot, hook ps.PeerId ps.Snapshot⟩])
  | (q1, none, none) =>
    match q1.PopCache H with
    | (q2, _, some _) => ({ s with queue := q2 }, [])
    | (q2, none, none) => ({ s with queue := q2 }, [])
    | (q2, some ps, none) =>
      ({ s with queue := q2 }, [⟨ps.PeerId, ps.Snapshot, hook ps.PeerId ps.Snapshot⟩])

/-- The method `BadgerStore.QueuePollSnapshots`, run for at most `n` iterations
of `for !s.closing { ... }`. -/
def BadgerStore.QueuePollSnapshots (H : Nat → Hash) (hook : Hash → Snapshot → Option Err) :
    Nat → BadgerStore → BadgerStore × List HookCall
  | 0, s => (s, [])
  | n + 1, s =>
    if s.closing then (s, [])
    else
      match s.pollBody H hook with
      | (s1, calls) =>
        match BadgerStore.QueuePollSnapshots H hook n s1 with
        | (s2, rest) => (s2, calls ++ rest)

/-- The identities of the items held by a ring, oldest first. -/
def ringIds (H : Nat → Hash) (rb : RingBuffer PeerSnapshot) : List Hash :=
  rb.items.map (fun ps => ps.Snapshot.PayloadHash H)

/-- The Go expression `q.finalSet[hash]`: the identity is marked pending on the
final channel. -/
def Queue.finalTracked (q : Queue) (h : Hash) : Bool :=
  (q.finalSet h).getD false

/-- The flag `found` of `_, found := q.cacheSet[hash]`: the identity is tracked
on the cache channel. -/
def Queue.cacheTracked (q : Queue) (h : Hash) : Bool :=
  (q.cacheSet h).isSome

/-- The queue states reachable from `NewQueue` through calls of the methods of
`Queue` that have returned. -/
inductive Reachable (H : Nat → Hash) : Queue → Prop where
  | init : Reachable H NewQueue
  | putFinal {q : Queue} (fuel : Nat) (ps : PeerSnapshot) (err : Option Err) :
      Reachable H q → (q.PutFinal H fuel ps).2 = Outcome.returned err →
      Reachable H (q.PutFinal H fuel ps).1
  | putCache {q : Queue} (fuel : Nat) (ps : PeerSnapshot) (err : Option Err) :
      Reachable H q → (q.PutCache H fuel ps).2 = Outcome.returned err →
      Reachable H (q.PutCache H fuel ps).1
  | popFinal {q : Queue} : Reachable H q → Reachable H (q.PopFinal H).1
  | popCache {q : Queue} : Reachable H q → Reachable H (q.PopCache H).1
  | dispose {q : Queue} : Reachable H q → Reachable H q.Dispose

/-- The representation invariant of the queue: no identity twice in a ring,
every identity of a ring tracked by the dedup map of its channel, and, as long
as the ring is not disposed, nothing else tracked; occupancy within capacity. -/
structure Inv (H : Nat → Hash) (q : Queue) : Prop where
  finalNodup : (ringIds H q.finalRing).Nodup
  cacheNodup : (ringIds H q.cacheRing).Nodup
  finalSub : ∀ h ∈ ringIds H q.finalRing, q.finalTracked h = true
  cacheSub : ∀ h ∈ ringIds H q.cacheRing, q.cacheTracked h = true
  finalSup : q.finalRing.disposed = false →
    ∀ h, q.finalTracked h = true → h ∈ ringIds H q.finalRing
  cacheSup : q.cacheRing.disposed = false →
    ∀ h, q.cacheTracked h = true → h ∈ ringIds H q.cacheRing
  finalLen : q.finalRing.items.length ≤ q.finalRing.capacity
  cacheLen : q.cacheRing.items.length ≤ q.cacheRing.capacity
  finalCap : q.finalRing.capacity = 1024 * 1024
  cacheCap : q.cacheRing.capacity = 1024 * 1024

/-- The calls `PutFinal(ps)` for the elements of a list, in order: the final state
and the outcome of each call. -/
def putFinalAll (H : Nat → Hash) (fuel : Nat) : List PeerSnapshot → Queue → Queue × List Outcome
  | [], q => (q, [])
  | ps :: rest, q =>
    ((putFinalAll H fuel rest (q.PutFinal H fuel ps).1).1,
      (q.PutFinal H fuel ps).2 :: (putFinalAll H fuel rest (q.PutFinal H fuel ps).1).2)

/-- The calls `PutCache(ps)` for the elements of a list, in order. -/
def putCacheAll (H : Nat → Hash) (fuel : Nat) : List PeerSnapshot → Queue → Queue × List Outcome
  | [], q => (q, [])
  | ps :: rest, q =>
    ((putCacheAll H fuel rest (q.PutCache H fuel ps).1).1,
      (q.PutCache H fuel ps).2 :: (putCacheAll H fuel rest (q.PutCache H fuel ps).1).2)

/-- The method `PopFinal` called `n` times: the final state and what each call
returned. -/
def popFinalN (H : Nat → Hash) : Nat → Queue → Queue × List (Option PeerSnapshot × Option Err)
  | 0, q => (q, [])
  | n + 1, q =>
    ((popFinalN H n (q.PopFinal H).1).1, (q.PopFinal H).2 :: (popFinalN H n (q.PopFinal H).1).2)

/-- The method `PopCache` called `n` times. -/
def popCacheN (H : Nat → Hash) : Nat → Queue → Queue × List (Option PeerSnapshot × Option Err)
  | 0, q => (q, [])
  | n + 1, q =>
    ((popCacheN H n (q.PopCache H).1).1, (q.PopCache H).2 :: (popCacheN H n (q.PopCache H).1).2)

/-- A call of one of the four queue operations. -/
inductive Op where
  | putFinal (fuel : Nat) (ps : PeerSnapshot)
  | putCache (fuel : Nat) (ps : PeerSnapshot)
  | popFinal
  | popCache

/-- The queue state that a call leaves. -/
def Op.run (H : Nat → Hash) : Op → Queue → Queue
  | Op.putFinal fuel ps, q => (q.PutFinal H fuel ps).1
  | Op.putCache fuel ps, q => (q.PutCache H fuel ps).1
  | Op.popFinal, q => (q.PopFinal H).1
  | Op.popCache, q => (q.PopCache H).1

/-- A small queue used as a concrete input: both rings have a single slot, which
is occupied (identity 1 in the final ring, identity 2 in the cache ring). -/
def fullQueue : Queue :=
  { cacheRing := { capacity := 1, items := [⟨8, ⟨2, some [5]⟩⟩], disposed := false }
    finalRing := { capacity := 1, items := [⟨7, ⟨1, none⟩⟩], disposed := false }
    cacheSet := fun h => if h = 2 then some (some [5]) else none
    finalSet := fun h => if h = 1 then some true else none }

/-- The hook invocation that delivers an item: `hook(ps.PeerId, ps.Snapshot)`. -/
def hookCallOf (hook : Hash → Snapshot → Option Err) (ps : PeerSnapshot) : HookCall :=
  ⟨ps.PeerId, ps.Snapshot, hook ps.PeerId ps.Snapshot⟩

/-- An item of the cache ring as `PopCache` hands it out in state `q`: its
signatures are the ones that the cache dedup map of `q` records for its identity. -/
def drained (H : Nat → Hash) (q : Queue) (ps : PeerSnapshot) : PeerSnapshot :=
  { ps with Snapshot :=
    { ps.Snapshot with Signatures := (q.cacheSet (ps.Snapshot.PayloadHash H)).getD none } }

/-- The queue states reachable from `NewQueue` through calls of `PutFinal`,
`PutCache`, `PopFinal` and `PopCache` that have returned, `Dispose` never called. -/
inductive ReachableLive (H : Nat → Hash) : Queue → Prop where
  | init : ReachableLive H NewQueue
  | putFinal {q : Queue} (fuel : Nat) (ps : PeerSnapshot) (err : Option Err) :
      ReachableLive H q → (q.PutFinal H fuel ps).2 = Outcome.returned err →
      ReachableLive H (q.PutFinal H fuel ps).1
  | putCache {q : Queue} (fuel : Nat) (ps : PeerSnapshot) (err : Option Err) :
      ReachableLive H q → (q.PutCache H fuel ps).2 = Outcome.returned err →
      ReachableLive H (q.PutCache H fuel ps).1
  | popFinal {q : Queue} : ReachableLive H q → ReachableLive H (q.PopFinal H).1
  | popCache {q : Queue} : ReachableLive H q → ReachableLive H (q.PopCache H).1

/-! ## Two callers and the mutex

The sequential definitions above run every method as one transition.  To follow
a `Put` that is inside its retry loop while other callers try to pop, the part
below splits `PutFinal` and `PutCache` at the points where they can wait: at
`q.mutex.Lock()` and at each pass of the retry loop, during which the mutex stays
locked until the deferred `q.mutex.Unlock()` runs at the return.  `PopFinal` and
`PopCache` wait at `q.mutex.Lock()` only; `Dispose` does not lock the mutex. -/

/-- Where the caller of `PutFinal` (or `PutCache`) stands: waiting at
`q.mutex.Lock()`, inside the retry loop with the mutex locked, or returned. -/
inductive PutAt where
  | lock
  | retry
  | done (err : Option Err)
deriving DecidableEq

/-- The queue together with its mutex, the position of one `Put` caller, and the
results of the `PopFinal` and `PopCache` calls that have returned so far. -/
structure Conc where
  queue : Queue
  locked : Bool
  put : PutAt
  popped : List (Option PeerSnapshot × Option Err)

/-- What the scheduler lets happen next: a step of the `Put` caller, a call of
`PopFinal` or of `PopCache` by another caller, or a call of `Dispose`. -/
inductive Act where
  | put
  | popFinal
  | popCache
  | dispose
deriving DecidableEq

/-- The ring of a channel: the final ring for `true`, the cache ring for `false`. -/
def ringOf (final : Bool) (q : Queue) : RingBuffer PeerSnapshot :=
  if final then q.finalRing else q.cacheRing

/-- The queue with the ring of a channel replaced. -/
def withRing (final : Bool) (q : Queue) (rb : RingBuffer PeerSnapshot) : Queue :=
  if final then { q with finalRing := rb } else { q with cacheRing := rb }

/-- The lines of `PutFinal` (for `true`) or `PutCache` (for `false`) between the
lock and the retry loop: the new queue, and whether the method returns `nil`
there instead of entering the loop. -/
def putEnter (H : Nat → Hash) (final : Bool) (q : Queue) (ps : PeerSnapshot) : Queue × Bool :=
  let hash := ps.Snapshot.PayloadHash H
  if final then
    if (q.finalSet hash).getD false then (q, true)
    else ({ q with finalSet := Function.update q.finalSet hash (some true) }, false)
  else
    let found := (q.cacheSet hash).isSome
    ({ q with cacheSet := Function.update q.cacheSet hash (some ps.Snapshot.Signatures) }, found)

/-- The queue after the identity of `ps` has been recorded in the dedup map of
the channel (`q.finalSet[hash] = true`, resp. `q.cacheSet[hash] = signatures`). -/
def putMarked (H : Nat → Hash) (final : Bool) (q : Queue) (ps : PeerSnapshot) : Queue :=
  (putEnter H final q ps).1

/-- One scheduled step.  A caller that finds the mutex locked at `Lock()` does not
move.  The `Put` caller that gets the mutex runs up to the retry loop; each later
step of it is one pass of the loop, which either returns (the deferred `Unlock()`
frees the mutex) or sleeps with the mutex still locked.  A pop that gets the mutex
runs to its return. -/
def Conc.step (H : Nat → Hash) (final : Bool) (ps : PeerSnapshot) (a : Act) (c : Conc) : Conc :=
  match a with
  | Act.put =>
    match c.put with
    | PutAt.lock =>
      if c.locked then c
      else
        match putEnter H final c.queue ps with
        | (q1, true) => { c with queue := q1, put := PutAt.done none }
        | (q1, false) => { c with queue := q1, locked := true, put := PutAt.retry }
    | PutAt.retry =>
      match offerPass (ringOf final c.queue) ps with
      | (rb, some err) =>
        { c with queue := withRing final c.queue rb, locked := false, put := PutAt.done err }
      | (rb, none) => { c with queue := withRing final c.queue rb }
    | PutAt.done _ => c
  | Act.popFinal =>
    if c.locked then c
    else { c with queue := (c.queue.PopFinal H).1, popped := c.popped ++ [(c.queue.PopFinal H).2] }
  | Act.popCache =>
    if c.locked then c
    else { c with queue := (c.queue.PopCache H).1, popped := c.popped ++ [(c.queue.PopCache H).2] }
  | Act.dispose => { c with queue := c.queue.Dispose }

/-- A schedule, run from left to right. -/
def Conc.run (H : Nat → Hash) (final : Bool) (ps : PeerSnapshot) : List Act → Conc → Conc
  | [], c => c
  | a :: rest, c => Conc.run H final ps rest (Conc.step H final ps a c)

/-- The start of the scenario: nobody holds the mutex, the `Put` caller is about
to lock it, no pop has returned. -/
def Conc.start (q : Queue) : Conc :=
  { queue := q, locked := false, put := PutAt.lock, popped := [] }

/-- The situation of a `Put` caller inside its retry loop on a ring that has no
free slot or is disposed: either it is still there, with the mutex locked, the
ring holding the same items and no pop returned, or it has returned the disposal
error and the mutex is free. -/
def Waiting (final : Bool) (items : List PeerSnapshot) (c : Conc) : Prop :=
  (c.put = PutAt.retry ∧ c.locked = true ∧ c.popped = [] ∧
    (ringOf final c.queue).items = items ∧
    ((ringOf final c.queue).disposed = true ∨
      (ringOf final c.queue).capacity ≤ (ringOf final c.queue).items.length)) ∨
  (c.put = PutAt.done (some Err.disposed) ∧ c.locked = false)

/-! ## Snapshots behind pointers

In the definitions above a ring item is the record that a `*PeerSnapshot` points
to, read when the item is put.  That reading gives what each call returns, but it
cannot show a write that reaches an item through a second pointer: the field
`Snapshot` of a `PeerSnapshot` is a `*common.Snapshot`, and `PopCache` assigns
`ps.Snapshot.Signatures` through it.  The definitions below keep the snapshot
objects in a memory (`Heap`) and let the rings hold the pointers, as the code
does.  A `PeerSnapshot` itself is never written after it is built, so it is kept as
the pair of its two fields. -/

/-- The value of a `*common.Snapshot`: the address of a snapshot object. -/
abbrev Addr := Nat

/-- The memory holding the snapshot objects. -/
abbrev Heap := Addr → Snapshot

/-- The struct `PeerSnapshot` with its field `Snapshot` as the pointer it is. -/
structure PeerRef where
  PeerId : Hash
  Snapshot : Addr
deriving DecidableEq

/-- The record that an item denotes in a given memory. -/
def PeerRef.deref (heap : Heap) (r : PeerRef) : PeerSnapshot :=
  ⟨r.PeerId, heap r.Snapshot⟩

/-- The struct `Queue`, its rings holding items with snapshot pointers. -/
structure RefQueue where
  cacheRing : RingBuffer PeerRef
  finalRing : RingBuffer PeerRef
  cacheSet : Hash → Option (Option (List Signature))
  finalSet : Hash → Option Bool

/-- The constructor `NewQueue`, for `RefQueue`. -/
def NewRefQueue : RefQueue :=
  { cacheSet := fun _ => none
    finalSet := fun _ => none
    cacheRing := NewRingBuffer (1024 * 1024)
    finalRing := NewRingBuffer (1024 * 1024) }

/-- The method `Queue.Len`, for `RefQueue`. -/
def RefQueue.Len (q : RefQueue) : Nat :=
  (q.finalRing.Len + q.cacheRing.Len) % 2 ^ 64

/-- One pass through the body of the retry loop, on a ring of `PeerRef` items. -/
def offerPassRef (rb : RingBuffer PeerRef) (r : PeerRef) :
    RingBuffer PeerRef × Option (Option Err) :=
  match rb.Offer r with
  | (rb1, put, err) =>
    if err.isSome || put then (rb1, some err) else (rb1, none)

/-- The retry loop, on a ring of `PeerRef` items, for at most `fuel` iterations. -/
def retryOfferRef : Nat → RingBuffer PeerRef → PeerRef → RingBuffer PeerRef × Outcome
  | 0, rb, _ => (rb, Outcome.blocked)
  | fuel + 1, rb, r =>
    match offerPassRef rb r with
    | (rb1, some err) => (rb1, Outcome.returned err)
    | (rb1, none) => retryOfferRef fuel rb1 r

/-- The method `Queue.PutFinal` on `RefQueue`.  It reads the snapshot of `r` for its
identity and writes no snapshot. -/
def RefQueue.PutFinal (H : Nat → Hash) (fuel : Nat) (heap : Heap) (q : RefQueue)
    (r : PeerRef) : RefQueue × Outcome :=
  let hash := (heap r.Snapshot).PayloadHash H
  if (q.finalSet hash).getD false then (q, Outcome.returned none)
  else
    let q1 := { q with finalSet := Function.update q.finalSet hash (some true) }
    match retryOfferRef fuel q1.finalRing r with
    | (rb, out) => ({ q1 with finalRing := rb }, out)

/-- The method `Queue.PopFinal` on `RefQueue`.  It writes no snapshot. -/
def RefQueue.PopFinal (H : Nat → Hash) (heap : Heap) (q : RefQueue) :
    RefQueue × Option PeerRef × Option Err :=
  match q.finalRing.Poll with
  | (rb, _, some err) => ({ q with finalRing := rb }, none, some err)
  | (rb, none, none) => ({ q with finalRing := rb }, none, none)
  | (rb, some r, none) =>
    let hash := (heap r.Snapshot).PayloadHash H
    ({ q with finalRing := rb, finalSet := Function.update q.finalSet hash none },
      some r, none)

/-- The method `Queue.PutCache` on `RefQueue`.  It reads the snapshot of `r` for its
identity and its signatures and writes no snapshot. -/
def RefQueue.PutCache (H : Nat → Hash) (fuel : Nat) (heap : Heap) (q : RefQueue)
    (r : PeerRef) : RefQueue × Outcome :=
  let hash := (heap r.Snapshot).PayloadHash H
  let found := (q.cacheSet hash).isSome
  let q1 := { q with cacheSet := Function.update q.cacheSet hash (some (heap r.Snapshot).Signatures) }
  if found then (q1, Outcome.returned none)
  else
    match retryOfferRef fuel q1.cacheRing r with
    | (rb, out) => ({ q1 with cacheRing := rb }, out)

/-- The method `Queue.PopCache` on `RefQueue`: the assignment
`ps.Snapshot.Signatures = q.cacheSet[hash]` is a write to the snapshot object at
the address `ps.Snapshot`; the new memory is part of the result. -/
def RefQueue.PopCache (H : Nat → Hash) (heap : Heap) (q : RefQueue) :
    RefQueue × Heap × Option PeerRef × Option Err :=
  match q.cacheRing.Poll with
  | (rb, _, some err) => ({ q with cacheRing := rb }, heap, none, some err)
  | (rb, none, none) => ({ q with cacheRing := rb }, heap, none, none)
  | (rb, some r, none) =>
    let hash := (heap r.Snapshot).PayloadHash H
    let heap1 : Heap := Function.update heap r.Snapshot
      { heap r.Snapshot with Signatures := (q.cacheSet hash).getD none }
    ({ q with cacheRing := rb, cacheSet := Function.update q.cacheSet hash none },
      heap1, some r, none)

/-- The queue of records that a `RefQueue` denotes in a given memory: every ring
item read through its snapshot pointer. -/
def RefQueue.view (heap : Heap) (q : RefQueue) : Queue :=
  { cacheRing :=
      { capacity := q.cacheRing.capacity, items := q.cacheRing.items.map (PeerRef.deref heap),
        disposed := q.cacheRing.disposed }
    finalRing :=
      { capacity := q.finalRing.capacity, items := q.finalRing.items.map (PeerRef.deref heap),
        disposed := q.finalRing.disposed }
    cacheSet := q.cacheSet
    finalSet := q.finalSet }

/-- One iteration of the body of the loop of `QueuePollSnapshots` on a `RefQueue`
(the store is not closing): the new queue, the new memory, and the hook
invocations made, each recorded with the snapshot as it is when the hook is
called. -/
def RefQueue.pollBody (H : Nat → Hash) (hook : Hash → Snapshot → Option Err)
    (heap : Heap) (q : RefQueue) : RefQueue × Heap × List HookCall :=
  match q.PopFinal H heap with
  | (q1, _, some _) => (q1, heap, [])
  | (q1, some r, none) =>
    (q1, heap, [⟨r.PeerId, heap r.Snapshot, hook r.PeerId (heap r.Snapshot)⟩])
  | (q1, none, none) =>
    match q1.PopCache H heap with
    | (q2, heap2, _, some _) => (q2, heap2, [])
    | (q2, heap2, none, none) => (q2, heap2, [])
    | (q2, heap2, some r, none) =>
      (q2, heap2, [⟨r.PeerId, heap2 r.Snapshot, hook r.PeerId (heap2 r.Snapshot)⟩])

/-- The loop of `QueuePollSnapshots` on a `RefQueue`, for `n` iterations. -/
def RefQueue.pollN (H : Nat → Hash) (hook : Hash → Snapshot → Option Err) :
    Nat → Heap → RefQueue → RefQueue × Heap × List HookCall
  | 0, heap, q => (q, heap, [])
  | n + 1, heap, q =>
    match q.pollBody H hook heap with
    | (q1, heap1, calls) =>
      match RefQueue.pollN H hook n heap1 q1 with
      | (q2, heap2, rest) => (q2, heap2, calls ++ rest)

/-- A memory used as a concrete input: the snapshot at address 0 has identity 1
and signatures `[3]`, every other snapshot has identity 1 and signatures `[9]`. -/
def sharedHeap : Heap :=
  fun a => if a = 0 then ⟨1, some [3]⟩ else ⟨1, some [9]⟩

/-- A queue used as a concrete input, built on a fresh queue in the memory
`sharedHeap`: `PutFinal` and `PutCache` of one item whose snapshot is at address
0, then `PutCache` of an item from another peer with the snapshot at address 1,
which has the same identity and the signatures `[9]`. -/
def sharedQueue : RefQueue :=
  ((((NewRefQueue.PutFinal id 1 sharedHeap ⟨7, 0⟩).1.PutCache id 1 sharedHeap ⟨7, 0⟩).1).PutCache
    id 1 sharedHeap ⟨8, 1⟩).1

/-- A ring of `PeerRef` items read through the snapshot pointers. -/
def derefRing (heap : Heap) (rb : RingBuffer PeerRef) : RingBuffer PeerSnapshot :=
  { capacity := rb.capacity, items := rb.items.map (PeerRef.deref heap),
    disposed := rb.disposed }

/-! ## The retry loop -/

theorem offerPass_disposed (rb : RingBuffer PeerSnapshot) (ps : PeerSnapshot)
    (hd : rb.disposed = true) : offerPass rb ps = (rb, some (some Err.disposed)) := by
  simp [offerPass, RingBuffer.Offer, hd]

theorem offerPass_space (rb : RingBuffer PeerSnapshot) (ps : PeerSnapshot)
    (hd : rb.disposed = false) (hs : rb.items.length < rb.capacity) :
    offerPass rb ps = ({ rb with items := rb.items ++ [ps] }, some none) := by
  simp [offerPass, RingBuffer.Offer, hd, hs]

theorem offerPass_full (rb : RingBuffer PeerSnapshot) (ps : PeerSnapshot)
    (hd : rb.disposed = false) (hf : rb.capacity ≤ rb.items.length) :
    offerPass rb ps = (rb, none) := by
  simp [offerPass, RingBuffer.Offer, hd, Nat.not_lt.mpr hf]

theorem retryOffer_disposed (fuel : Nat) (rb : RingBuffer PeerSnapshot) (ps : PeerSnapshot)
    (hd : rb.disposed = true) :
    retryOffer (fuel + 1) rb ps = (rb, Outcome.returned (some Err.disposed)) := by
  simp [retryOffer, offerPass_disposed rb ps hd]

theorem retryOffer_space (fuel : Nat) (rb : RingBuffer PeerSnapshot) (ps : PeerSnapshot)
    (hd : rb.disposed = false) (hs : rb.items.length < rb.capacity) :
    retryOffer (fuel + 1) rb ps =
      ({ rb with items := rb.items ++ [ps] }, Outcome.returned none) := by
  simp [retryOffer, offerPass_space rb ps hd hs]

theorem retryOffer_full (fuel : Nat) (rb : RingBuffer PeerSnapshot) (ps : PeerSnapshot)
    (hd : rb.disposed = false) (hf : rb.capacity ≤ rb.items.length) :
    retryOffer fuel rb ps = (rb, Outcome.blocked) := by
  induction fuel with
  | zero => rfl
  | succ n ih => simp [retryOffer, offerPass_full rb ps hd hf, ih]

/-- A retry loop that has returned did so on a disposed ring, with the error and
the ring unchanged, or on a ring with a free slot, with `nil` and the item
appended. -/
theorem retryOffer_returned {fuel : Nat} {rb rb1 : RingBuffer PeerSnapshot}
    {ps : PeerSnapshot} {err : Option Err}
    (h : retryOffer fuel rb ps = (rb1, Outcome.returned err)) :
    (rb.disposed = true ∧ rb1 = rb ∧ err = some Err.disposed) ∨
    (rb.disposed = false ∧ rb.items.length < rb.capacity ∧
      rb1 = { rb with items := rb.items ++ [ps] } ∧ err = none) := by
  cases fuel with
  | zero => simp [retryOffer] at h
  | succ n =>
    rcases Bool.eq_false_or_eq_true rb.disposed with hd | hd
    · rw [retryOffer_disposed n rb ps hd] at h
      simp only [Prod.mk.injEq, Outcome.returned.injEq] at h
      exact Or.inl ⟨hd, h.1.symm, h.2.symm⟩
    · by_cases hs : rb.items.length < rb.capacity
      · rw [retryOffer_space n rb ps hd hs] at h
        simp only [Prod.mk.injEq, Outcome.returned.injEq] at h
        exact Or.inr ⟨hd, hs, h.1.symm, h.2.symm⟩
      · rw [retryOffer_full (n + 1) rb ps hd (Nat.not_lt.mp hs)] at h
        simp at h

/-! ## The four queue operations, case by case -/

theorem PutFinal_tracked (H : Nat → Hash) (fuel : Nat) (q : Queue) (ps : PeerSnapshot)
    (ht : q.finalTracked (ps.Snapshot.PayloadHash H) = true) :
    q.PutFinal H fuel ps = (q, Outcome.returned none) := by
  unfold Queue.finalTracked at ht
  simp [Queue.PutFinal, ht]

theorem PutFinal_untracked (H : Nat → Hash) (fuel : Nat) (q : Queue) (ps : PeerSnapshot)
    (ht : q.finalTracked (ps.Snapshot.PayloadHash H) = false) :
    q.PutFinal H fuel ps =
      ({ q with
          finalSet := Function.update q.finalSet (ps.Snapshot.PayloadHash H) (some true),
          finalRing := (retryOffer fuel q.finalRing ps).1 },
        (retryOffer fuel q.finalRing ps).2) := by
  unfold Queue.finalTracked at ht
  simp [Queue.PutFinal, ht]

theorem PutCache_tracked (H : Nat → Hash) (fuel : Nat) (q : Queue) (ps : PeerSnapshot)
    (ht : q.cacheTracked (ps.Snapshot.PayloadHash H) = true) :
    q.PutCache H fuel ps =
      ({ q with
          cacheSet := Function.update q.cacheSet (ps.Snapshot.PayloadHash H)
            (some ps.Snapshot.Signatures) }, Outcome.returned none) := by
  unfold Queue.cacheTracked at ht
  simp [Queue.PutCache, ht]

theorem PutCache_untracked (H : Nat → Hash) (fuel : Nat) (q : Queue) (ps : PeerSnapshot)
    (ht : q.cacheTracked (ps.Snapshot.PayloadHash H) = false) :
    q.PutCache H fuel ps =
      ({ q with
          cacheSet := Function.update q.cacheSet (ps.Snapshot.PayloadHash H)
            (some ps.Snapshot.Signatures),
          cacheRing := (retryOffer fuel q.cacheRing ps).1 },
        (retryOffer fuel q.cacheRing ps).2) := by
  unfold Queue.cacheTracked at ht
  simp [Queue.PutCache, ht]

theorem PopFinal_disposed (H : Nat → Hash) (q : Queue) (hd : q.finalRing.disposed = true) :
    q.PopFinal H = (q, none, some Err.disposed) := by
  simp [Queue.PopFinal, RingBuffer.Poll, hd]

theorem PopFinal_empty (H : Nat → Hash) (q : Queue) (hd : q.finalRing.disposed = false)
    (he : q.finalRing.items = []) : q.PopFinal H = (q, none, none) := by
  simp [Queue.PopFinal, RingBuffer.Poll, hd, he]

theorem PopFinal_cons (H : Nat → Hash) (q : Queue) (ps : PeerSnapshot)
    (rest : List PeerSnapshot) (hd : q.finalRing.disposed = false)
    (he : q.finalRing.items = ps :: rest) :
    q.PopFinal H =
      ({ q with
          finalRing := { q.finalRing with items := rest },
          finalSet := Function.update q.finalSet (ps.Snapshot.PayloadHash H) none },
        some ps, none) := by
  simp [Queue.PopFinal, RingBuffer.Poll, hd, he]

theorem PopCache_disposed (H : Nat → Hash) (q : Queue) (hd : q.cacheRing.disposed = true) :
    q.PopCache H = (q, none, some Err.disposed) := by
  simp [Queue.PopCache, RingBuffer.Poll, hd]

theorem PopCache_empty (H : Nat → Hash) (q : Queue) (hd : q.cacheRing.disposed = false)
    (he : q.cacheRing.items = []) : q.PopCache H = (q, none, none) := by
  simp [Queue.PopCache, RingBuffer.Poll, hd, he]

theorem PopCache_cons (H : Nat → Hash) (q : Queue) (ps : PeerSnapshot)
    (rest : List PeerSnapshot) (hd : q.cacheRing.disposed = false)
    (he : q.cacheRing.items = ps :: rest) :
    q.PopCache H =
      ({ q with
          cacheRing := { q.cacheRing with items := rest },
          cacheSet := Function.update q.cacheSet (ps.Snapshot.PayloadHash H) none },
        some { ps with Snapshot :=
          { ps.Snapshot with
            Signatures := (q.cacheSet (ps.Snapshot.PayloadHash H)).getD none } },
        none) := by
  simp [Queue.PopCache, RingBuffer.Poll, hd, he]

/-! ## The invariant holds in every reachable state -/

theorem inv_init (H : Nat → Hash) : Inv H NewQueue := by
  constructor <;> simp [NewQueue, NewRingBuffer, ringIds, Queue.finalTracked, Queue.cacheTracked]

theorem inv_dispose (H : Nat → Hash) (q : Queue) (hi : Inv H q) : Inv H q.Dispose := by
  obtain ⟨h1, h2, h3, h4, _, _, h7, h8, h9, h10⟩ := hi
  constructor <;>
    simp_all [Queue.Dispose, RingBuffer.Dispose, ringIds, Queue.finalTracked, Queue.cacheTracked]

theorem inv_putFinal (H : Nat → Hash) (fuel : Nat) (q : Queue) (ps : PeerSnapshot)
    (err : Option Err) (hi : Inv H q) (hr : (q.PutFinal H fuel ps).2 = Outcome.returned err) :
    Inv H (q.PutFinal H fuel ps).1 := by
  rcases Bool.eq_false_or_eq_true (q.finalTracked (ps.Snapshot.PayloadHash H)) with ht | ht
  · rw [PutFinal_tracked H fuel q ps ht]; exact hi
  · rw [PutFinal_untracked H fuel q ps ht] at hr ⊢
    have hr1 : retryOffer fuel q.finalRing ps =
        ((retryOffer fuel q.finalRing ps).1, Outcome.returned err) := Prod.ext rfl hr
    obtain ⟨h1, h2, h3, h4, h5, h6, h7, h8, h9, h10⟩ := hi
    have hnew : ps.Snapshot.PayloadHash H ∉ ringIds H q.finalRing := by
      intro hmem
      rw [h3 _ hmem] at ht
      exact Bool.noConfusion ht
    rcases retryOffer_returned hr1 with ⟨hd, hrb, _⟩ | ⟨hd, hs, hrb, _⟩
    · rw [hrb]
      constructor
      · exact h1
      · exact h2
      · intro h hm
        have := h3 h hm
        simp only [Queue.finalTracked, Function.update_apply] at this ⊢
        split
        · rfl
        · exact this
      · exact h4
      · intro hd1
        simp [hd] at hd1
      · exact h6
      · exact h7
      · exact h8
      · exact h9
      · exact h10
    · rw [hrb]
      constructor
      · simp only [ringIds, List.map_append, List.map_cons, List.map_nil]
        rw [List.nodup_append]
        refine ⟨h1, List.nodup_singleton _, ?_⟩
        intro a ha hb
        rw [List.mem_singleton] at hb
        subst hb
        exact hnew ha
      · exact h2
      · intro h hm
        simp only [ringIds, List.map_append, List.map_cons, List.map_nil, List.mem_append,
          List.mem_singleton] at hm
        simp only [Queue.finalTracked, Function.update_apply]
        rcases hm with hm | hm
        · have := h3 h hm
          simp only [Queue.finalTracked] at this
          split
          · rfl
          · exact this
        · simp [hm]
      · exact h4
      · intro _ h hm
        simp only [Queue.finalTracked, Function.update_apply] at hm
        simp only [ringIds, List.map_append, List.map_cons, List.map_nil, List.mem_append,
          List.mem_singleton]
        by_cases he : h = ps.Snapshot.PayloadHash H
        · exact Or.inr he
        · rw [if_neg he] at hm
          exact Or.inl (h5 hd h hm)
      · exact h6
      · simp only [List.length_append, List.length_singleton]
        omega
      · exact h8
      · exact h9
      · exact h10

theorem inv_putCache (H : Nat → Hash) (fuel : Nat) (q : Queue) (ps : PeerSnapshot)
    (err : Option Err) (hi : Inv H q) (hr : (q.PutCache H fuel ps).2 = Outcome.returned err) :
    Inv H (q.PutCache H fuel ps).1 := by
  obtain ⟨h1, h2, h3, h4, h5, h6, h7, h8, h9, h10⟩ := hi
  rcases Bool.eq_false_or_eq_true (q.cacheTracked (ps.Snapshot.PayloadHash H)) with ht | ht
  · rw [PutCache_tracked H fuel q ps ht]
    constructor
    · exact h1
    · exact h2
    · exact h3
    · intro h hm
      have := h4 h hm
      simp only [Queue.cacheTracked, Function.update_apply] at this ⊢
      split
      · rfl
      · exact this
    · exact h5
    · intro hd h hm
      simp only [Queue.cacheTracked, Function.update_apply] at hm
      by_cases he : h = ps.Snapshot.PayloadHash H
      · rw [he]; exact h6 hd _ ht
      · rw [if_neg he] at hm
        exact h6 hd h hm
    · exact h7
    · exact h8
    · exact h9
    · exact h10
  · rw [PutCache_untracked H fuel q ps ht] at hr ⊢
    have hr1 : retryOffer fuel q.cacheRing ps =
        ((retryOffer fuel q.cacheRing ps).1, Outcome.returned err) := Prod.ext rfl hr
    have hnew : ps.Snapshot.PayloadHash H ∉ ringIds H q.cacheRing := by
      intro hmem
      rw [h4 _ hmem] at ht
      exact Bool.noConfusion ht
    rcases retryOffer_returned hr1 with ⟨hd, hrb, _⟩ | ⟨hd, hs, hrb, _⟩
    · rw [hrb]
      constructor
      · exact h1
      · exact h2
      · exact h3
      · intro h hm
        have := h4 h hm
        simp only [Queue.cacheTracked, Function.update_apply] at this ⊢
        split
        · rfl
        · exact this
      · exact h5
      · intro hd1
        simp [hd] at hd1
      · exact h7
      · exact h8
      · exact h9
      · exact h10
    · rw [hrb]
      constructor
      · exact h1
      · simp only [ringIds, List.map_append, List.map_cons, List.map_nil]
        rw [List.nodup_append]
        refine ⟨h2, List.nodup_singleton _, ?_⟩
        intro a ha hb
        rw [List.mem_singleton] at hb
        subst hb
        exact hnew ha
      · exact h3
      · intro h hm
        simp only [ringIds, List.map_append, List.map_cons, List.map_nil, List.mem_append,
          List.mem_singleton] at hm
        simp only [Queue.cacheTracked, Function.update_apply]
        rcases hm with hm | hm
        · have := h4 h hm
          simp only [Queue.cacheTracked] at this
          split
          · rfl
          · exact this
        · simp [hm]
      · exact h5
      · intro _ h hm
        simp only [Queue.cacheTracked, Function.update_apply] at hm
        simp only [ringIds, List.map_append, List.map_cons, List.map_nil, List.mem_append,
          List.mem_singleton]
        by_cases he : h = ps.Snapshot.PayloadHash H
        · exact Or.inr he
        · rw [if_neg he] at hm
          exact Or.inl (h6 hd h hm)
      · exact h7
      · simp only [List.length_append, List.length_singleton]
        omega
      · exact h9
      · exact h10

theorem inv_popFinal (H : Nat → Hash) (q : Queue) (hi : Inv H q) : Inv H (q.PopFinal H).1 := by
  rcases Bool.eq_false_or_eq_true q.finalRing.disposed with hd | hd
  · rw [PopFinal_disposed H q hd]; exact hi
  · cases he : q.finalRing.items with
    | nil => rw [PopFinal_empty H q hd he]; exact hi
    | cons ps rest =>
      rw [PopFinal_cons H q ps rest hd he]
      obtain ⟨h1, h2, h3, h4, h5, h6, h7, h8, h9, h10⟩ := hi
      have hids : ringIds H q.finalRing =
          ps.Snapshot.PayloadHash H :: rest.map (fun p => p.Snapshot.PayloadHash H) := by
        simp [ringIds, he]
      rw [hids] at h1 h3 h5
      rw [List.nodup_cons] at h1
      constructor
      · exact h1.2
      · exact h2
      · intro h hm
        have hm1 : h ∈ rest.map (fun p => p.Snapshot.PayloadHash H) := hm
        have hne : h ≠ ps.Snapshot.PayloadHash H := fun e => h1.1 (e ▸ hm1)
        have := h3 h (List.mem_cons_of_mem _ hm1)
        simp only [Queue.finalTracked, Function.update_apply, if_neg hne] at this ⊢
        exact this
      · exact h4
      · intro _ h hm
        simp only [Queue.finalTracked, Function.update_apply] at hm
        by_cases hne : h = ps.Snapshot.PayloadHash H
        · rw [if_pos hne] at hm
          simp at hm
        · rw [if_neg hne] at hm
          have := h5 hd h hm
          rw [List.mem_cons] at this
          rcases this with e | hin
          · exact absurd e hne
          · exact hin
      · exact h6
      · have : rest.length ≤ q.finalRing.capacity := by
          rw [he] at h7
          simp only [List.length_cons] at h7
          omega
        exact this
      · exact h8
      · exact h9
      · exact h10

theorem inv_popCache (H : Nat → Hash) (q : Queue) (hi : Inv H q) : Inv H (q.PopCache H).1 := by
  rcases Bool.eq_false_or_eq_true q.cacheRing.disposed with hd | hd
  · rw [PopCache_disposed H q hd]; exact hi
  · cases he : q.cacheRing.items with
    | nil => rw [PopCache_empty H q hd he]; exact hi
    | cons ps rest =>
      rw [PopCache_cons H q ps rest hd he]
      obtain ⟨h1, h2, h3, h4, h5, h6, h7, h8, h9, h10⟩ := hi
      have hids : ringIds H q.cacheRing =
          ps.Snapshot.PayloadHash H :: rest.map (fun p => p.Snapshot.PayloadHash H) := by
        simp [ringIds, he]
      rw [hids] at h2 h4 h6
      rw [List.nodup_cons] at h2
      constructor
      · exact h1
      · exact h2.2
      · exact h3
      · intro h hm
        have hm1 : h ∈ rest.map (fun p => p.Snapshot.PayloadHash H) := hm
        have hne : h ≠ ps.Snapshot.PayloadHash H := fun e => h2.1 (e ▸ hm1)
        have := h4 h (List.mem_cons_of_mem _ hm1)
        simp only [Queue.cacheTracked, Function.update_apply, if_neg hne] at this ⊢
        exact this
      · exact h5
      · intro _ h hm
        simp only [Queue.cacheTracked, Function.update_apply] at hm
        by_cases hne : h = ps.Snapshot.PayloadHash H
        · rw [if_pos hne] at hm
          simp at hm
        · rw [if_neg hne] at hm
          have := h6 hd h hm
          rw [List.mem_cons] at this
          rcases this with e | hin
          · exact absurd e hne
          · exact hin
      · exact h7
      · have : rest.length ≤ q.cacheRing.capacity := by
          rw [he] at h8
          simp only [List.length_cons] at h8
          omega
        exact this
      · exact h9
      · exact h10

/-- Every reachable state of the queue satisfies the representation invariant. -/
theorem Reachable.inv {H : Nat → Hash} {q : Queue} (hq : Reachable H q) : Inv H q := by
  induction hq with
  | init => exact inv_init H
  | putFinal fuel ps err _ hr ih => exact inv_putFinal H fuel _ ps err ih hr
  | putCache fuel ps err _ hr ih => exact inv_putCache H fuel _ ps err ih hr
  | popFinal _ ih => exact inv_popFinal H _ ih
  | popCache _ ih => exact inv_popCache H _ ih
  | dispose _ ih => exact inv_dispose H _ ih

/-! ## Idempotence of `PutFinal` -/

/-- C1: `PutFinal` is idempotent per identity.  In every reachable state whose
final ring is neither disposed nor full, `PutFinal(ps)` returns `nil`; a following
`PutFinal(ps2)` of the same identity returns `nil` for every number of loop
iterations allowed, zero included (so it never enters the retry loop), and leaves
the whole queue state as the first call left it; the final ring then holds exactly
one item of that identity. -/
theorem C1_putFinal_idempotent (H : Nat → Hash) (q : Queue) (ps ps2 : PeerSnapshot)
    (fuel fuel2 : Nat) (hq : Reachable H q) (hd : q.finalRing.disposed = false)
    (hs : q.finalRing.items.length < q.finalRing.capacity)
    (hid : ps2.Snapshot.PayloadHash H = ps.Snapshot.PayloadHash H) :
    (q.PutFinal H (fuel + 1) ps).2 = Outcome.returned none ∧
    (q.PutFinal H (fuel + 1) ps).1.PutFinal H fuel2 ps2 =
      ((q.PutFinal H (fuel + 1) ps).1, Outcome.returned none) ∧
    (q.PutFinal H (fuel + 1) ps).1.PutFinal H 0 ps2 =
      ((q.PutFinal H (fuel + 1) ps).1, Outcome.returned none) ∧
    (ringIds H (q.PutFinal H (fuel + 1) ps).1.finalRing).count (ps.Snapshot.PayloadHash H) = 1 := by
  have hi := hq.inv
  rcases Bool.eq_false_or_eq_true (q.finalTracked (ps.Snapshot.PayloadHash H)) with ht | ht
  · have ht2 : q.finalTracked (ps2.Snapshot.PayloadHash H) = true := by rw [hid]; exact ht
    rw [PutFinal_tracked H (fuel + 1) q ps ht]
    refine ⟨rfl, PutFinal_tracked H fuel2 q ps2 ht2, PutFinal_tracked H 0 q ps2 ht2, ?_⟩
    exact List.count_eq_one_of_mem hi.finalNodup (hi.finalSup hd _ ht)
  · have hnew : ps.Snapshot.PayloadHash H ∉ ringIds H q.finalRing := by
      intro hmem
      rw [hi.finalSub _ hmem] at ht
      exact Bool.noConfusion ht
    rw [PutFinal_untracked H (fuel + 1) q ps ht, retryOffer_space fuel q.finalRing ps hd hs]
    have ht2 : ∀ f, Queue.PutFinal H f
        { q with
          finalSet := Function.update q.finalSet (ps.Snapshot.PayloadHash H) (some true),
          finalRing := { q.finalRing with items := q.finalRing.items ++ [ps] } } ps2 =
        ({ q with
          finalSet := Function.update q.finalSet (ps.Snapshot.PayloadHash H) (some true),
          finalRing := { q.finalRing with items := q.finalRing.items ++ [ps] } },
          Outcome.returned none) := by
      intro f
      apply PutFinal_tracked
      show (Function.update q.finalSet (ps.Snapshot.PayloadHash H) (some true)
        (ps2.Snapshot.PayloadHash H)).getD false = true
      rw [hid, Function.update_same]
      rfl
    refine ⟨rfl, ht2 fuel2, ht2 0, ?_⟩
    simp only [ringIds, List.map_append, List.map_cons, List.map_nil, List.count_append]
    have h0 : List.count (ps.Snapshot.PayloadHash H)
        (q.finalRing.items.map (fun p => p.Snapshot.PayloadHash H)) = 0 :=
      List.count_eq_zero_of_not_mem hnew
    rw [h0]
    simp

/-- C1 at a concrete input: a fresh queue, and two snapshots of identity 5 that
come from different peers and carry different signatures. -/
theorem C1_putFinal_idempotent_witness :
    (NewQueue.PutFinal id 1 ⟨1, ⟨5, none⟩⟩).2 = Outcome.returned none ∧
    (NewQueue.PutFinal id 1 ⟨1, ⟨5, none⟩⟩).1.PutFinal id 3 ⟨2, ⟨5, some [9]⟩⟩ =
      ((NewQueue.PutFinal id 1 ⟨1, ⟨5, none⟩⟩).1, Outcome.returned none) ∧
    (NewQueue.PutFinal id 1 ⟨1, ⟨5, none⟩⟩).1.PutFinal id 0 ⟨2, ⟨5, some [9]⟩⟩ =
      ((NewQueue.PutFinal id 1 ⟨1, ⟨5, none⟩⟩).1, Outcome.returned none) ∧
    (ringIds id (NewQueue.PutFinal id 1 ⟨1, ⟨5, none⟩⟩).1.finalRing).count
      (Snapshot.PayloadHash id ⟨5, none⟩) = 1 :=
  C1_putFinal_idempotent id NewQueue ⟨1, ⟨5, none⟩⟩ ⟨2, ⟨5, some [9]⟩⟩ 0 3
    Reachable.init rfl (by decide) rfl

/-! ## Latest-wins merge on the cache channel -/

/-- What `PopCache` returns when it returns an item: the head of the cache ring,
its signatures replaced by the value that the cache dedup map holds for its
identity (the nil slice when the identity is absent). -/
theorem PopCache_item (H : Nat → Hash) (q : Queue) (item : PeerSnapshot)
    (h : (q.PopCache H).2.1 = some item) :
    ∃ ps rest, q.cacheRing.items = ps :: rest ∧
      item = { ps with Snapshot :=
        { ps.Snapshot with
          Signatures := (q.cacheSet (ps.Snapshot.PayloadHash H)).getD none } } := by
  rcases Bool.eq_false_or_eq_true q.cacheRing.disposed with hd | hd
  · rw [PopCache_disposed H q hd] at h
    simp at h
  · cases he : q.cacheRing.items with
    | nil =>
      rw [PopCache_empty H q hd he] at h
      simp at h
    | cons ps rest =>
      rw [PopCache_cons H q ps rest hd he] at h
      simp only [Option.some.injEq] at h
      exact ⟨ps, rest, rfl, h.symm⟩

theorem Len_eq_of_inv (H : Nat → Hash) (q : Queue) (hi : Inv H q) :
    q.Len = q.finalRing.items.length + q.cacheRing.items.length := by
  have h1 := hi.finalLen
  have h2 := hi.cacheLen
  have h3 := hi.finalCap
  have h4 := hi.cacheCap
  unfold Queue.Len RingBuffer.Len
  have e1 : q.finalRing.items.length % 2 ^ 64 = q.finalRing.items.length :=
    Nat.mod_eq_of_lt (by omega)
  have e2 : q.cacheRing.items.length % 2 ^ 64 = q.cacheRing.items.length :=
    Nat.mod_eq_of_lt (by omega)
  rw [e1, e2]
  exact Nat.mod_eq_of_lt (by omega)

/-- C2: latest-wins merge.  In a reachable state whose cache ring is not disposed,
empty and of positive capacity, two `PutCache` calls of one identity (signatures
`sigsA`, then `sigsB`, nil slices included) both return `nil`, raise `Len()` by
exactly one, and the next `PopCache` returns the first item with its signatures
replaced by `sigsB`; its identity is the common one and is no longer tracked
after the pop.  In every state whatever, an item returned by `PopCache` is the head
of the cache ring with the signatures that the cache dedup map records for its
identity at that moment. -/
theorem C2_putCache_latest_wins (H : Nat → Hash) (q : Queue) (psA psB : PeerSnapshot)
    (fuel fuel2 : Nat) (hq : Reachable H q) (hd : q.cacheRing.disposed = false)
    (he : q.cacheRing.items = []) (hs : q.cacheRing.items.length < q.cacheRing.capacity)
    (hid : psB.Snapshot.PayloadHash H = psA.Snapshot.PayloadHash H) :
    (q.PutCache H (fuel + 1) psA).2 = Outcome.returned none ∧
    ((q.PutCache H (fuel + 1) psA).1.PutCache H fuel2 psB).2 = Outcome.returned none ∧
    ((q.PutCache H (fuel + 1) psA).1.PutCache H fuel2 psB).1.Len = q.Len + 1 ∧
    (((q.PutCache H (fuel + 1) psA).1.PutCache H fuel2 psB).1.PopCache H).2 =
      (some { psA with Snapshot :=
          { psA.Snapshot with Signatures := psB.Snapshot.Signatures } }, none) ∧
    Snapshot.PayloadHash H
      { psA.Snapshot with Signatures := psB.Snapshot.Signatures } = psB.Snapshot.PayloadHash H ∧
    (((q.PutCache H (fuel + 1) psA).1.PutCache H fuel2 psB).1.PopCache H).1.cacheTracked
      (psB.Snapshot.PayloadHash H) = false ∧
    (∀ (q0 : Queue) (item : PeerSnapshot), (q0.PopCache H).2.1 = some item →
      ∃ ps rest, q0.cacheRing.items = ps :: rest ∧
        item = { ps with Snapshot :=
          { ps.Snapshot with
            Signatures := (q0.cacheSet (ps.Snapshot.PayloadHash H)).getD none } }) := by
  have hi := hq.inv
  have ht : q.cacheTracked (psA.Snapshot.PayloadHash H) = false := by
    rcases Bool.eq_false_or_eq_true (q.cacheTracked (psA.Snapshot.PayloadHash H)) with h | h
    · have := hi.cacheSup hd _ h
      simp [ringIds, he] at this
    · exact h
  have hlen := Len_eq_of_inv H q hi
  have hr1 : (q.PutCache H (fuel + 1) psA).2 = Outcome.returned none := by
    rw [PutCache_untracked H (fuel + 1) q psA ht, retryOffer_space fuel q.cacheRing psA hd hs]
  have hi1 := inv_putCache H (fuel + 1) q psA none hi hr1
  have e1 : q.PutCache H (fuel + 1) psA =
      ({ q with
          cacheSet := Function.update q.cacheSet (psA.Snapshot.PayloadHash H)
            (some psA.Snapshot.Signatures),
          cacheRing := { q.cacheRing with items := [psA] } }, Outcome.returned none) := by
    rw [PutCache_untracked H (fuel + 1) q psA ht, retryOffer_space fuel q.cacheRing psA hd hs, he]
    rfl
  rw [e1] at hi1 ⊢
  have ht1 : Queue.cacheTracked
      { q with
        cacheSet := Function.update q.cacheSet (psA.Snapshot.PayloadHash H)
          (some psA.Snapshot.Signatures),
        cacheRing := { q.cacheRing with items := [psA] } }
      (psB.Snapshot.PayloadHash H) = true := by
    show (Function.update q.cacheSet (psA.Snapshot.PayloadHash H)
      (some psA.Snapshot.Signatures) (psB.Snapshot.PayloadHash H)).isSome = true
    rw [hid, Function.update_same]
    rfl
  have hr2 := PutCache_tracked H fuel2 _ psB ht1
  have hi2 := inv_putCache H fuel2 _ psB none hi1 (by rw [hr2])
  rw [hr2] at hi2 ⊢
  refine ⟨rfl, rfl, ?_, ?_, hid.symm, ?_, PopCache_item H⟩
  · rw [Len_eq_of_inv H _ hi2, hlen, he]
    simp
  · simp only [hid, Function.update_idem]
    simp [Queue.PopCache, RingBuffer.Poll, hd]
  · simp only [hid, Function.update_idem]
    simp [Queue.PopCache, RingBuffer.Poll, hd, Queue.cacheTracked]

/-- C2 at a concrete input: a fresh queue, signatures `[1]` and then the nil
slice for identity 5, from two different peers. -/
theorem C2_putCache_latest_wins_witness :
    (((NewQueue.PutCache id 1 ⟨1, ⟨5, some [1]⟩⟩).1.PutCache id 0 ⟨2, ⟨5, none⟩⟩).1.PopCache id).2 =
      (some ⟨1, ⟨5, none⟩⟩, none) ∧
    ((NewQueue.PutCache id 1 ⟨1, ⟨5, some [1]⟩⟩).1.PutCache id 0 ⟨2, ⟨5, none⟩⟩).1.Len =
      NewQueue.Len + 1 :=
  have h := C2_putCache_latest_wins id NewQueue ⟨1, ⟨5, some [1]⟩⟩ ⟨2, ⟨5, none⟩⟩ 0 0
    Reachable.init rfl rfl (by decide) rfl
  ⟨h.2.2.2.1, h.2.2.1⟩

/-! ## FIFO order within a channel -/

theorem putFinalAll_spec (H : Nat → Hash) (fuel : Nat) (L : List PeerSnapshot) :
    ∀ q : Queue, q.finalRing.disposed = false →
      q.finalRing.items.length + L.length ≤ q.finalRing.capacity →
      (L.map (fun p => p.Snapshot.PayloadHash H)).Nodup →
      (∀ p ∈ L, q.finalTracked (p.Snapshot.PayloadHash H) = false) →
      (putFinalAll H (fuel + 1) L q).2 = L.map (fun _ => Outcome.returned none) ∧
      (putFinalAll H (fuel + 1) L q).1.finalRing =
        { q.finalRing with items := q.finalRing.items ++ L } := by
  induction L with
  | nil => intro q _ _ _ _; simp [putFinalAll]
  | cons ps rest ih =>
    intro q hd hlen hnd htr
    have hs : q.finalRing.items.length < q.finalRing.capacity := by
      simp only [List.length_cons] at hlen; omega
    have ht := htr ps (List.mem_cons_self _ _)
    have e1 : q.PutFinal H (fuel + 1) ps =
        ({ q with
            finalSet := Function.update q.finalSet (ps.Snapshot.PayloadHash H) (some true),
            finalRing := { q.finalRing with items := q.finalRing.items ++ [ps] } },
          Outcome.returned none) := by
      rw [PutFinal_untracked H (fuel + 1) q ps ht, retryOffer_space fuel q.finalRing ps hd hs]
    rw [List.map_cons, List.nodup_cons] at hnd
    have := ih { q with
        finalSet := Function.update q.finalSet (ps.Snapshot.PayloadHash H) (some true),
        finalRing := { q.finalRing with items := q.finalRing.items ++ [ps] } } hd
      (by
        have e : (q.finalRing.items ++ [ps]).length = q.finalRing.items.length + 1 := by simp
        have hlen1 : q.finalRing.items.length + (rest.length + 1) ≤ q.finalRing.capacity := hlen
        show (q.finalRing.items ++ [ps]).length + rest.length ≤ q.finalRing.capacity
        rw [e]
        omega)
      hnd.2
      (by
        intro p hp
        have hne : p.Snapshot.PayloadHash H ≠ ps.Snapshot.PayloadHash H := by
          intro e
          exact hnd.1 (e ▸ List.mem_map_of_mem (fun p => p.Snapshot.PayloadHash H) hp)
        have := htr p (List.mem_cons_of_mem _ hp)
        simp only [Queue.finalTracked, Function.update_apply, if_neg hne] at this ⊢
        exact this)
    simp only [putFinalAll, e1, List.map_cons]
    refine ⟨by rw [this.1], ?_⟩
    rw [this.2]
    simp

theorem popFinalN_spec (H : Nat → Hash) (L : List PeerSnapshot) :
    ∀ (q : Queue) (rest : List PeerSnapshot), q.finalRing.disposed = false →
      q.finalRing.items = L ++ rest →
      (popFinalN H L.length q).2 = L.map (fun p => (some p, none)) ∧
      (popFinalN H L.length q).1.finalRing = { q.finalRing with items := rest } := by
  induction L with
  | nil =>
    intro q rest _ he
    simp only [List.nil_append] at he
    simp [popFinalN, ← he]
  | cons ps tl ih =>
    intro q rest hd he
    have e1 := PopFinal_cons H q ps (tl ++ rest) hd he
    have := ih { q with
        finalRing := { q.finalRing with items := tl ++ rest },
        finalSet := Function.update q.finalSet (ps.Snapshot.PayloadHash H) none } rest hd rfl
    simp only [popFinalN, List.length_cons, e1, List.map_cons]
    exact ⟨by rw [this.1], by rw [this.2]⟩

theorem putCacheAll_spec (H : Nat → Hash) (fuel : Nat) (L : List PeerSnapshot) :
    ∀ q : Queue, q.cacheRing.disposed = false →
      q.cacheRing.items.length + L.length ≤ q.cacheRing.capacity →
      (L.map (fun p => p.Snapshot.PayloadHash H)).Nodup →
      (∀ p ∈ L, q.cacheTracked (p.Snapshot.PayloadHash H) = false) →
      (putCacheAll H (fuel + 1) L q).2 = L.map (fun _ => Outcome.returned none) ∧
      (putCacheAll H (fuel + 1) L q).1.cacheRing =
        { q.cacheRing with items := q.cacheRing.items ++ L } ∧
      (∀ p ∈ L, (putCacheAll H (fuel + 1) L q).1.cacheSet (p.Snapshot.PayloadHash H) =
        some p.Snapshot.Signatures) ∧
      (∀ h, h ∉ L.map (fun p => p.Snapshot.PayloadHash H) →
        (putCacheAll H (fuel + 1) L q).1.cacheSet h = q.cacheSet h) := by
  induction L with
  | nil => intro q _ _ _ _; simp [putCacheAll]
  | cons ps rest ih =>
    intro q hd hlen hnd htr
    have hs : q.cacheRing.items.length < q.cacheRing.capacity := by
      simp only [List.length_cons] at hlen; omega
    have ht := htr ps (List.mem_cons_self _ _)
    have e1 : q.PutCache H (fuel + 1) ps =
        ({ q with
            cacheSet := Function.update q.cacheSet (ps.Snapshot.PayloadHash H)
              (some ps.Snapshot.Signatures),
            cacheRing := { q.cacheRing with items := q.cacheRing.items ++ [ps] } },
          Outcome.returned none) := by
      rw [PutCache_untracked H (fuel + 1) q ps ht, retryOffer_space fuel q.cacheRing ps hd hs]
    rw [List.map_cons, List.nodup_cons] at hnd
    have := ih { q with
        cacheSet := Function.update q.cacheSet (ps.Snapshot.PayloadHash H)
          (some ps.Snapshot.Signatures),
        cacheRing := { q.cacheRing with items := q.cacheRing.items ++ [ps] } } hd
      (by
        have e : (q.cacheRing.items ++ [ps]).length = q.cacheRing.items.length + 1 := by simp
        have hlen1 : q.cacheRing.items.length + (rest.length + 1) ≤ q.cacheRing.capacity := hlen
        show (q.cacheRing.items ++ [ps]).length + rest.length ≤ q.cacheRing.capacity
        rw [e]
        omega)
      hnd.2
      (by
        intro p hp
        have hne : p.Snapshot.PayloadHash H ≠ ps.Snapshot.PayloadHash H := by
          intro e
          exact hnd.1 (e ▸ List.mem_map_of_mem (fun p => p.Snapshot.PayloadHash H) hp)
        have := htr p (List.mem_cons_of_mem _ hp)
        simp only [Queue.cacheTracked, Function.update_apply, if_neg hne] at this ⊢
        exact this)
    obtain ⟨i1, i2, i3, i4⟩ := this
    simp only [putCacheAll, e1, List.map_cons]
    refine ⟨by rw [i1], ?_, ?_, ?_⟩
    · rw [i2]
      simp
    · intro p hp
      rw [List.mem_cons] at hp
      rcases hp with hp | hp
      · subst hp
        rw [i4 _ hnd.1]
        exact Function.update_same _ _ _
      · exact i3 p hp
    · intro h hh
      rw [List.mem_cons, not_or] at hh
      rw [i4 h hh.2]
      exact Function.update_noteq hh.1 _ _

theorem popCacheN_spec (H : Nat → Hash) (L : List PeerSnapshot) :
    ∀ (q : Queue) (rest : List PeerSnapshot), q.cacheRing.disposed = false →
      q.cacheRing.items = L ++ rest →
      (L.map (fun p => p.Snapshot.PayloadHash H)).Nodup →
      (∀ p ∈ L, q.cacheSet (p.Snapshot.PayloadHash H) = some p.Snapshot.Signatures) →
      (popCacheN H L.length q).2 = L.map (fun p => (some p, none)) ∧
      (popCacheN H L.length q).1.cacheRing = { q.cacheRing with items := rest } := by
  induction L with
  | nil =>
    intro q rest _ he _ _
    simp only [List.nil_append] at he
    simp [popCacheN, ← he]
  | cons ps tl ih =>
    intro q rest hd he hnd hsig
    have e1 := PopCache_cons H q ps (tl ++ rest) hd he
    rw [hsig ps (List.mem_cons_self _ _)] at e1
    rw [List.map_cons, List.nodup_cons] at hnd
    have := ih { q with
        cacheRing := { q.cacheRing with items := tl ++ rest },
        cacheSet := Function.update q.cacheSet (ps.Snapshot.PayloadHash H) none } rest hd rfl
      hnd.2
      (by
        intro p hp
        have hne : p.Snapshot.PayloadHash H ≠ ps.Snapshot.PayloadHash H := by
          intro e
          exact hnd.1 (e ▸ List.mem_map_of_mem (fun p => p.Snapshot.PayloadHash H) hp)
        show Function.update q.cacheSet (ps.Snapshot.PayloadHash H) none
          (p.Snapshot.PayloadHash H) = some p.Snapshot.Signatures
        rw [Function.update_noteq hne]
        exact hsig p (List.mem_cons_of_mem _ hp))
    simp only [popCacheN, List.length_cons, e1, List.map_cons]
    exact ⟨by rw [this.1]; rfl, by rw [this.2]⟩

/-- C3: FIFO within a channel.  For a list `L` of snapshots with pairwise distinct
identities and at most as many elements as the ring has slots, the calls
`PutFinal` on a fresh queue all return `nil`, the following `|L|` calls of
`PopFinal` return the elements of `L` in order, each with a nil error, and one more
`PopFinal` returns `(nil, nil)`; likewise for `PutCache` and `PopCache`, where the
items come back with the signatures they were put with. -/
theorem C3_fifo_within_channel (H : Nat → Hash) (fuel : Nat) (L : List PeerSnapshot)
    (hnd : (L.map (fun p => p.Snapshot.PayloadHash H)).Nodup)
    (hlen : L.length ≤ 1024 * 1024) :
    ((putFinalAll H (fuel + 1) L NewQueue).2 = L.map (fun _ => Outcome.returned none) ∧
      (popFinalN H L.length (putFinalAll H (fuel + 1) L NewQueue).1).2 =
        L.map (fun p => (some p, none)) ∧
      ((popFinalN H L.length (putFinalAll H (fuel + 1) L NewQueue).1).1.PopFinal H).2 =
        (none, none)) ∧
    ((putCacheAll H (fuel + 1) L NewQueue).2 = L.map (fun _ => Outcome.returned none) ∧
      (popCacheN H L.length (putCacheAll H (fuel + 1) L NewQueue).1).2 =
        L.map (fun p => (some p, none)) ∧
      ((popCacheN H L.length (putCacheAll H (fuel + 1) L NewQueue).1).1.PopCache H).2 =
        (none, none)) := by
  constructor
  · obtain ⟨a1, a2⟩ := putFinalAll_spec H fuel L NewQueue rfl
      (by simpa [NewQueue, NewRingBuffer] using hlen) hnd (fun _ _ => rfl)
    have hd : (putFinalAll H (fuel + 1) L NewQueue).1.finalRing.disposed = false := by
      rw [a2]; rfl
    have he : (putFinalAll H (fuel + 1) L NewQueue).1.finalRing.items = L ++ [] := by
      rw [a2]; simp [NewQueue, NewRingBuffer]
    obtain ⟨b1, b2⟩ := popFinalN_spec H L _ [] hd he
    refine ⟨a1, b1, ?_⟩
    rw [PopFinal_empty H _ (by rw [b2]; exact hd) (by rw [b2])]
  · obtain ⟨a1, a2, a3, _⟩ := putCacheAll_spec H fuel L NewQueue rfl
      (by simpa [NewQueue, NewRingBuffer] using hlen) hnd (fun _ _ => rfl)
    have hd : (putCacheAll H (fuel + 1) L NewQueue).1.cacheRing.disposed = false := by
      rw [a2]; rfl
    have he : (putCacheAll H (fuel + 1) L NewQueue).1.cacheRing.items = L ++ [] := by
      rw [a2]; simp [NewQueue, NewRingBuffer]
    obtain ⟨b1, b2⟩ := popCacheN_spec H L _ [] hd he hnd a3
    refine ⟨a1, b1, ?_⟩
    rw [PopCache_empty H _ (by rw [b2]; exact hd) (by rw [b2])]

/-- C3 at a concrete input: three snapshots of identities 1, 2 and 3. -/
theorem C3_fifo_within_channel_witness :
    ([⟨7, ⟨1, none⟩⟩, ⟨8, ⟨2, some [4]⟩⟩, ⟨9, ⟨3, some []⟩⟩].map
        (fun p : PeerSnapshot => p.Snapshot.PayloadHash id)).Nodup ∧
    (popFinalN id 3
        (putFinalAll id 1 [⟨7, ⟨1, none⟩⟩, ⟨8, ⟨2, some [4]⟩⟩, ⟨9, ⟨3, some []⟩⟩] NewQueue).1).2 =
      [(some ⟨7, ⟨1, none⟩⟩, none), (some ⟨8, ⟨2, some [4]⟩⟩, none),
        (some ⟨9, ⟨3, some []⟩⟩, none)] ∧
    (popCacheN id 3
        (putCacheAll id 1 [⟨7, ⟨1, none⟩⟩, ⟨8, ⟨2, some [4]⟩⟩, ⟨9, ⟨3, some []⟩⟩] NewQueue).1).2 =
      [(some ⟨7, ⟨1, none⟩⟩, none), (some ⟨8, ⟨2, some [4]⟩⟩, none),
        (some ⟨9, ⟨3, some []⟩⟩, none)] :=
  have h := C3_fifo_within_channel id 0
    [⟨7, ⟨1, none⟩⟩, ⟨8, ⟨2, some [4]⟩⟩, ⟨9, ⟨3, some []⟩⟩] (by decide) (by decide)
  ⟨by decide, h.1.2.1, h.2.2.1⟩

/-! ## Final-first priority of the draining loop -/

/-- C4: final-first priority.  When the final ring is not disposed and holds
`ps :: rest`, one iteration of the loop body of `QueuePollSnapshots` invokes the
hook exactly once, with the peer id and the snapshot of `ps`, removes `ps` from
the final ring and its marker from the final dedup map, and leaves the cache ring
and the cache dedup map unchanged, whatever the cache ring holds.  In every state,
an iteration in which `PopFinal` returned anything but `(nil, nil)` leaves the
cache ring and the cache dedup map unchanged. -/
theorem C4_final_first (H : Nat → Hash) (hook : Hash → Snapshot → Option Err)
    (s : BadgerStore) (ps : PeerSnapshot) (rest : List PeerSnapshot)
    (hd : s.queue.finalRing.disposed = false) (he : s.queue.finalRing.items = ps :: rest) :
    (s.pollBody H hook).2 = [⟨ps.PeerId, ps.Snapshot, hook ps.PeerId ps.Snapshot⟩] ∧
    (s.pollBody H hook).1.queue.finalRing = { s.queue.finalRing with items := rest } ∧
    (s.pollBody H hook).1.queue.finalSet =
      Function.update s.queue.finalSet (ps.Snapshot.PayloadHash H) none ∧
    (s.pollBody H hook).1.queue.cacheRing = s.queue.cacheRing ∧
    (s.pollBody H hook).1.queue.cacheSet = s.queue.cacheSet ∧
    (s.closing = false →
      BadgerStore.QueuePollSnapshots H hook 1 s = s.pollBody H hook) ∧
    (∀ s0 : BadgerStore, (s0.queue.PopFinal H).2 ≠ (none, none) →
      (s0.pollBody H hook).1.queue.cacheRing = s0.queue.cacheRing ∧
      (s0.pollBody H hook).1.queue.cacheSet = s0.queue.cacheSet) := by
  have e := PopFinal_cons H s.queue ps rest hd he
  refine ⟨?_, ?_, ?_, ?_, ?_, ?_, ?_⟩
  · simp [BadgerStore.pollBody, e]
  · simp [BadgerStore.pollBody, e]
  · simp [BadgerStore.pollBody, e]
  · simp [BadgerStore.pollBody, e]
  · simp [BadgerStore.pollBody, e]
  · intro hc
    simp [BadgerStore.QueuePollSnapshots, hc]
  · intro s0 hne
    rcases Bool.eq_false_or_eq_true s0.queue.finalRing.disposed with hd0 | hd0
    · simp [BadgerStore.pollBody, PopFinal_disposed H s0.queue hd0]
    · cases he0 : s0.queue.finalRing.items with
      | nil =>
        rw [PopFinal_empty H s0.queue hd0 he0] at hne
        exact absurd rfl hne
      | cons p tl =>
        simp [BadgerStore.pollBody, PopFinal_cons H s0.queue p tl hd0 he0]

/-- C4 at a concrete input: both rings hold one item; the hook is called with the
item of the final ring. -/
theorem C4_final_first_witness :
    fullQueue.finalRing.disposed = false ∧
    fullQueue.finalRing.items = [⟨7, ⟨1, none⟩⟩] ∧
    fullQueue.cacheRing.items = [⟨8, ⟨2, some [5]⟩⟩] ∧
    (BadgerStore.pollBody id (fun _ _ => some Err.disposed) ⟨fullQueue, false⟩).2 =
      [⟨7, ⟨1, none⟩, some Err.disposed⟩] ∧
    (BadgerStore.pollBody id (fun _ _ => some Err.disposed) ⟨fullQueue, false⟩).1.queue.cacheRing =
      fullQueue.cacheRing :=
  have h := C4_final_first id (fun _ _ => some Err.disposed) ⟨fullQueue, false⟩
    ⟨7, ⟨1, none⟩⟩ [] rfl rfl
  ⟨rfl, rfl, rfl, h.1, h.2.2.2.1⟩

/-! ## Operations on a disposed queue -/

/-- C5, as stated, fails: a `PutFinal` (resp. `PutCache`) whose identity is already
tracked returns `nil` on a disposed queue, because the dedup test comes before the
ring is touched.  Here the identity was put before `Dispose()`; and on a queue
disposed when fresh, the second of two identical `PutFinal` calls returns `nil`
although the first returned the disposal error. -/
theorem C5_disposed_put_returns_nil :
    Reachable id (NewQueue.PutFinal id 1 ⟨7, ⟨1, none⟩⟩).1 ∧
    ((NewQueue.PutFinal id 1 ⟨7, ⟨1, none⟩⟩).1.Dispose.PutFinal id 1 ⟨7, ⟨1, none⟩⟩).2 =
      Outcome.returned none ∧
    ((NewQueue.PutCache id 1 ⟨7, ⟨1, none⟩⟩).1.Dispose.PutCache id 1 ⟨7, ⟨1, none⟩⟩).2 =
      Outcome.returned none ∧
    (NewQueue.Dispose.PutFinal id 1 ⟨7, ⟨1, none⟩⟩).2 = Outcome.returned (some Err.disposed) ∧
    ((NewQueue.Dispose.PutFinal id 1 ⟨7, ⟨1, none⟩⟩).1.PutFinal id 1 ⟨7, ⟨1, none⟩⟩).2 =
      Outcome.returned none :=
  ⟨Reachable.putFinal 1 _ none Reachable.init (by decide), by decide, by decide, by decide,
    by decide⟩

/-- C5, amended: on a queue whose two rings are disposed (as `Dispose()` leaves
them), `PopFinal` and `PopCache` return the disposal error, and `PutFinal(ps)`
(resp. `PutCache(ps)`) returns the disposal error, in its first loop iteration,
when the identity of `ps` is not tracked in the final (resp. cache) dedup map at
the time of the call.  None of the four calls changes a ring, so the rings stay
disposed for every later call. -/
theorem C5_disposal_safety (H : Nat → Hash) (q : Queue) (ps : PeerSnapshot) (fuel : Nat)
    (hf : q.finalRing.disposed = true) (hc : q.cacheRing.disposed = true) :
    (q.PopFinal H).2 = (none, some Err.disposed) ∧
    (q.PopCache H).2 = (none, some Err.disposed) ∧
    (q.finalTracked (ps.Snapshot.PayloadHash H) = false →
      (q.PutFinal H (fuel + 1) ps).2 = Outcome.returned (some Err.disposed)) ∧
    (q.cacheTracked (ps.Snapshot.PayloadHash H) = false →
      (q.PutCache H (fuel + 1) ps).2 = Outcome.returned (some Err.disposed)) ∧
    ((q.PopFinal H).1 = q ∧ (q.PopCache H).1 = q) ∧
    ((q.PutFinal H (fuel + 1) ps).1.finalRing = q.finalRing ∧
      (q.PutFinal H (fuel + 1) ps).1.cacheRing = q.cacheRing) ∧
    ((q.PutCache H (fuel + 1) ps).1.finalRing = q.finalRing ∧
      (q.PutCache H (fuel + 1) ps).1.cacheRing = q.cacheRing) := by
  refine ⟨?_, ?_, ?_, ?_, ⟨?_, ?_⟩, ?_, ?_⟩
  · rw [PopFinal_disposed H q hf]
  · rw [PopCache_disposed H q hc]
  · intro ht
    rw [PutFinal_untracked H (fuel + 1) q ps ht, retryOffer_disposed fuel q.finalRing ps hf]
  · intro ht
    rw [PutCache_untracked H (fuel + 1) q ps ht, retryOffer_disposed fuel q.cacheRing ps hc]
  · rw [PopFinal_disposed H q hf]
  · rw [PopCache_disposed H q hc]
  · rcases Bool.eq_false_or_eq_true (q.finalTracked (ps.Snapshot.PayloadHash H)) with ht | ht
    · rw [PutFinal_tracked H (fuel + 1) q ps ht]
      exact ⟨rfl, rfl⟩
    · rw [PutFinal_untracked H (fuel + 1) q ps ht, retryOffer_disposed fuel q.finalRing ps hf]
      exact ⟨rfl, rfl⟩
  · rcases Bool.eq_false_or_eq_true (q.cacheTracked (ps.Snapshot.PayloadHash H)) with ht | ht
    · rw [PutCache_tracked H (fuel + 1) q ps ht]
      exact ⟨rfl, rfl⟩
    · rw [PutCache_untracked H (fuel + 1) q ps ht, retryOffer_disposed fuel q.cacheRing ps hc]
      exact ⟨rfl, rfl⟩

/-- C5, amended, at a concrete input: a queue that held identity 1 on the final
channel when it was disposed, and a snapshot of the untracked identity 2. -/
theorem C5_disposal_safety_witness :
    ((NewQueue.PutFinal id 1 ⟨7, ⟨1, none⟩⟩).1.Dispose.PopFinal id).2 =
      (none, some Err.disposed) ∧
    ((NewQueue.PutFinal id 1 ⟨7, ⟨1, none⟩⟩).1.Dispose.PopCache id).2 =
      (none, some Err.disposed) ∧
    ((NewQueue.PutFinal id 1 ⟨7, ⟨1, none⟩⟩).1.Dispose.PutFinal id 1 ⟨7, ⟨2, none⟩⟩).2 =
      Outcome.returned (some Err.disposed) ∧
    ((NewQueue.PutFinal id 1 ⟨7, ⟨1, none⟩⟩).1.Dispose.PutCache id 1 ⟨7, ⟨2, none⟩⟩).2 =
      Outcome.returned (some Err.disposed) :=
  have h := C5_disposal_safety id (NewQueue.PutFinal id 1 ⟨7, ⟨1, none⟩⟩).1.Dispose
    ⟨7, ⟨2, none⟩⟩ 0 rfl rfl
  ⟨h.1, h.2.1, h.2.2.1 (by decide), h.2.2.2.1 (by decide)⟩

/-! ## Uniqueness of identities within a ring -/

/-- C6: per-channel uniqueness.  In every state reachable from `NewQueue()` by
`PutFinal`, `PutCache`, `PopFinal`, `PopCache` and `Dispose` calls, no identity
occurs twice in the final ring and none occurs twice in the cache ring; a
`PutFinal` (resp. `PutCache`) of an identity that is still tracked leaves the ring
of its channel as it is, however many loop iterations it is allowed. -/
theorem C6_ring_identities_unique (H : Nat → Hash) (q : Queue) (hq : Reachable H q) :
    (ringIds H q.finalRing).Nodup ∧ (ringIds H q.cacheRing).Nodup ∧
    (∀ (fuel : Nat) (ps : PeerSnapshot), q.finalTracked (ps.Snapshot.PayloadHash H) = true →
      (q.PutFinal H fuel ps).1.finalRing = q.finalRing) ∧
    (∀ (fuel : Nat) (ps : PeerSnapshot), q.cacheTracked (ps.Snapshot.PayloadHash H) = true →
      (q.PutCache H fuel ps).1.cacheRing = q.cacheRing) := by
  refine ⟨hq.inv.finalNodup, hq.inv.cacheNodup, ?_, ?_⟩
  · intro fuel ps ht
    rw [PutFinal_tracked H fuel q ps ht]
  · intro fuel ps ht
    rw [PutCache_tracked H fuel q ps ht]

/-- C6 at a concrete input: identity 1 put twice on each channel of a fresh
queue, with a pop and a disposal afterwards. -/
theorem C6_ring_identities_unique_witness :
    (ringIds id ((NewQueue.PutFinal id 1 ⟨7, ⟨1, none⟩⟩).1.PutFinal id 1
      ⟨8, ⟨1, none⟩⟩).1.finalRing).Nodup ∧
    (ringIds id ((NewQueue.PutCache id 1 ⟨7, ⟨1, none⟩⟩).1.PutCache id 1
      ⟨8, ⟨1, some [3]⟩⟩).1.cacheRing).Nodup ∧
    ((NewQueue.PutFinal id 1 ⟨7, ⟨1, none⟩⟩).1.PutFinal id 1 ⟨8, ⟨1, none⟩⟩).1.finalRing.items =
      [⟨7, ⟨1, none⟩⟩] :=
  ⟨(C6_ring_identities_unique id _
      (Reachable.putFinal 1 ⟨8, ⟨1, none⟩⟩ none
        (Reachable.putFinal 1 ⟨7, ⟨1, none⟩⟩ none Reachable.init (by decide)) (by decide))).1,
    (C6_ring_identities_unique id _
      (Reachable.putCache 1 ⟨8, ⟨1, some [3]⟩⟩ none
        (Reachable.putCache 1 ⟨7, ⟨1, none⟩⟩ none Reachable.init (by decide)) (by decide))).2.1,
    by decide⟩

/-! ## Removal of dedup entries -/

theorem PutFinal_keeps_tracked (H : Nat → Hash) (fuel : Nat) (q : Queue) (ps : PeerSnapshot)
    (h : Hash) :
    (q.finalTracked h = true → (q.PutFinal H fuel ps).1.finalTracked h = true) ∧
    (q.PutFinal H fuel ps).1.cacheSet = q.cacheSet := by
  rcases Bool.eq_false_or_eq_true (q.finalTracked (ps.Snapshot.PayloadHash H)) with ht | ht
  · rw [PutFinal_tracked H fuel q ps ht]
    exact ⟨fun x => x, rfl⟩
  · rw [PutFinal_untracked H fuel q ps ht]
    refine ⟨?_, rfl⟩
    intro hx
    simp only [Queue.finalTracked, Function.update_apply] at hx ⊢
    split
    · rfl
    · exact hx

theorem PutCache_keeps_tracked (H : Nat → Hash) (fuel : Nat) (q : Queue) (ps : PeerSnapshot)
    (h : Hash) :
    (q.cacheTracked h = true → (q.PutCache H fuel ps).1.cacheTracked h = true) ∧
    (q.PutCache H fuel ps).1.finalSet = q.finalSet := by
  rcases Bool.eq_false_or_eq_true (q.cacheTracked (ps.Snapshot.PayloadHash H)) with ht | ht
  · rw [PutCache_tracked H fuel q ps ht]
    refine ⟨?_, rfl⟩
    intro hx
    simp only [Queue.cacheTracked, Function.update_apply] at hx ⊢
    split
    · rfl
    · exact hx
  · rw [PutCache_untracked H fuel q ps ht]
    refine ⟨?_, rfl⟩
    intro hx
    simp only [Queue.cacheTracked, Function.update_apply] at hx ⊢
    split
    · rfl
    · exact hx

/-- The final dedup map entries that `PopFinal` removes: under the invariant,
exactly the identity of the returned item. -/
theorem PopFinal_removes_iff (H : Nat → Hash) (q : Queue) (hi : Inv H q) (h : Hash) :
    ((q.finalTracked h = true ∧ (q.PopFinal H).1.finalTracked h = false) ↔
      ∃ item, (q.PopFinal H).2 = (some item, none) ∧ item.Snapshot.PayloadHash H = h) ∧
    (q.PopFinal H).1.cacheSet = q.cacheSet := by
  rcases Bool.eq_false_or_eq_true q.finalRing.disposed with hd | hd
  · rw [PopFinal_disposed H q hd]
    refine ⟨⟨fun hx => ?_, fun hx => ?_⟩, rfl⟩
    · rw [hx.1] at hx
      exact absurd hx.2 (by decide)
    · obtain ⟨item, hx, _⟩ := hx
      simp at hx
  · cases he : q.finalRing.items with
    | nil =>
      rw [PopFinal_empty H q hd he]
      refine ⟨⟨fun hx => ?_, fun hx => ?_⟩, rfl⟩
      · rw [hx.1] at hx
        exact absurd hx.2 (by decide)
      · obtain ⟨item, hx, _⟩ := hx
        simp at hx
    | cons ps rest =>
      rw [PopFinal_cons H q ps rest hd he]
      refine ⟨⟨fun hx => ?_, fun hx => ?_⟩, rfl⟩
      · refine ⟨ps, rfl, ?_⟩
        by_contra hne
        have hne1 : h ≠ ps.Snapshot.PayloadHash H := fun e => hne e.symm
        have h2 := hx.2
        simp only [Queue.finalTracked, Function.update_apply, if_neg hne1] at h2
        have h1 := hx.1
        simp only [Queue.finalTracked] at h1
        rw [h1] at h2
        exact absurd h2 (by decide)
      · obtain ⟨item, hx, hid⟩ := hx
        simp only [Prod.mk.injEq, Option.some.injEq, and_true] at hx
        subst hx
        subst hid
        refine ⟨hi.finalSub _ (by simp [ringIds, he]), ?_⟩
        simp [Queue.finalTracked]

/-- The cache dedup map entries that `PopCache` removes: under the invariant,
exactly the identity of the returned item. -/
theorem PopCache_removes_iff (H : Nat → Hash) (q : Queue) (hi : Inv H q) (h : Hash) :
    ((q.cacheTracked h = true ∧ (q.PopCache H).1.cacheTracked h = false) ↔
      ∃ item, (q.PopCache H).2 = (some item, none) ∧ item.Snapshot.PayloadHash H = h) ∧
    (q.PopCache H).1.finalSet = q.finalSet := by
  rcases Bool.eq_false_or_eq_true q.cacheRing.disposed with hd | hd
  · rw [PopCache_disposed H q hd]
    refine ⟨⟨fun hx => ?_, fun hx => ?_⟩, rfl⟩
    · rw [hx.1] at hx
      exact absurd hx.2 (by decide)
    · obtain ⟨item, hx, _⟩ := hx
      simp at hx
  · cases he : q.cacheRing.items with
    | nil =>
      rw [PopCache_empty H q hd he]
      refine ⟨⟨fun hx => ?_, fun hx => ?_⟩, rfl⟩
      · rw [hx.1] at hx
        exact absurd hx.2 (by decide)
      · obtain ⟨item, hx, _⟩ := hx
        simp at hx
    | cons ps rest =>
      rw [PopCache_cons H q ps rest hd he]
      refine ⟨⟨fun hx => ?_, fun hx => ?_⟩, rfl⟩
      · refine ⟨_, rfl, ?_⟩
        show ps.Snapshot.PayloadHash H = h
        by_contra hne
        have hne1 : h ≠ ps.Snapshot.PayloadHash H := fun e => hne e.symm
        have h2 := hx.2
        simp only [Queue.cacheTracked, Function.update_apply, if_neg hne1] at h2
        have h1 := hx.1
        simp only [Queue.cacheTracked] at h1
        rw [h1] at h2
        exact absurd h2 (by decide)
      · obtain ⟨item, hx, hid⟩ := hx
        simp only [Prod.mk.injEq, Option.some.injEq, and_true] at hx
        subst hx
        have hid1 : ps.Snapshot.PayloadHash H = h := hid
        subst hid1
        refine ⟨hi.cacheSub _ (by simp [ringIds, he]), ?_⟩
        simp [Queue.cacheTracked]

theorem PopFinal_none_keeps (H : Nat → Hash) (q : Queue) (h : (q.PopFinal H).2.1 = none) :
    (q.PopFinal H).1 = q := by
  rcases Bool.eq_false_or_eq_true q.finalRing.disposed with hd | hd
  · rw [PopFinal_disposed H q hd]
  · cases he : q.finalRing.items with
    | nil => rw [PopFinal_empty H q hd he]
    | cons ps rest =>
      rw [PopFinal_cons H q ps rest hd he] at h
      simp at h

theorem PopCache_none_keeps (H : Nat → Hash) (q : Queue) (h : (q.PopCache H).2.1 = none) :
    (q.PopCache H).1 = q := by
  rcases Bool.eq_false_or_eq_true q.cacheRing.disposed with hd | hd
  · rw [PopCache_disposed H q hd]
  · cases he : q.cacheRing.items with
    | nil => rw [PopCache_empty H q hd he]
    | cons ps rest =>
      rw [PopCache_cons H q ps rest hd he] at h
      simp at h

/-- C7: dedup entries are removed exactly on a successful drain.  In every
reachable state, for every call `op` of `PutFinal`, `PutCache`, `PopFinal` or
`PopCache` and every identity `h`: `h` is tracked in the final dedup map before
`op` and not after it if and only if `op` is `PopFinal` and it returned an item of
identity `h` (with a nil error); likewise for the cache dedup map and `PopCache`.
A pop that returns no item (empty ring, or an error) leaves the whole queue state
unchanged. -/
theorem C7_dedup_removed_on_drain (H : Nat → Hash) (q : Queue) (hq : Reachable H q)
    (op : Op) (h : Hash) :
    ((q.finalTracked h = true ∧ (op.run H q).finalTracked h = false) ↔
      (op = Op.popFinal ∧
        ∃ item, (q.PopFinal H).2 = (some item, none) ∧ item.Snapshot.PayloadHash H = h)) ∧
    ((q.cacheTracked h = true ∧ (op.run H q).cacheTracked h = false) ↔
      (op = Op.popCache ∧
        ∃ item, (q.PopCache H).2 = (some item, none) ∧ item.Snapshot.PayloadHash H = h)) ∧
    ((q.PopFinal H).2.1 = none → (q.PopFinal H).1 = q) ∧
    ((q.PopCache H).2.1 = none → (q.PopCache H).1 = q) := by
  have hi := hq.inv
  have key : ∀ (a b : Bool), a = true → b = true → ¬ (a = true ∧ b = false) := by
    intro a b _ hb hx
    rw [hb] at hx
    exact absurd hx.2 (by decide)
  refine ⟨?_, ?_, PopFinal_none_keeps H q, PopCache_none_keeps H q⟩
  · cases op with
    | putFinal fuel ps =>
      refine ⟨fun hx => ?_, fun hx => Op.noConfusion hx.1⟩
      exact absurd hx (key _ _ hx.1 ((PutFinal_keeps_tracked H fuel q ps h).1 hx.1))
    | putCache fuel ps =>
      refine ⟨fun hx => ?_, fun hx => Op.noConfusion hx.1⟩
      have e : (q.PutCache H fuel ps).1.finalTracked h = q.finalTracked h := by
        simp only [Queue.finalTracked, (PutCache_keeps_tracked H fuel q ps h).2]
      have h2 : (q.PutCache H fuel ps).1.finalTracked h = false := hx.2
      rw [e, hx.1] at h2
      exact absurd h2 (by decide)
    | popFinal =>
      rw [show Op.run H Op.popFinal q = (q.PopFinal H).1 from rfl,
        (PopFinal_removes_iff H q hi h).1]
      exact ⟨fun hx => ⟨rfl, hx⟩, fun hx => hx.2⟩
    | popCache =>
      refine ⟨fun hx => ?_, fun hx => Op.noConfusion hx.1⟩
      have e : (q.PopCache H).1.finalTracked h = q.finalTracked h := by
        simp only [Queue.finalTracked, (PopCache_removes_iff H q hi h).2]
      have h2 : (q.PopCache H).1.finalTracked h = false := hx.2
      rw [e, hx.1] at h2
      exact absurd h2 (by decide)
  · cases op with
    | putFinal fuel ps =>
      refine ⟨fun hx => ?_, fun hx => Op.noConfusion hx.1⟩
      have e : (q.PutFinal H fuel ps).1.cacheTracked h = q.cacheTracked h := by
        simp only [Queue.cacheTracked, (PutFinal_keeps_tracked H fuel q ps h).2]
      have h2 : (q.PutFinal H fuel ps).1.cacheTracked h = false := hx.2
      rw [e, hx.1] at h2
      exact absurd h2 (by decide)
    | putCache fuel ps =>
      refine ⟨fun hx => ?_, fun hx => Op.noConfusion hx.1⟩
      exact absurd hx (key _ _ hx.1 ((PutCache_keeps_tracked H fuel q ps h).1 hx.1))
    | popFinal =>
      refine ⟨fun hx => ?_, fun hx => Op.noConfusion hx.1⟩
      have e : (q.PopFinal H).1.cacheTracked h = q.cacheTracked h := by
        simp only [Queue.cacheTracked, (PopFinal_removes_iff H q hi h).2]
      have h2 : (q.PopFinal H).1.cacheTracked h = false := hx.2
      rw [e, hx.1] at h2
      exact absurd h2 (by decide)
    | popCache =>
      rw [show Op.run H Op.popCache q = (q.PopCache H).1 from rfl,
        (PopCache_removes_iff H q hi h).1]
      exact ⟨fun hx => ⟨rfl, hx⟩, fun hx => hx.2⟩

/-- C7 at a concrete input: after `PutFinal` of identity 1 on a fresh queue,
`PopFinal` removes the marker of identity 1. -/
theorem C7_dedup_removed_on_drain_witness :
    Reachable id (NewQueue.PutFinal id 1 ⟨7, ⟨1, none⟩⟩).1 ∧
    ((NewQueue.PutFinal id 1 ⟨7, ⟨1, none⟩⟩).1.finalTracked 1 = true ∧
      (Op.run id Op.popFinal (NewQueue.PutFinal id 1 ⟨7, ⟨1, none⟩⟩).1).finalTracked 1 = false) :=
  ⟨Reachable.putFinal 1 _ none Reachable.init (by decide),
    ((C7_dedup_removed_on_drain id (NewQueue.PutFinal id 1 ⟨7, ⟨1, none⟩⟩).1
      (Reachable.putFinal 1 _ none Reachable.init (by decide)) Op.popFinal 1).1).2
      ⟨rfl, ⟨7, ⟨1, none⟩⟩, by decide, rfl⟩⟩

/-! ## Backpressure -/

/-- C8: backpressure is a blocking retry.  On a final (resp. cache) ring that is
not disposed and at capacity, `PutFinal` (resp. `PutCache`) of an untracked
identity has not returned after `n` loop iterations, for every `n`, and the ring
is then exactly as before; `Offer` on that ring gives `(false, nil)` and leaves it
unchanged, so every pass of the loop body goes on to the sleep.  A pass of the
loop body returns only when `Offer` accepted the item (it returns `nil`, the item
appended) or reported disposal (it returns that error, the ring unchanged), and
the loop is the iteration of that pass. -/
theorem C8_backpressure_blocks (H : Nat → Hash) (q : Queue) (ps : PeerSnapshot) (n : Nat) :
    (q.finalRing.disposed = false → q.finalRing.items.length = q.finalRing.capacity →
      q.finalTracked (ps.Snapshot.PayloadHash H) = false →
      (q.PutFinal H n ps).2 = Outcome.blocked ∧
      (q.PutFinal H n ps).1.finalRing = q.finalRing ∧
      (q.PutFinal H n ps).1.finalRing.items.length = q.finalRing.capacity ∧
      q.finalRing.Offer ps = (q.finalRing, false, none) ∧
      offerPass q.finalRing ps = (q.finalRing, none)) ∧
    (q.cacheRing.disposed = false → q.cacheRing.items.length = q.cacheRing.capacity →
      q.cacheTracked (ps.Snapshot.PayloadHash H) = false →
      (q.PutCache H n ps).2 = Outcome.blocked ∧
      (q.PutCache H n ps).1.cacheRing = q.cacheRing ∧
      (q.PutCache H n ps).1.cacheRing.items.length = q.cacheRing.capacity ∧
      q.cacheRing.Offer ps = (q.cacheRing, false, none) ∧
      offerPass q.cacheRing ps = (q.cacheRing, none)) ∧
    (∀ (rb rb1 : RingBuffer PeerSnapshot) (e : Option Err), offerPass rb ps = (rb1, some e) →
      (rb.Offer ps = (rb1, true, none) ∧ e = none ∧ rb1.items = rb.items ++ [ps]) ∨
      (rb.Offer ps = (rb1, false, some Err.disposed) ∧ e = some Err.disposed ∧ rb1 = rb)) ∧
    (∀ (rb : RingBuffer PeerSnapshot) (k : Nat), retryOffer (k + 1) rb ps =
      match offerPass rb ps with
      | (rb1, some err) => (rb1, Outcome.returned err)
      | (rb1, none) => retryOffer k rb1 ps) := by
  refine ⟨?_, ?_, ?_, fun _ _ => rfl⟩
  · intro hd hf ht
    rw [PutFinal_untracked H n q ps ht, retryOffer_full n q.finalRing ps hd (Nat.le_of_eq hf.symm)]
    refine ⟨rfl, rfl, hf, ?_, offerPass_full q.finalRing ps hd (Nat.le_of_eq hf.symm)⟩
    simp [RingBuffer.Offer, hd, hf]
  · intro hd hf ht
    rw [PutCache_untracked H n q ps ht, retryOffer_full n q.cacheRing ps hd (Nat.le_of_eq hf.symm)]
    refine ⟨rfl, rfl, hf, ?_, offerPass_full q.cacheRing ps hd (Nat.le_of_eq hf.symm)⟩
    simp [RingBuffer.Offer, hd, hf]
  · intro rb rb1 e h
    rcases Bool.eq_false_or_eq_true rb.disposed with hd | hd
    · rw [offerPass_disposed rb ps hd] at h
      simp only [Prod.mk.injEq, Option.some.injEq] at h
      right
      refine ⟨?_, h.2.symm, h.1.symm⟩
      rw [← h.1]
      simp [RingBuffer.Offer, hd]
    · by_cases hs : rb.items.length < rb.capacity
      · rw [offerPass_space rb ps hd hs] at h
        simp only [Prod.mk.injEq, Option.some.injEq] at h
        left
        refine ⟨?_, h.2.symm, ?_⟩
        · rw [← h.1]
          simp [RingBuffer.Offer, hd, hs]
        · rw [← h.1]
      · rw [offerPass_full rb ps hd (Nat.not_lt.mp hs)] at h
        simp at h

/-- C8 at a concrete input: both rings of `fullQueue` are at capacity; a put of
the untracked identity 3 is still blocked after 50 iterations on either channel. -/
theorem C8_backpressure_blocks_witness :
    (fullQueue.PutFinal id 50 ⟨9, ⟨3, none⟩⟩).2 = Outcome.blocked ∧
    (fullQueue.PutFinal id 50 ⟨9, ⟨3, none⟩⟩).1.finalRing = fullQueue.finalRing ∧
    (fullQueue.PutCache id 50 ⟨9, ⟨3, none⟩⟩).2 = Outcome.blocked ∧
    (fullQueue.PutCache id 50 ⟨9, ⟨3, none⟩⟩).1.cacheRing = fullQueue.cacheRing :=
  have h := C8_backpressure_blocks id fullQueue ⟨9, ⟨3, none⟩⟩ 50
  have hf := h.1 rfl rfl (by decide)
  have hc := h.2.1 rfl rfl (by decide)
  ⟨hf.1, hf.2.1, hc.1, hc.2.1⟩

/-! ## Emptiness -/

/-- C9: emptiness is a return value.  On a final ring that is not disposed and
empty, `PopFinal` returns `(nil, nil)` and leaves the queue state unchanged, and
likewise `PopCache` on the cache ring; on a ring that is not disposed and not
empty, the pop returns an item (the head of the ring for `PopFinal`) with a nil
error. -/
theorem C9_empty_pop (H : Nat → Hash) (q : Queue) :
    (q.finalRing.disposed = false → q.finalRing.items = [] →
      q.PopFinal H = (q, none, none)) ∧
    (q.cacheRing.disposed = false → q.cacheRing.items = [] →
      q.PopCache H = (q, none, none)) ∧
    (q.finalRing.disposed = false → q.finalRing.items ≠ [] →
      ∃ item, (q.PopFinal H).2 = (some item, none) ∧ q.finalRing.items.head? = some item) ∧
    (q.cacheRing.disposed = false → q.cacheRing.items ≠ [] →
      ∃ item, (q.PopCache H).2 = (some item, none)) := by
  refine ⟨PopFinal_empty H q, PopCache_empty H q, ?_, ?_⟩
  · intro hd hne
    cases he : q.finalRing.items with
    | nil => exact absurd he hne
    | cons ps rest =>
      rw [PopFinal_cons H q ps rest hd he]
      exact ⟨ps, rfl, rfl⟩
  · intro hd hne
    cases he : q.cacheRing.items with
    | nil => exact absurd he hne
    | cons ps rest =>
      rw [PopCache_cons H q ps rest hd he]
      exact ⟨_, rfl⟩

/-- C9 at concrete inputs: a fresh queue (both rings empty) and `fullQueue`
(both rings hold an item). -/
theorem C9_empty_pop_witness :
    (NewQueue.PopFinal id).2 = (none, none) ∧ (NewQueue.PopCache id).2 = (none, none) ∧
    (∃ item, (fullQueue.PopFinal id).2 = (some item, none) ∧
      fullQueue.finalRing.items.head? = some item) ∧
    (∃ item, (fullQueue.PopCache id).2 = (some item, none)) :=
  ⟨congrArg Prod.snd ((C9_empty_pop id NewQueue).1 rfl rfl),
    congrArg Prod.snd ((C9_empty_pop id NewQueue).2.1 rfl rfl),
    (C9_empty_pop id fullQueue).2.2.1 rfl (by decide),
    (C9_empty_pop id fullQueue).2.2.2 rfl (by decide)⟩

/-! ## Ingress routing -/

/-- C10: ingress routing.  `QueueAppendSnapshot(peerId, snap, true)` returns what
`PutFinal` returns on the peer snapshot built from `peerId` and `snap`, and leaves
the queue in the state that `PutFinal` leaves; with `false` the same holds for
`PutCache`.  A finalized append leaves the cache ring and the cache dedup map
unchanged, a non-finalized append leaves the final ring and the final dedup map
unchanged, and the rest of the store is never touched. -/
theorem C10_ingress_routing (H : Nat → Hash) (fuel : Nat) (s : BadgerStore) (peerId : Hash)
    (snap : Snapshot) :
    (s.QueueAppendSnapshot H fuel peerId snap true).2 =
      (s.queue.PutFinal H fuel ⟨peerId, snap⟩).2 ∧
    (s.QueueAppendSnapshot H fuel peerId snap true).1.queue =
      (s.queue.PutFinal H fuel ⟨peerId, snap⟩).1 ∧
    (s.QueueAppendSnapshot H fuel peerId snap false).2 =
      (s.queue.PutCache H fuel ⟨peerId, snap⟩).2 ∧
    (s.QueueAppendSnapshot H fuel peerId snap false).1.queue =
      (s.queue.PutCache H fuel ⟨peerId, snap⟩).1 ∧
    ((s.QueueAppendSnapshot H fuel peerId snap true).1.queue.cacheRing = s.queue.cacheRing ∧
      (s.QueueAppendSnapshot H fuel peerId snap true).1.queue.cacheSet = s.queue.cacheSet) ∧
    ((s.QueueAppendSnapshot H fuel peerId snap false).1.queue.finalRing = s.queue.finalRing ∧
      (s.QueueAppendSnapshot H fuel peerId snap false).1.queue.finalSet = s.queue.finalSet) ∧
    (∀ b, (s.QueueAppendSnapshot H fuel peerId snap b).1.closing = s.closing) := by
  refine ⟨rfl, rfl, rfl, rfl, ?_, ?_, ?_⟩
  · show (s.queue.PutFinal H fuel ⟨peerId, snap⟩).1.cacheRing = s.queue.cacheRing ∧
      (s.queue.PutFinal H fuel ⟨peerId, snap⟩).1.cacheSet = s.queue.cacheSet
    rcases Bool.eq_false_or_eq_true
      (s.queue.finalTracked (Snapshot.PayloadHash H snap)) with ht | ht
    · rw [PutFinal_tracked H fuel s.queue ⟨peerId, snap⟩ ht]
      exact ⟨rfl, rfl⟩
    · rw [PutFinal_untracked H fuel s.queue ⟨peerId, snap⟩ ht]
      exact ⟨rfl, rfl⟩
  · show (s.queue.PutCache H fuel ⟨peerId, snap⟩).1.finalRing = s.queue.finalRing ∧
      (s.queue.PutCache H fuel ⟨peerId, snap⟩).1.finalSet = s.queue.finalSet
    rcases Bool.eq_false_or_eq_true
      (s.queue.cacheTracked (Snapshot.PayloadHash H snap)) with ht | ht
    · rw [PutCache_tracked H fuel s.queue ⟨peerId, snap⟩ ht]
      exact ⟨rfl, rfl⟩
    · rw [PutCache_untracked H fuel s.queue ⟨peerId, snap⟩ ht]
      exact ⟨rfl, rfl⟩
  · intro b
    cases b <;> rfl

/-! ## The draining loop delivers every item once -/

theorem PopFinal_frame (H : Nat → Hash) (q : Queue) :
    (q.PopFinal H).1.cacheRing = q.cacheRing ∧ (q.PopFinal H).1.cacheSet = q.cacheSet := by
  rcases Bool.eq_false_or_eq_true q.finalRing.disposed with hd | hd
  · rw [PopFinal_disposed H q hd]; exact ⟨rfl, rfl⟩
  · cases he : q.finalRing.items with
    | nil => rw [PopFinal_empty H q hd he]; exact ⟨rfl, rfl⟩
    | cons ps rest => rw [PopFinal_cons H q ps rest hd he]; exact ⟨rfl, rfl⟩

/-- On records, `PopCache` leaves the final ring and the final dedup map as they
are.  On pointers the slots and the map stay as well, but the snapshot object of
the returned item is written (`RefPopCache_effect`). -/
theorem PopCache_frame (H : Nat → Hash) (q : Queue) :
    (q.PopCache H).1.finalRing = q.finalRing ∧ (q.PopCache H).1.finalSet = q.finalSet := by
  rcases Bool.eq_false_or_eq_true q.cacheRing.disposed with hd | hd
  · rw [PopCache_disposed H q hd]; exact ⟨rfl, rfl⟩
  · cases he : q.cacheRing.items with
    | nil => rw [PopCache_empty H q hd he]; exact ⟨rfl, rfl⟩
    | cons ps rest => rw [PopCache_cons H q ps rest hd he]; exact ⟨rfl, rfl⟩

theorem PutFinal_frame (H : Nat → Hash) (fuel : Nat) (q : Queue) (ps : PeerSnapshot) :
    (q.PutFinal H fuel ps).1.cacheRing = q.cacheRing ∧
    (q.PutFinal H fuel ps).1.cacheSet = q.cacheSet := by
  rcases Bool.eq_false_or_eq_true (q.finalTracked (ps.Snapshot.PayloadHash H)) with ht | ht
  · rw [PutFinal_tracked H fuel q ps ht]; exact ⟨rfl, rfl⟩
  · rw [PutFinal_untracked H fuel q ps ht]; exact ⟨rfl, rfl⟩

theorem PutCache_frame (H : Nat → Hash) (fuel : Nat) (q : Queue) (ps : PeerSnapshot) :
    (q.PutCache H fuel ps).1.finalRing = q.finalRing ∧
    (q.PutCache H fuel ps).1.finalSet = q.finalSet := by
  rcases Bool.eq_false_or_eq_true (q.cacheTracked (ps.Snapshot.PayloadHash H)) with ht | ht
  · rw [PutCache_tracked H fuel q ps ht]; exact ⟨rfl, rfl⟩
  · rw [PutCache_untracked H fuel q ps ht]; exact ⟨rfl, rfl⟩

theorem popFinalN_frame (H : Nat → Hash) (n : Nat) :
    ∀ q : Queue, (popFinalN H n q).1.cacheRing = q.cacheRing ∧
      (popFinalN H n q).1.cacheSet = q.cacheSet := by
  induction n with
  | zero => intro q; exact ⟨rfl, rfl⟩
  | succ n ih =>
    intro q
    have h1 := ih (q.PopFinal H).1
    have h2 := PopFinal_frame H q
    simp only [popFinalN]
    exact ⟨h1.1.trans h2.1, h1.2.trans h2.2⟩

theorem popCacheN_frame (H : Nat → Hash) (n : Nat) :
    ∀ q : Queue, (popCacheN H n q).1.finalRing = q.finalRing ∧
      (popCacheN H n q).1.finalSet = q.finalSet := by
  induction n with
  | zero => intro q; exact ⟨rfl, rfl⟩
  | succ n ih =>
    intro q
    have h1 := ih (q.PopCache H).1
    have h2 := PopCache_frame H q
    simp only [popCacheN]
    exact ⟨h1.1.trans h2.1, h1.2.trans h2.2⟩

theorem popFinalN_reachable (H : Nat → Hash) (n : Nat) :
    ∀ q : Queue, Reachable H q → Reachable H (popFinalN H n q).1 := by
  induction n with
  | zero => intro q hq; exact hq
  | succ n ih => intro q hq; exact ih _ (Reachable.popFinal hq)

theorem popCacheN_reachable (H : Nat → Hash) (n : Nat) :
    ∀ q : Queue, Reachable H q → Reachable H (popCacheN H n q).1 := by
  induction n with
  | zero => intro q hq; exact hq
  | succ n ih => intro q hq; exact ih _ (Reachable.popCache hq)

/-- The final dedup map of a reachable state holds no value but `true`. -/
theorem Reachable.finalSet_values {H : Nat → Hash} {q : Queue} (hq : Reachable H q) :
    ∀ h, q.finalSet h = none ∨ q.finalSet h = some true := by
  induction hq with
  | init => intro h; exact Or.inl rfl
  | @putFinal q fuel ps err _ _ ih =>
    intro h
    rcases Bool.eq_false_or_eq_true (q.finalTracked (ps.Snapshot.PayloadHash H)) with ht | ht
    · rw [PutFinal_tracked H fuel q ps ht]; exact ih h
    · rw [PutFinal_untracked H fuel q ps ht]
      show Function.update q.finalSet (ps.Snapshot.PayloadHash H) (some true) h = none ∨
        Function.update q.finalSet (ps.Snapshot.PayloadHash H) (some true) h = some true
      rw [Function.update_apply]
      split
      · exact Or.inr rfl
      · exact ih h
  | @putCache q fuel ps err _ _ ih =>
    intro h
    rw [(PutCache_frame H fuel q ps).2]
    exact ih h
  | @popFinal q _ ih =>
    intro h
    rcases Bool.eq_false_or_eq_true q.finalRing.disposed with hd | hd
    · rw [PopFinal_disposed H q hd]; exact ih h
    · cases he : q.finalRing.items with
      | nil => rw [PopFinal_empty H q hd he]; exact ih h
      | cons ps rest =>
        rw [PopFinal_cons H q ps rest hd he]
        show Function.update q.finalSet (ps.Snapshot.PayloadHash H) none h = none ∨
          Function.update q.finalSet (ps.Snapshot.PayloadHash H) none h = some true
        rw [Function.update_apply]
        split
        · exact Or.inl rfl
        · exact ih h
  | @popCache q _ ih =>
    intro h
    rw [(PopCache_frame H q).2]
    exact ih h
  | dispose _ ih => intro h; exact ih h

theorem pollBody_final (H : Nat → Hash) (hook : Hash → Snapshot → Option Err)
    (s : BadgerStore) (ps : PeerSnapshot) (rest : List PeerSnapshot)
    (hd : s.queue.finalRing.disposed = false) (he : s.queue.finalRing.items = ps :: rest) :
    s.pollBody H hook = ({ s with queue := (s.queue.PopFinal H).1 }, [hookCallOf hook ps]) := by
  simp [BadgerStore.pollBody, PopFinal_cons H s.queue ps rest hd he, hookCallOf]

theorem pollBody_cache (H : Nat → Hash) (hook : Hash → Snapshot → Option Err)
    (s : BadgerStore) (ps : PeerSnapshot) (rest : List PeerSnapshot)
    (hdf : s.queue.finalRing.disposed = false) (hef : s.queue.finalRing.items = [])
    (hd : s.queue.cacheRing.disposed = false) (he : s.queue.cacheRing.items = ps :: rest) :
    s.pollBody H hook =
      ({ s with queue := (s.queue.PopCache H).1 },
        [hookCallOf hook (drained H s.queue ps)]) := by
  simp [BadgerStore.pollBody, PopFinal_empty H s.queue hdf hef,
    PopCache_cons H s.queue ps rest hd he, hookCallOf, drained]

theorem pollBody_idle (H : Nat → Hash) (hook : Hash → Snapshot → Option Err)
    (s : BadgerStore)
    (hdf : s.queue.finalRing.disposed = false) (hef : s.queue.finalRing.items = [])
    (hd : s.queue.cacheRing.disposed = false) (he : s.queue.cacheRing.items = []) :
    s.pollBody H hook = (s, []) := by
  simp [BadgerStore.pollBody, PopFinal_empty H s.queue hdf hef,
    PopCache_empty H s.queue hd he]

/-- Draining the final ring: `|F|` iterations deliver the items of `F` in order
and leave the queue as `|F|` calls of `PopFinal` do. -/
theorem poll_drain_final (H : Nat → Hash) (hook : Hash → Snapshot → Option Err)
    (n : Nat) (F : List PeerSnapshot) :
    ∀ (q : Queue) (rest : List PeerSnapshot), q.finalRing.disposed = false →
      q.finalRing.items = F ++ rest →
      BadgerStore.QueuePollSnapshots H hook (n + F.length) ⟨q, false⟩ =
        ((BadgerStore.QueuePollSnapshots H hook n ⟨(popFinalN H F.length q).1, false⟩).1,
          F.map (hookCallOf hook) ++
            (BadgerStore.QueuePollSnapshots H hook n ⟨(popFinalN H F.length q).1, false⟩).2) := by
  induction F with
  | nil => intro q rest _ _; rfl
  | cons ps tl ih =>
    intro q rest hd he
    have hb := pollBody_final H hook ⟨q, false⟩ ps (tl ++ rest) hd he
    have e1 := PopFinal_cons H q ps (tl ++ rest) hd he
    have hi := ih (q.PopFinal H).1 rest (by rw [e1]; exact hd) (by rw [e1])
    show BadgerStore.QueuePollSnapshots H hook ((n + tl.length) + 1) ⟨q, false⟩ = _
    simp only [BadgerStore.QueuePollSnapshots, hb, Bool.false_eq_true, if_false]
    rw [hi]
    simp [popFinalN]

/-- Draining the cache ring when the final ring is empty: `|C|` iterations deliver
the items of `C` in order, each with the signatures recorded for its identity, and
leave the queue as `|C|` calls of `PopCache` do. -/
theorem poll_drain_cache (H : Nat → Hash) (hook : Hash → Snapshot → Option Err)
    (n : Nat) (C : List PeerSnapshot) :
    ∀ (q : Queue) (rest : List PeerSnapshot), q.finalRing.disposed = false →
      q.finalRing.items = [] → q.cacheRing.disposed = false →
      q.cacheRing.items = C ++ rest →
      (C.map (fun p => p.Snapshot.PayloadHash H)).Nodup →
      BadgerStore.QueuePollSnapshots H hook (n + C.length) ⟨q, false⟩ =
        ((BadgerStore.QueuePollSnapshots H hook n ⟨(popCacheN H C.length q).1, false⟩).1,
          C.map (fun p => hookCallOf hook (drained H q p)) ++
            (BadgerStore.QueuePollSnapshots H hook n ⟨(popCacheN H C.length q).1, false⟩).2) ∧
      (popCacheN H C.length q).1.cacheRing = { q.cacheRing with items := rest } := by
  induction C with
  | nil =>
    intro q rest _ _ _ he _
    simp only [List.nil_append] at he
    refine ⟨rfl, ?_⟩
    simp [popCacheN, ← he]
  | cons ps tl ih =>
    intro q rest hdf hef hd he hnd
    have hb := pollBody_cache H hook ⟨q, false⟩ ps (tl ++ rest) hdf hef hd he
    have e1 := PopCache_cons H q ps (tl ++ rest) hd he
    have hfr := PopCache_frame H q
    rw [List.map_cons, List.nodup_cons] at hnd
    have hi := ih (q.PopCache H).1 rest (by rw [hfr.1]; exact hdf) (by rw [hfr.1]; exact hef)
      (by rw [e1]; exact hd) (by rw [e1]) hnd.2
    have hdr : ∀ p ∈ tl, drained H (q.PopCache H).1 p = drained H q p := by
      intro p hp
      have hne : p.Snapshot.PayloadHash H ≠ ps.Snapshot.PayloadHash H := by
        intro e
        exact hnd.1 (e ▸ List.mem_map_of_mem (fun p => p.Snapshot.PayloadHash H) hp)
      rw [e1]
      simp only [drained, Function.update_noteq hne]
    have hmap : tl.map (fun p => hookCallOf hook (drained H (q.PopCache H).1 p)) =
        tl.map (fun p => hookCallOf hook (drained H q p)) :=
      List.map_congr_left (fun p hp => by rw [hdr p hp])
    constructor
    · show BadgerStore.QueuePollSnapshots H hook ((n + tl.length) + 1) ⟨q, false⟩ = _
      simp only [BadgerStore.QueuePollSnapshots, hb, Bool.false_eq_true, if_false]
      rw [hi.1, hmap]
      simp [popCacheN]
    · simp only [List.length_cons, popCacheN]
      rw [hi.2, e1]

/-- The queue state after any number of loop iterations, and the arguments of
the hook invocations made, do not depend on what the hook returns. -/
theorem poll_hook_independent (H : Nat → Hash) (hook hook2 : Hash → Snapshot → Option Err)
    (n : Nat) :
    ∀ s : BadgerStore,
      (BadgerStore.QueuePollSnapshots H hook n s).1 =
        (BadgerStore.QueuePollSnapshots H hook2 n s).1 ∧
      (BadgerStore.QueuePollSnapshots H hook n s).2.map (fun c => (c.peerId, c.snap)) =
        (BadgerStore.QueuePollSnapshots H hook2 n s).2.map (fun c => (c.peerId, c.snap)) := by
  have hbody : ∀ s : BadgerStore, (s.pollBody H hook).1 = (s.pollBody H hook2).1 ∧
      (s.pollBody H hook).2.map (fun c => (c.peerId, c.snap)) =
        (s.pollBody H hook2).2.map (fun c => (c.peerId, c.snap)) := by
    intro s
    unfold BadgerStore.pollBody
    rcases hp : s.queue.PopFinal H with ⟨q1, _ | ps, _ | e⟩ <;> simp only []
    · rcases hc : q1.PopCache H with ⟨q2, _ | ps2, _ | e2⟩ <;> simp
    · simp
    · simp
    · simp
  induction n with
  | zero => intro s; exact ⟨rfl, rfl⟩
  | succ n ih =>
    intro s
    simp only [BadgerStore.QueuePollSnapshots]
    cases s.closing with
    | true => exact ⟨rfl, rfl⟩
    | false =>
      simp only [Bool.false_eq_true, if_false]
      have hb := hbody s
      have h1 := ih (s.pollBody H hook).1
      rw [List.map_append, List.map_append, hb.2, h1.2]
      rw [hb.1] at h1 ⊢
      exact ⟨h1.1, rfl⟩

/-- C11: exactly-once, priority-ordered delivery, independent of the hook.  From
a reachable state with both rings not disposed, the final ring holding `f1..fk` and
the cache ring `c1..cm`, and the loop not closing, the first `k + m` iterations of
`QueuePollSnapshots` invoke the hook once per item, on `f1..fk` and then on
`c1..cm` (the cache items with the signatures recorded for their identities);
afterwards both rings and both dedup maps are empty and a further iteration
invokes nothing.  For every number of iterations and every store, the resulting
store and the arguments of the hook invocations are the same for any two hooks,
whatever they return. -/
theorem C11_drain_exactly_once (H : Nat → Hash) (hook hook2 : Hash → Snapshot → Option Err)
    (q : Queue) (hq : Reachable H q) (hdf : q.finalRing.disposed = false)
    (hdc : q.cacheRing.disposed = false) :
    (BadgerStore.QueuePollSnapshots H hook
        (q.finalRing.items.length + q.cacheRing.items.length) ⟨q, false⟩).2 =
      q.finalRing.items.map (hookCallOf hook) ++
        q.cacheRing.items.map (fun p => hookCallOf hook (drained H q p)) ∧
    (BadgerStore.QueuePollSnapshots H hook
        (q.finalRing.items.length + q.cacheRing.items.length) ⟨q, false⟩).1.queue.finalRing.items
      = [] ∧
    (BadgerStore.QueuePollSnapshots H hook
        (q.finalRing.items.length + q.cacheRing.items.length) ⟨q, false⟩).1.queue.cacheRing.items
      = [] ∧
    (BadgerStore.QueuePollSnapshots H hook
        (q.finalRing.items.length + q.cacheRing.items.length) ⟨q, false⟩).1.queue.finalSet
      = (fun _ => none) ∧
    (BadgerStore.QueuePollSnapshots H hook
        (q.finalRing.items.length + q.cacheRing.items.length) ⟨q, false⟩).1.queue.cacheSet
      = (fun _ => none) ∧
    ((BadgerStore.QueuePollSnapshots H hook
        (q.finalRing.items.length + q.cacheRing.items.length) ⟨q, false⟩).1.pollBody H hook).2
      = [] ∧
    (∀ (n : Nat) (s : BadgerStore),
      (BadgerStore.QueuePollSnapshots H hook n s).1 =
        (BadgerStore.QueuePollSnapshots H hook2 n s).1 ∧
      (BadgerStore.QueuePollSnapshots H hook n s).2.map (fun c => (c.peerId, c.snap)) =
        (BadgerStore.QueuePollSnapshots H hook2 n s).2.map (fun c => (c.peerId, c.snap))) := by
  have hF := poll_drain_final H hook q.cacheRing.items.length q.finalRing.items q [] hdf
    (List.append_nil _).symm
  have hspec := popFinalN_spec H q.finalRing.items q [] hdf (List.append_nil _).symm
  have hfr := popFinalN_frame H q.finalRing.items.length q
  have hr1 := popFinalN_reachable H q.finalRing.items.length q hq
  generalize hq1 : (popFinalN H q.finalRing.items.length q).1 = q1 at hF hspec hfr hr1
  have hdf1 : q1.finalRing.disposed = false := by rw [hspec.2]; exact hdf
  have hef1 : q1.finalRing.items = [] := by rw [hspec.2]
  have hdc1 : q1.cacheRing.disposed = false := by rw [hfr.1]; exact hdc
  have hC := poll_drain_cache H hook 0 q.cacheRing.items q1 [] hdf1 hef1 hdc1
    (by rw [hfr.1, List.append_nil]) hq.inv.cacheNodup
  have hr2 := popCacheN_reachable H q.cacheRing.items.length q1 hr1
  have hfr2 := popCacheN_frame H q.cacheRing.items.length q1
  generalize hq2 : (popCacheN H q.cacheRing.items.length q1).1 = q2 at hC hr2 hfr2
  have hdr : q.cacheRing.items.map (fun p => hookCallOf hook (drained H q1 p)) =
      q.cacheRing.items.map (fun p => hookCallOf hook (drained H q p)) := by
    apply List.map_congr_left
    intro p _
    simp only [drained, hfr.2]
  have hrun : BadgerStore.QueuePollSnapshots H hook
      (q.finalRing.items.length + q.cacheRing.items.length) ⟨q, false⟩ =
      (⟨q2, false⟩, q.finalRing.items.map (hookCallOf hook) ++
        q.cacheRing.items.map (fun p => hookCallOf hook (drained H q p))) := by
    rw [Nat.add_comm, hF]
    have h0 : BadgerStore.QueuePollSnapshots H hook q.cacheRing.items.length ⟨q1, false⟩ =
        BadgerStore.QueuePollSnapshots H hook (0 + q.cacheRing.items.length) ⟨q1, false⟩ := by
      rw [Nat.zero_add]
    rw [h0, hC.1, hdr]
    simp [BadgerStore.QueuePollSnapshots]
  have hdf2 : q2.finalRing.disposed = false := by rw [hfr2.1]; exact hdf1
  have hef2 : q2.finalRing.items = [] := by rw [hfr2.1]; exact hef1
  have hdc2 : q2.cacheRing.disposed = false := by rw [hC.2]; exact hdc1
  have hec2 : q2.cacheRing.items = [] := by rw [hC.2]
  have hi2 := hr2.inv
  rw [hrun]
  refine ⟨rfl, hef2, hec2, ?_, ?_, ?_, fun n s => poll_hook_independent H hook hook2 n s⟩
  · funext h
    rcases hr2.finalSet_values h with hv | hv
    · exact hv
    · have ht : q2.finalTracked h = true := by simp [Queue.finalTracked, hv]
      have := hi2.finalSup hdf2 h ht
      simp [ringIds, hef2] at this
  · funext h
    rcases Bool.eq_false_or_eq_true (q2.cacheTracked h) with ht | ht
    · have := hi2.cacheSup hdc2 h ht
      simp [ringIds, hec2] at this
    · simpa [Queue.cacheTracked] using ht
  · rw [pollBody_idle H hook ⟨q2, false⟩ hdf2 hef2 hdc2 hec2]

/-- C11 at a concrete input: identity 1 on the final channel and identity 2 on
the cache channel of a fresh queue, and a hook that always fails. -/
theorem C11_drain_exactly_once_witness :
    (BadgerStore.QueuePollSnapshots id (fun _ _ => some Err.disposed) 2
      ⟨((NewQueue.PutCache id 1 ⟨8, ⟨2, some [5]⟩⟩).1.PutFinal id 1 ⟨7, ⟨1, none⟩⟩).1, false⟩).2 =
      [⟨7, ⟨1, none⟩, some Err.disposed⟩, ⟨8, ⟨2, some [5]⟩, some Err.disposed⟩] :=
  (C11_drain_exactly_once id (fun _ _ => some Err.disposed) (fun _ _ => none)
    ((NewQueue.PutCache id 1 ⟨8, ⟨2, some [5]⟩⟩).1.PutFinal id 1 ⟨7, ⟨1, none⟩⟩).1
    (Reachable.putFinal 1 _ none
      (Reachable.putCache 1 _ none Reachable.init (by decide)) (by decide))
    rfl rfl).1

/-! ## Correspondence of dedup maps and rings -/

theorem retryOffer_disposed_eq (fuel : Nat) (rb : RingBuffer PeerSnapshot) (ps : PeerSnapshot) :
    (retryOffer fuel rb ps).1.disposed = rb.disposed := by
  rcases Bool.eq_false_or_eq_true rb.disposed with hd | hd
  · cases fuel with
    | zero => rfl
    | succ n => rw [retryOffer_disposed n rb ps hd]
  · by_cases hs : rb.items.length < rb.capacity
    · cases fuel with
      | zero => rfl
      | succ n => rw [retryOffer_space n rb ps hd hs]
    · rw [retryOffer_full fuel rb ps hd (Nat.not_lt.mp hs)]

theorem PutFinal_disposed_eq (H : Nat → Hash) (fuel : Nat) (q : Queue) (ps : PeerSnapshot) :
    (q.PutFinal H fuel ps).1.finalRing.disposed = q.finalRing.disposed := by
  rcases Bool.eq_false_or_eq_true (q.finalTracked (ps.Snapshot.PayloadHash H)) with ht | ht
  · rw [PutFinal_tracked H fuel q ps ht]
  · rw [PutFinal_untracked H fuel q ps ht]
    exact retryOffer_disposed_eq fuel q.finalRing ps

theorem PutCache_disposed_eq (H : Nat → Hash) (fuel : Nat) (q : Queue) (ps : PeerSnapshot) :
    (q.PutCache H fuel ps).1.cacheRing.disposed = q.cacheRing.disposed := by
  rcases Bool.eq_false_or_eq_true (q.cacheTracked (ps.Snapshot.PayloadHash H)) with ht | ht
  · rw [PutCache_tracked H fuel q ps ht]
  · rw [PutCache_untracked H fuel q ps ht]
    exact retryOffer_disposed_eq fuel q.cacheRing ps

theorem PopFinal_disposed_eq (H : Nat → Hash) (q : Queue) :
    (q.PopFinal H).1.finalRing.disposed = q.finalRing.disposed := by
  rcases Bool.eq_false_or_eq_true q.finalRing.disposed with hd | hd
  · rw [PopFinal_disposed H q hd]
  · cases he : q.finalRing.items with
    | nil => rw [PopFinal_empty H q hd he]
    | cons ps rest => rw [PopFinal_cons H q ps rest hd he]

theorem PopCache_disposed_eq (H : Nat → Hash) (q : Queue) :
    (q.PopCache H).1.cacheRing.disposed = q.cacheRing.disposed := by
  rcases Bool.eq_false_or_eq_true q.cacheRing.disposed with hd | hd
  · rw [PopCache_disposed H q hd]
  · cases he : q.cacheRing.items with
    | nil => rw [PopCache_empty H q hd he]
    | cons ps rest => rw [PopCache_cons H q ps rest hd he]

/-- A state reached without `Dispose` is reachable, and its rings are not
disposed. -/
theorem ReachableLive.live {H : Nat → Hash} {q : Queue} (hq : ReachableLive H q) :
    Reachable H q ∧ q.finalRing.disposed = false ∧ q.cacheRing.disposed = false := by
  induction hq with
  | init => exact ⟨Reachable.init, rfl, rfl⟩
  | @putFinal q fuel ps err _ hr ih =>
    refine ⟨Reachable.putFinal fuel ps err ih.1 hr, ?_, ?_⟩
    · rw [PutFinal_disposed_eq]; exact ih.2.1
    · rw [(PutFinal_frame H fuel q ps).1]; exact ih.2.2
  | @putCache q fuel ps err _ hr ih =>
    refine ⟨Reachable.putCache fuel ps err ih.1 hr, ?_, ?_⟩
    · rw [(PutCache_frame H fuel q ps).1]; exact ih.2.1
    · rw [PutCache_disposed_eq]; exact ih.2.2
  | @popFinal q _ ih =>
    refine ⟨Reachable.popFinal ih.1, ?_, ?_⟩
    · rw [PopFinal_disposed_eq]; exact ih.2.1
    · rw [(PopFinal_frame H q).1]; exact ih.2.2
  | @popCache q _ ih =>
    refine ⟨Reachable.popCache ih.1, ?_, ?_⟩
    · rw [(PopCache_frame H q).1]; exact ih.2.1
    · rw [PopCache_disposed_eq]; exact ih.2.2

theorem PutFinal_marks (H : Nat → Hash) (fuel : Nat) (q : Queue) (ps : PeerSnapshot) :
    (q.PutFinal H fuel ps).1.finalTracked (ps.Snapshot.PayloadHash H) = true := by
  rcases Bool.eq_false_or_eq_true (q.finalTracked (ps.Snapshot.PayloadHash H)) with ht | ht
  · rw [PutFinal_tracked H fuel q ps ht]; exact ht
  · rw [PutFinal_untracked H fuel q ps ht]
    show (Function.update q.finalSet (ps.Snapshot.PayloadHash H) (some true)
      (ps.Snapshot.PayloadHash H)).getD false = true
    rw [Function.update_same]
    rfl

theorem PutCache_marks (H : Nat → Hash) (fuel : Nat) (q : Queue) (ps : PeerSnapshot) :
    (q.PutCache H fuel ps).1.cacheSet (ps.Snapshot.PayloadHash H) =
      some ps.Snapshot.Signatures := by
  rcases Bool.eq_false_or_eq_true (q.cacheTracked (ps.Snapshot.PayloadHash H)) with ht | ht
  · rw [PutCache_tracked H fuel q ps ht]
    exact Function.update_same _ _ _
  · rw [PutCache_untracked H fuel q ps ht]
    exact Function.update_same _ _ _

/-- C14: dedup maps and rings correspond.  In every state reached from
`NewQueue()` by returned `PutFinal`, `PutCache`, `PopFinal` and `PopCache` calls,
the identities marked `true` in the final dedup map are exactly the identities of
the items of the final ring, the keys of the cache dedup map are exactly the
identities of the items of the cache ring, and `Len()` is the sum of the two ring
occupancies, which is the number of pending final identities plus the number of
tracked cache identities.  A `PutFinal` (resp. `PutCache`) that returns `nil`
leaves an item of its identity in the final (resp. cache) ring. -/
theorem C14_dedup_ring_correspondence (H : Nat → Hash) (q : Queue)
    (hq : ReachableLive H q) :
    (∀ h, q.finalSet h = some true ↔ h ∈ ringIds H q.finalRing) ∧
    (∀ h, (q.cacheSet h).isSome = true ↔ h ∈ ringIds H q.cacheRing) ∧
    q.Len = q.finalRing.items.length + q.cacheRing.items.length ∧
    q.Len = (ringIds H q.finalRing).toFinset.card + (ringIds H q.cacheRing).toFinset.card ∧
    (∀ (fuel : Nat) (ps : PeerSnapshot), (q.PutFinal H fuel ps).2 = Outcome.returned none →
      ps.Snapshot.PayloadHash H ∈ ringIds H (q.PutFinal H fuel ps).1.finalRing) ∧
    (∀ (fuel : Nat) (ps : PeerSnapshot), (q.PutCache H fuel ps).2 = Outcome.returned none →
      ps.Snapshot.PayloadHash H ∈ ringIds H (q.PutCache H fuel ps).1.cacheRing) := by
  obtain ⟨hr, hdf, hdc⟩ := hq.live
  have hi := hr.inv
  have hlen := Len_eq_of_inv H q hi
  refine ⟨?_, ?_, hlen, ?_, ?_, ?_⟩
  · intro h
    constructor
    · intro hv
      exact hi.finalSup hdf h (by simp [Queue.finalTracked, hv])
    · intro hm
      have ht := hi.finalSub h hm
      rcases hr.finalSet_values h with hv | hv
      · simp [Queue.finalTracked, hv] at ht
      · exact hv
  · intro h
    exact ⟨fun hv => hi.cacheSup hdc h hv, fun hm => hi.cacheSub h hm⟩
  · rw [hlen, List.toFinset_card_of_nodup hi.finalNodup,
      List.toFinset_card_of_nodup hi.cacheNodup]
    simp [ringIds]
  · intro fuel ps hret
    have hq1 := (ReachableLive.putFinal fuel ps none hq hret).live
    exact hq1.1.inv.finalSup hq1.2.1 _ (PutFinal_marks H fuel q ps)
  · intro fuel ps hret
    have hq1 := (ReachableLive.putCache fuel ps none hq hret).live
    refine hq1.1.inv.cacheSup hq1.2.2 _ ?_
    simp [Queue.cacheTracked, PutCache_marks H fuel q ps]

/-- C14 at a concrete input: identity 1 on the final channel and identity 2 on
the cache channel of a fresh queue. -/
theorem C14_dedup_ring_correspondence_witness :
    ((NewQueue.PutCache id 1 ⟨8, ⟨2, some [5]⟩⟩).1.PutFinal id 1 ⟨7, ⟨1, none⟩⟩).1.Len =
      ((NewQueue.PutCache id 1 ⟨8, ⟨2, some [5]⟩⟩).1.PutFinal id 1
        ⟨7, ⟨1, none⟩⟩).1.finalRing.items.length +
      ((NewQueue.PutCache id 1 ⟨8, ⟨2, some [5]⟩⟩).1.PutFinal id 1
        ⟨7, ⟨1, none⟩⟩).1.cacheRing.items.length :=
  (C14_dedup_ring_correspondence id
    ((NewQueue.PutCache id 1 ⟨8, ⟨2, some [5]⟩⟩).1.PutFinal id 1 ⟨7, ⟨1, none⟩⟩).1
    (ReachableLive.putFinal 1 _ none
      (ReachableLive.putCache 1 _ none ReachableLive.init (by decide)) (by decide))).2.2.1

/-! ## Repeated `PutCache` of one identity -/

/-- Repeated `PutCache` calls of an identity that is tracked: all return `nil`,
only the signatures recorded for the identity change, and they end up being those
of the last call. -/
theorem putCacheAll_tracked (H : Nat → Hash) (fuel : Nat) (h : Hash) (rest : List PeerSnapshot) :
    ∀ (q : Queue) (p : PeerSnapshot), q.cacheSet h = some p.Snapshot.Signatures →
      (∀ r ∈ rest, r.Snapshot.PayloadHash H = h) →
      (putCacheAll H fuel rest q).2 = rest.map (fun _ => Outcome.returned none) ∧
      (putCacheAll H fuel rest q).1.cacheRing = q.cacheRing ∧
      (putCacheAll H fuel rest q).1.cacheSet h =
        some (rest.getLastD p).Snapshot.Signatures ∧
      (∀ k, k ≠ h → (putCacheAll H fuel rest q).1.cacheSet k = q.cacheSet k) := by
  induction rest with
  | nil => intro q p hp _; exact ⟨rfl, rfl, hp, fun _ _ => rfl⟩
  | cons r tl ih =>
    intro q p hp hall
    have hr : r.Snapshot.PayloadHash H = h := hall r (List.mem_cons_self _ _)
    have ht : q.cacheTracked (r.Snapshot.PayloadHash H) = true := by
      rw [hr]; simp [Queue.cacheTracked, hp]
    have e1 := PutCache_tracked H fuel q r ht
    have hi := ih (q.PutCache H fuel r).1 r
      (by rw [← hr]; exact PutCache_marks H fuel q r)
      (fun x hx => hall x (List.mem_cons_of_mem _ hx))
    simp only [putCacheAll, List.map_cons, List.getLastD_cons]
    refine ⟨by rw [hi.1, e1], ?_, hi.2.2.1, ?_⟩
    · rw [hi.2.1, e1]
    · intro k hk
      rw [hi.2.2.2 k hk, e1]
      show Function.update q.cacheSet (r.Snapshot.PayloadHash H) (some r.Snapshot.Signatures) k
        = q.cacheSet k
      rw [hr]
      exact Function.update_noteq hk _ _

/-- Popping a first part of the cache ring leaves the rest of the ring and the
dedup entries of all other identities. -/
theorem popCacheN_keeps (H : Nat → Hash) (C : List PeerSnapshot) :
    ∀ (q : Queue) (rest : List PeerSnapshot), q.cacheRing.disposed = false →
      q.cacheRing.items = C ++ rest →
      (popCacheN H C.length q).1.cacheRing = { q.cacheRing with items := rest } ∧
      (∀ k, k ∉ C.map (fun p => p.Snapshot.PayloadHash H) →
        (popCacheN H C.length q).1.cacheSet k = q.cacheSet k) := by
  induction C with
  | nil =>
    intro q rest _ he
    simp only [List.nil_append] at he
    refine ⟨?_, fun _ _ => rfl⟩
    simp [popCacheN, ← he]
  | cons ps tl ih =>
    intro q rest hd he
    have e1 := PopCache_cons H q ps (tl ++ rest) hd he
    have hi := ih (q.PopCache H).1 rest (by rw [e1]; exact hd) (by rw [e1])
    simp only [List.length_cons, popCacheN]
    refine ⟨by rw [hi.1, e1], ?_⟩
    intro k hk
    rw [List.map_cons, List.mem_cons, not_or] at hk
    rw [hi.2 k hk.2, e1]
    exact Function.update_noteq hk.1 _ _

/-- C15: first envelope, last signatures.  In a reachable state whose cache ring
is not disposed and not full, let `PutCache(ps1)` be made with an identity that is
not tracked, followed by `PutCache` calls `rest` of the same identity while it is
pending.  All calls return `nil`; the cache ring gains the single item `ps1`; and
once the items that were ahead of it have been popped, `PopCache` returns `ps1`
(its peer id and payload) with the signatures of the last call (`ps1` itself when
`rest` is empty).  The peer ids and snapshots of the later calls are in no ring. -/
theorem C15_first_envelope_last_signatures (H : Nat → Hash) (fuel : Nat) (q : Queue)
    (ps1 : PeerSnapshot) (rest : List PeerSnapshot) (hq : Reachable H q)
    (hd : q.cacheRing.disposed = false)
    (hs : q.cacheRing.items.length < q.cacheRing.capacity)
    (ht : q.cacheTracked (ps1.Snapshot.PayloadHash H) = false)
    (hall : ∀ r ∈ rest, r.Snapshot.PayloadHash H = ps1.Snapshot.PayloadHash H) :
    (putCacheAll H (fuel + 1) (ps1 :: rest) q).2 =
      (ps1 :: rest).map (fun _ => Outcome.returned none) ∧
    (putCacheAll H (fuel + 1) (ps1 :: rest) q).1.cacheRing.items =
      q.cacheRing.items ++ [ps1] ∧
    (putCacheAll H (fuel + 1) (ps1 :: rest) q).1.finalRing = q.finalRing ∧
    ((popCacheN H q.cacheRing.items.length
        (putCacheAll H (fuel + 1) (ps1 :: rest) q).1).1.PopCache H).2 =
      (some { ps1 with Snapshot :=
          { ps1.Snapshot with Signatures := (rest.getLastD ps1).Snapshot.Signatures } },
        none) := by
  have hi := hq.inv
  have e1 : q.PutCache H (fuel + 1) ps1 =
      ({ q with
          cacheSet := Function.update q.cacheSet (ps1.Snapshot.PayloadHash H)
            (some ps1.Snapshot.Signatures),
          cacheRing := { q.cacheRing with items := q.cacheRing.items ++ [ps1] } },
        Outcome.returned none) := by
    rw [PutCache_untracked H (fuel + 1) q ps1 ht, retryOffer_space fuel q.cacheRing ps1 hd hs]
  obtain ⟨a1, a2, a3, _⟩ := putCacheAll_tracked H (fuel + 1) (ps1.Snapshot.PayloadHash H) rest
    (q.PutCache H (fuel + 1) ps1).1 ps1 (PutCache_marks H (fuel + 1) q ps1) hall
  have hfin : ∀ (L : List PeerSnapshot) (q0 : Queue),
      (putCacheAll H (fuel + 1) L q0).1.finalRing = q0.finalRing := by
    intro L
    induction L with
    | nil => intro q0; rfl
    | cons x tl ih =>
      intro q0
      simp only [putCacheAll]
      rw [ih, (PutCache_frame H (fuel + 1) q0 x).1]
  have hring : (putCacheAll H (fuel + 1) (ps1 :: rest) q).1.cacheRing =
      { q.cacheRing with items := q.cacheRing.items ++ [ps1] } := by
    simp only [putCacheAll]
    rw [a2, e1]
  have hnot : ps1.Snapshot.PayloadHash H ∉
      q.cacheRing.items.map (fun p => p.Snapshot.PayloadHash H) := by
    intro hm
    rw [hi.cacheSub _ hm] at ht
    exact Bool.noConfusion ht
  obtain ⟨b1, b2⟩ := popCacheN_keeps H q.cacheRing.items
    (putCacheAll H (fuel + 1) (ps1 :: rest) q).1 [ps1] (by rw [hring]; exact hd) (by rw [hring])
  refine ⟨?_, by rw [hring], hfin _ q, ?_⟩
  · simp only [putCacheAll, List.map_cons]
    rw [a1, e1]
  · have hset : (popCacheN H q.cacheRing.items.length
        (putCacheAll H (fuel + 1) (ps1 :: rest) q).1).1.cacheSet (ps1.Snapshot.PayloadHash H) =
        some (rest.getLastD ps1).Snapshot.Signatures := by
      rw [b2 _ hnot]
      simp only [putCacheAll]
      exact a3
    rw [PopCache_cons H _ ps1 [] (by rw [b1, hring]; exact hd) (by rw [b1]), hset]
    rfl

/-- C15 at a concrete input: three `PutCache` calls of identity 2 from peers 8, 9
and 10 on a queue that already holds identity 1 in its cache ring. -/
theorem C15_first_envelope_last_signatures_witness :
    ((popCacheN id 1
        (putCacheAll id 1 [⟨8, ⟨2, some [5]⟩⟩, ⟨9, ⟨2, none⟩⟩, ⟨10, ⟨2, some [6, 7]⟩⟩]
          (NewQueue.PutCache id 1 ⟨7, ⟨1, none⟩⟩).1).1).1.PopCache id).2 =
      (some ⟨8, ⟨2, some [6, 7]⟩⟩, none) :=
  (C15_first_envelope_last_signatures id 0 (NewQueue.PutCache id 1 ⟨7, ⟨1, none⟩⟩).1
    ⟨8, ⟨2, some [5]⟩⟩ [⟨9, ⟨2, none⟩⟩, ⟨10, ⟨2, some [6, 7]⟩⟩]
    (Reachable.putCache 1 _ none Reachable.init (by decide)) rfl (by decide) (by decide)
    (by decide)).2.2.2

/-! ## Independence of the two channels -/

/-- One `PutFinal` and one `PutCache` on a fresh queue, in either order, give the
same state: one item in each ring and one entry in each dedup map. -/
theorem fresh_put_both (H : Nat → Hash) (fuel : Nat) (psF psC : PeerSnapshot) :
    (NewQueue.PutFinal H (fuel + 1) psF).2 = Outcome.returned none ∧
    ((NewQueue.PutFinal H (fuel + 1) psF).1.PutCache H (fuel + 1) psC).2 =
      Outcome.returned none ∧
    (NewQueue.PutCache H (fuel + 1) psC).2 = Outcome.returned none ∧
    ((NewQueue.PutCache H (fuel + 1) psC).1.PutFinal H (fuel + 1) psF).2 =
      Outcome.returned none ∧
    ((NewQueue.PutFinal H (fuel + 1) psF).1.PutCache H (fuel + 1) psC).1 =
      { cacheRing := { capacity := 1024 * 1024, items := [psC], disposed := false },
        finalRing := { capacity := 1024 * 1024, items := [psF], disposed := false },
        cacheSet := Function.update (fun _ => none) (psC.Snapshot.PayloadHash H)
          (some psC.Snapshot.Signatures),
        finalSet := Function.update (fun _ => none) (psF.Snapshot.PayloadHash H) (some true) } ∧
    ((NewQueue.PutCache H (fuel + 1) psC).1.PutFinal H (fuel + 1) psF).1 =
      ((NewQueue.PutFinal H (fuel + 1) psF).1.PutCache H (fuel + 1) psC).1 := by
  have hcap : (0 : Nat) < 1024 * 1024 := by decide
  have eF : NewQueue.PutFinal H (fuel + 1) psF =
      ({ NewQueue with
          finalSet := Function.update NewQueue.finalSet (psF.Snapshot.PayloadHash H) (some true),
          finalRing := { NewQueue.finalRing with items := NewQueue.finalRing.items ++ [psF] } },
        Outcome.returned none) := by
    rw [PutFinal_untracked H (fuel + 1) NewQueue psF rfl,
      retryOffer_space fuel NewQueue.finalRing psF rfl hcap]
  have eC : NewQueue.PutCache H (fuel + 1) psC =
      ({ NewQueue with
          cacheSet := Function.update NewQueue.cacheSet (psC.Snapshot.PayloadHash H)
            (some psC.Snapshot.Signatures),
          cacheRing := { NewQueue.cacheRing with items := NewQueue.cacheRing.items ++ [psC] } },
        Outcome.returned none) := by
    rw [PutCache_untracked H (fuel + 1) NewQueue psC rfl,
      retryOffer_space fuel NewQueue.cacheRing psC rfl hcap]
  have eFC : (NewQueue.PutFinal H (fuel + 1) psF).1.PutCache H (fuel + 1) psC =
      ({ cacheRing := { capacity := 1024 * 1024, items := [psC], disposed := false },
         finalRing := { capacity := 1024 * 1024, items := [psF], disposed := false },
         cacheSet := Function.update (fun _ => none) (psC.Snapshot.PayloadHash H)
           (some psC.Snapshot.Signatures),
         finalSet := Function.update (fun _ => none) (psF.Snapshot.PayloadHash H)
           (some true) }, Outcome.returned none) := by
    have hx := PutCache_untracked H (fuel + 1) (NewQueue.PutFinal H (fuel + 1) psF).1 psC
      (by rw [eF]; rfl)
    rw [retryOffer_space fuel _ psC (by rw [eF]; rfl) (by rw [eF]; exact hcap)] at hx
    rw [hx, eF]
    rfl
  have eCF : (NewQueue.PutCache H (fuel + 1) psC).1.PutFinal H (fuel + 1) psF =
      ({ cacheRing := { capacity := 1024 * 1024, items := [psC], disposed := false },
         finalRing := { capacity := 1024 * 1024, items := [psF], disposed := false },
         cacheSet := Function.update (fun _ => none) (psC.Snapshot.PayloadHash H)
           (some psC.Snapshot.Signatures),
         finalSet := Function.update (fun _ => none) (psF.Snapshot.PayloadHash H)
           (some true) }, Outcome.returned none) := by
    have hx := PutFinal_untracked H (fuel + 1) (NewQueue.PutCache H (fuel + 1) psC).1 psF
      (by rw [eC]; rfl)
    rw [retryOffer_space fuel _ psF (by rw [eC]; rfl) (by rw [eC]; exact hcap)] at hx
    rw [hx, eC]
    rfl
  refine ⟨by rw [eF], by rw [eFC], by rw [eC], by rw [eCF], by rw [eFC], by rw [eCF, eFC]⟩

/-- C16, as stated, fails: `PopCache` does not leave the final ring as it is when
an item of the final ring shares its snapshot object with the popped item.  In
`sharedQueue` the item `⟨7, 0⟩` is in both rings and a later `PutCache` of the same
identity recorded the signatures `[9]`.  Before the `PopCache` the final ring holds
the record with signatures `[3]`; the `PopCache` returns the item `⟨7, 0⟩` and
writes `[9]` into the snapshot at address 0, so the final ring now holds the record
with signatures `[9]`, and that is what the next `PopFinal` hands out. -/
theorem C16_popCache_writes_shared_snapshot :
    (sharedQueue.view sharedHeap).finalRing.items = [⟨7, ⟨1, some [3]⟩⟩] ∧
    (sharedQueue.PopCache id sharedHeap).2.2 = (some ⟨7, 0⟩, none) ∧
    ((sharedQueue.PopCache id sharedHeap).1.view
      (sharedQueue.PopCache id sharedHeap).2.1).finalRing.items = [⟨7, ⟨1, some [9]⟩⟩] ∧
    (((sharedQueue.PopCache id sharedHeap).1.PopFinal id
      (sharedQueue.PopCache id sharedHeap).2.1).2.1.map
        (PeerRef.deref (sharedQueue.PopCache id sharedHeap).2.1)) = some ⟨7, ⟨1, some [9]⟩⟩ := by
  refine ⟨by decide, by decide, by decide, by decide⟩

theorem RefPopCache_disposed (H : Nat → Hash) (heap : Heap) (q : RefQueue)
    (hd : q.cacheRing.disposed = true) :
    q.PopCache H heap = (q, heap, none, some Err.disposed) := by
  simp [RefQueue.PopCache, RingBuffer.Poll, hd]

theorem RefPopCache_empty (H : Nat → Hash) (heap : Heap) (q : RefQueue)
    (hd : q.cacheRing.disposed = false) (he : q.cacheRing.items = []) :
    q.PopCache H heap = (q, heap, none, none) := by
  simp [RefQueue.PopCache, RingBuffer.Poll, hd, he]

theorem RefPopCache_cons (H : Nat → Hash) (heap : Heap) (q : RefQueue) (r : PeerRef)
    (rest : List PeerRef) (hd : q.cacheRing.disposed = false)
    (he : q.cacheRing.items = r :: rest) :
    q.PopCache H heap =
      ({ q with
          cacheRing := { q.cacheRing with items := rest },
          cacheSet := Function.update q.cacheSet ((heap r.Snapshot).PayloadHash H) none },
        Function.update heap r.Snapshot
          { heap r.Snapshot with
            Signatures := (q.cacheSet ((heap r.Snapshot).PayloadHash H)).getD none },
        some r, none) := by
  simp [RefQueue.PopCache, RingBuffer.Poll, hd, he]

theorem RefPopFinal_frame (H : Nat → Hash) (heap : Heap) (q : RefQueue) :
    (q.PopFinal H heap).1.cacheRing = q.cacheRing ∧
    (q.PopFinal H heap).1.cacheSet = q.cacheSet := by
  unfold RefQueue.PopFinal
  split <;> exact ⟨rfl, rfl⟩

theorem RefPutFinal_frame (H : Nat → Hash) (fuel : Nat) (heap : Heap) (q : RefQueue)
    (r : PeerRef) :
    (q.PutFinal H fuel heap r).1.cacheRing = q.cacheRing ∧
    (q.PutFinal H fuel heap r).1.cacheSet = q.cacheSet := by
  unfold RefQueue.PutFinal
  dsimp only
  split <;> exact ⟨rfl, rfl⟩

theorem RefPutCache_frame (H : Nat → Hash) (fuel : Nat) (heap : Heap) (q : RefQueue)
    (r : PeerRef) :
    (q.PutCache H fuel heap r).1.finalRing = q.finalRing ∧
    (q.PutCache H fuel heap r).1.finalSet = q.finalSet := by
  unfold RefQueue.PutCache
  dsimp only
  split <;> exact ⟨rfl, rfl⟩

/-- What `PopCache` does outside the cache channel: it keeps the slots of the
final ring and the final dedup map, and the only snapshot object it writes is the
one of the item it returns, of which it replaces the signatures and nothing else. -/
theorem RefPopCache_effect (H : Nat → Hash) (heap : Heap) (q : RefQueue) :
    (q.PopCache H heap).1.finalRing = q.finalRing ∧
    (q.PopCache H heap).1.finalSet = q.finalSet ∧
    (∀ a, (∀ r, (q.PopCache H heap).2.2.1 = some r → a ≠ r.Snapshot) →
      (q.PopCache H heap).2.1 a = heap a) ∧
    (∀ a, ((q.PopCache H heap).2.1 a).Payload = (heap a).Payload) := by
  rcases Bool.eq_false_or_eq_true q.cacheRing.disposed with hd | hd
  · rw [RefPopCache_disposed H heap q hd]
    exact ⟨rfl, rfl, fun _ _ => rfl, fun _ => rfl⟩
  · cases he : q.cacheRing.items with
    | nil =>
      rw [RefPopCache_empty H heap q hd he]
      exact ⟨rfl, rfl, fun _ _ => rfl, fun _ => rfl⟩
    | cons r rest =>
      rw [RefPopCache_cons H heap q r rest hd he]
      refine ⟨rfl, rfl, ?_, ?_⟩
      · intro a ha
        exact Function.update_noteq (ha r rfl) _ _
      · intro a
        show (Function.update heap r.Snapshot _ a).Payload = (heap a).Payload
        rw [Function.update_apply]
        split
        · next e => rw [e]
        · rfl

/-- One `PutFinal` and one `PutCache` on a fresh `RefQueue`, in either order: both
return `nil` and give the same state, with one item in each ring. -/
theorem fresh_ref_put_both (H : Nat → Hash) (fuel : Nat) (heap : Heap) (rF rC : PeerRef) :
    (NewRefQueue.PutFinal H (fuel + 1) heap rF).2 = Outcome.returned none ∧
    ((NewRefQueue.PutFinal H (fuel + 1) heap rF).1.PutCache H (fuel + 1) heap rC).2 =
      Outcome.returned none ∧
    (NewRefQueue.PutCache H (fuel + 1) heap rC).2 = Outcome.returned none ∧
    ((NewRefQueue.PutCache H (fuel + 1) heap rC).1.PutFinal H (fuel + 1) heap rF).2 =
      Outcome.returned none ∧
    ((NewRefQueue.PutFinal H (fuel + 1) heap rF).1.PutCache H (fuel + 1) heap rC).1 =
      { cacheRing := { capacity := 1024 * 1024, items := [rC], disposed := false },
        finalRing := { capacity := 1024 * 1024, items := [rF], disposed := false },
        cacheSet := Function.update (fun _ => none) ((heap rC.Snapshot).PayloadHash H)
          (some (heap rC.Snapshot).Signatures),
        finalSet := Function.update (fun _ => none) ((heap rF.Snapshot).PayloadHash H)
          (some true) } ∧
    ((NewRefQueue.PutCache H (fuel + 1) heap rC).1.PutFinal H (fuel + 1) heap rF).1 =
      ((NewRefQueue.PutFinal H (fuel + 1) heap rF).1.PutCache H (fuel + 1) heap rC).1 := by
  refine ⟨?_, ?_, ?_, ?_, ?_, ?_⟩ <;>
    simp [RefQueue.PutFinal, RefQueue.PutCache, NewRefQueue, NewRingBuffer, retryOfferRef,
      offerPassRef, RingBuffer.Offer]

/-- C16, amended: channel independence, with the rings holding snapshot pointers
as in the code.  In every state and memory, `PutFinal` and `PopFinal` leave the
cache ring and the cache dedup map unchanged and `PutCache` leaves the final ring
and the final dedup map unchanged; these three write no snapshot object.
`PopCache` leaves the slots of the final ring and the final dedup map unchanged,
and the only snapshot object it writes is the one of the item it returns, of which
it replaces the signatures and nothing else: an item of the final ring keeps its
peer id and identity, and denotes the same record as before unless it shares its
snapshot object with the returned item.  On a fresh queue, `PutFinal(rF)` and
`PutCache(rC)`, in either order and whether or not the two have the same identity
or the same snapshot object, both return `nil` and put one item in each ring,
`Len()` is 2, and two iterations of the draining loop invoke the hook on `rF` and
then on `rC`, leaving the memory as it was. -/
theorem C16_channel_independence (H : Nat → Hash) (fuel : Nat) (heap : Heap) (q : RefQueue)
    (r rF rC : PeerRef) (hook : Hash → Snapshot → Option Err) :
    ((q.PutFinal H fuel heap r).1.cacheRing = q.cacheRing ∧
      (q.PutFinal H fuel heap r).1.cacheSet = q.cacheSet) ∧
    ((q.PopFinal H heap).1.cacheRing = q.cacheRing ∧
      (q.PopFinal H heap).1.cacheSet = q.cacheSet) ∧
    ((q.PutCache H fuel heap r).1.finalRing = q.finalRing ∧
      (q.PutCache H fuel heap r).1.finalSet = q.finalSet) ∧
    ((q.PopCache H heap).1.finalRing = q.finalRing ∧
      (q.PopCache H heap).1.finalSet = q.finalSet) ∧
    (∀ a, (∀ r0, (q.PopCache H heap).2.2.1 = some r0 → a ≠ r0.Snapshot) →
      (q.PopCache H heap).2.1 a = heap a) ∧
    (∀ a, ((q.PopCache H heap).2.1 a).Payload = (heap a).Payload) ∧
    (∀ x ∈ q.finalRing.items,
      (x.deref (q.PopCache H heap).2.1).PeerId = (x.deref heap).PeerId ∧
      (x.deref (q.PopCache H heap).2.1).Snapshot.PayloadHash H =
        (x.deref heap).Snapshot.PayloadHash H ∧
      ((∀ r0, (q.PopCache H heap).2.2.1 = some r0 → x.Snapshot ≠ r0.Snapshot) →
        x.deref (q.PopCache H heap).2.1 = x.deref heap)) ∧
    ((NewRefQueue.PutFinal H (fuel + 1) heap rF).2 = Outcome.returned none ∧
      ((NewRefQueue.PutFinal H (fuel + 1) heap rF).1.PutCache H (fuel + 1) heap rC).2 =
        Outcome.returned none ∧
      (NewRefQueue.PutCache H (fuel + 1) heap rC).2 = Outcome.returned none ∧
      ((NewRefQueue.PutCache H (fuel + 1) heap rC).1.PutFinal H (fuel + 1) heap rF).2 =
        Outcome.returned none) ∧
    ((NewRefQueue.PutCache H (fuel + 1) heap rC).1.PutFinal H (fuel + 1) heap rF).1 =
      ((NewRefQueue.PutFinal H (fuel + 1) heap rF).1.PutCache H (fuel + 1) heap rC).1 ∧
    ((NewRefQueue.PutFinal H (fuel + 1) heap rF).1.PutCache H (fuel + 1) heap rC).1.finalRing.items
      = [rF] ∧
    ((NewRefQueue.PutFinal H (fuel + 1) heap rF).1.PutCache H (fuel + 1) heap rC).1.cacheRing.items
      = [rC] ∧
    ((NewRefQueue.PutFinal H (fuel + 1) heap rF).1.PutCache H (fuel + 1) heap rC).1.Len = 2 ∧
    (RefQueue.pollN H hook 2 heap
      ((NewRefQueue.PutFinal H (fuel + 1) heap rF).1.PutCache H (fuel + 1) heap rC).1).2 =
      (heap, [hookCallOf hook (rF.deref heap), hookCallOf hook (rC.deref heap)]) := by
  obtain ⟨e1, e2, e3, e4⟩ := RefPopCache_effect H heap q
  obtain ⟨r1, r2, r3, r4, e, eo⟩ := fresh_ref_put_both H fuel heap rF rC
  refine ⟨RefPutFinal_frame H fuel heap q r, RefPopFinal_frame H heap q,
    RefPutCache_frame H fuel heap q r, ⟨e1, e2⟩, e3, e4, ?_, ⟨r1, r2, r3, r4⟩, eo,
    by rw [e], by rw [e], ?_, ?_⟩
  · intro x _
    refine ⟨rfl, ?_, ?_⟩
    · show H ((q.PopCache H heap).2.1 x.Snapshot).Payload = H (heap x.Snapshot).Payload
      rw [e4]
    · intro hx
      show (⟨x.PeerId, (q.PopCache H heap).2.1 x.Snapshot⟩ : PeerSnapshot) =
        ⟨x.PeerId, heap x.Snapshot⟩
      rw [e3 x.Snapshot hx]
  · rw [e]
    rfl
  · rw [e]
    have hself : Function.update heap rC.Snapshot
        { heap rC.Snapshot with Signatures := (heap rC.Snapshot).Signatures } = heap :=
      Function.update_eq_self _ _
    simp [RefQueue.pollN, RefQueue.pollBody, RefQueue.PopFinal, RefQueue.PopCache,
      RingBuffer.Poll, hookCallOf, PeerRef.deref, Snapshot.PayloadHash, hself]

/-- C16, amended, at a concrete input: the `PopCache` on `sharedQueue` writes the
snapshot at address 0 only; the snapshot at address 1 and the slots of the final
ring are as before. -/
theorem C16_channel_independence_witness :
    (sharedQueue.PopCache id sharedHeap).2.1 1 = sharedHeap 1 ∧
    (sharedQueue.PopCache id sharedHeap).1.finalRing = sharedQueue.finalRing :=
  have h := C16_channel_independence id 0 sharedHeap sharedQueue ⟨7, 0⟩ ⟨7, 0⟩ ⟨7, 0⟩
    (fun _ _ => none)
  ⟨h.2.2.2.2.1 1 (fun r0 hr => by
      have hp : (sharedQueue.PopCache id sharedHeap).2.2.1 = some ⟨7, 0⟩ := by decide
      rw [hp] at hr
      cases hr
      decide),
    h.2.2.2.1.1⟩

/-! ## The records model and the pointers model agree where nothing is shared -/

theorem retryOfferRef_disposed (fuel : Nat) (rb : RingBuffer PeerRef) (r : PeerRef)
    (hd : rb.disposed = true) :
    retryOfferRef (fuel + 1) rb r = (rb, Outcome.returned (some Err.disposed)) := by
  simp [retryOfferRef, offerPassRef, RingBuffer.Offer, hd]

theorem retryOfferRef_space (fuel : Nat) (rb : RingBuffer PeerRef) (r : PeerRef)
    (hd : rb.disposed = false) (hs : rb.items.length < rb.capacity) :
    retryOfferRef (fuel + 1) rb r =
      ({ rb with items := rb.items ++ [r] }, Outcome.returned none) := by
  simp [retryOfferRef, offerPassRef, RingBuffer.Offer, hd, hs]

theorem retryOfferRef_full (fuel : Nat) (rb : RingBuffer PeerRef) (r : PeerRef)
    (hd : rb.disposed = false) (hf : rb.capacity ≤ rb.items.length) :
    retryOfferRef fuel rb r = (rb, Outcome.blocked) := by
  induction fuel with
  | zero => rfl
  | succ n ih => simp [retryOfferRef, offerPassRef, RingBuffer.Offer, hd, Nat.not_lt.mpr hf, ih]

/-- The retry loop on pointers is the retry loop on the records they denote. -/
theorem retryOfferRef_deref (heap : Heap) (fuel : Nat) (rb : RingBuffer PeerRef)
    (r : PeerRef) :
    retryOffer fuel (derefRing heap rb) (r.deref heap) =
      (derefRing heap (retryOfferRef fuel rb r).1, (retryOfferRef fuel rb r).2) := by
  rcases Bool.eq_false_or_eq_true rb.disposed with hd | hd
  · cases fuel with
    | zero => rfl
    | succ n =>
      rw [retryOfferRef_disposed n rb r hd,
        retryOffer_disposed n (derefRing heap rb) (r.deref heap) hd]
  · by_cases hs : rb.items.length < rb.capacity
    · cases fuel with
      | zero => rfl
      | succ n =>
        rw [retryOfferRef_space n rb r hd hs,
          retryOffer_space n (derefRing heap rb) (r.deref heap) hd
            (by simpa [derefRing] using hs)]
        simp [derefRing]
    · rw [retryOfferRef_full fuel rb r hd (Nat.not_lt.mp hs),
        retryOffer_full fuel (derefRing heap rb) (r.deref heap) hd
          (by simpa [derefRing] using Nat.not_lt.mp hs)]

/-- `PutFinal` on pointers is `PutFinal` on the records they denote. -/
theorem view_PutFinal (H : Nat → Hash) (fuel : Nat) (heap : Heap) (q : RefQueue) (r : PeerRef) :
    (q.view heap).PutFinal H fuel (r.deref heap) =
      ((q.PutFinal H fuel heap r).1.view heap, (q.PutFinal H fuel heap r).2) := by
  have hr := retryOfferRef_deref heap fuel q.finalRing r
  unfold Queue.PutFinal RefQueue.PutFinal
  by_cases ht : (q.finalSet ((heap r.Snapshot).PayloadHash H)).getD false = true
  · simp [RefQueue.view, PeerRef.deref, ht]
  · simp only [RefQueue.view, PeerRef.deref, ht] at hr ⊢
    simp only [derefRing, PeerRef.deref] at hr
    simp [hr]

/-- `PutCache` on pointers is `PutCache` on the records they denote. -/
theorem view_PutCache (H : Nat → Hash) (fuel : Nat) (heap : Heap) (q : RefQueue) (r : PeerRef) :
    (q.view heap).PutCache H fuel (r.deref heap) =
      ((q.PutCache H fuel heap r).1.view heap, (q.PutCache H fuel heap r).2) := by
  have hr := retryOfferRef_deref heap fuel q.cacheRing r
  unfold Queue.PutCache RefQueue.PutCache
  by_cases ht : (q.cacheSet ((heap r.Snapshot).PayloadHash H)).isSome = true
  · simp [RefQueue.view, PeerRef.deref, ht]
  · simp only [RefQueue.view, PeerRef.deref, ht] at hr ⊢
    simp only [derefRing, PeerRef.deref] at hr
    simp [hr]

/-- `PopFinal` on pointers is `PopFinal` on the records they denote. -/
theorem view_PopFinal (H : Nat → Hash) (heap : Heap) (q : RefQueue) :
    (q.view heap).PopFinal H =
      ((q.PopFinal H heap).1.view heap, (q.PopFinal H heap).2.1.map (PeerRef.deref heap),
        (q.PopFinal H heap).2.2) := by
  unfold Queue.PopFinal RefQueue.PopFinal RingBuffer.Poll
  rcases Bool.eq_false_or_eq_true q.finalRing.disposed with hd | hd
  · simp [RefQueue.view, hd]
  · cases he : q.finalRing.items with
    | nil => simp [RefQueue.view, hd, he]
    | cons r rest => simp [RefQueue.view, hd, he, PeerRef.deref]

/-- `PopCache` on pointers against `PopCache` on the records they denote: the
returned item, the error and the dedup maps always agree; the rings agree when no
item that stays in a ring shares its snapshot object with the returned item. -/
theorem view_PopCache (H : Nat → Hash) (heap : Heap) (q : RefQueue) :
    ((q.view heap).PopCache H).2 =
      ((q.PopCache H heap).2.2.1.map (PeerRef.deref (q.PopCache H heap).2.1),
        (q.PopCache H heap).2.2.2) ∧
    ((q.view heap).PopCache H).1.cacheSet = (q.PopCache H heap).1.cacheSet ∧
    ((q.view heap).PopCache H).1.finalSet = (q.PopCache H heap).1.finalSet ∧
    ((∀ r0, (q.PopCache H heap).2.2.1 = some r0 →
        ∀ x ∈ (q.PopCache H heap).1.cacheRing.items ++ q.finalRing.items,
          x.Snapshot ≠ r0.Snapshot) →
      ((q.view heap).PopCache H).1 =
        (q.PopCache H heap).1.view (q.PopCache H heap).2.1) := by
  rcases Bool.eq_false_or_eq_true q.cacheRing.disposed with hd | hd
  · rw [RefPopCache_disposed H heap q hd, PopCache_disposed H (q.view heap) hd]
    exact ⟨rfl, rfl, rfl, fun _ => rfl⟩
  · cases he : q.cacheRing.items with
    | nil =>
      rw [RefPopCache_empty H heap q hd he,
        PopCache_empty H (q.view heap) hd (by simp [RefQueue.view, he])]
      exact ⟨rfl, rfl, rfl, fun _ => rfl⟩
    | cons r rest =>
      rw [RefPopCache_cons H heap q r rest hd he,
        PopCache_cons H (q.view heap) (r.deref heap) (rest.map (PeerRef.deref heap)) hd
          (by simp [RefQueue.view, he])]
      refine ⟨?_, rfl, rfl, ?_⟩
      · simp [PeerRef.deref, RefQueue.view]
      · intro hx
        have hne : ∀ x ∈ rest ++ q.finalRing.items, x.Snapshot ≠ r.Snapshot := hx r rfl
        have hsame : ∀ x ∈ rest ++ q.finalRing.items,
            PeerRef.deref (Function.update heap r.Snapshot
              { heap r.Snapshot with
                Signatures := (q.cacheSet ((heap r.Snapshot).PayloadHash H)).getD none }) x =
            PeerRef.deref heap x := by
          intro x hm
          simp only [PeerRef.deref, Function.update_noteq (hne x hm)]
        have h1 := List.map_congr_left (fun x hm => hsame x (List.mem_append_left _ hm))
        have h2 := List.map_congr_left (fun x hm => hsame x (List.mem_append_right _ hm))
        simp only [RefQueue.view, PeerRef.deref] at h1 h2 ⊢
        simp [h1, h2, PeerRef.deref]

/-! ## A failing `Put` keeps its dedup entry -/

theorem finalTracked_stays (H : Nat → Hash) (q : Queue) (h : Hash)
    (hd : q.finalRing.disposed = true) (ht : q.finalTracked h = true) (op : Op) :
    (op.run H q).finalTracked h = true := by
  cases op with
  | putFinal fuel ps => exact (PutFinal_keeps_tracked H fuel q ps h).1 ht
  | putCache fuel ps =>
    show (q.PutCache H fuel ps).1.finalTracked h = true
    simp only [Queue.finalTracked, (PutCache_frame H fuel q ps).2]
    exact ht
  | popFinal =>
    show (q.PopFinal H).1.finalTracked h = true
    rw [PopFinal_disposed H q hd]
    exact ht
  | popCache =>
    show (q.PopCache H).1.finalTracked h = true
    simp only [Queue.finalTracked, (PopCache_frame H q).2]
    exact ht

theorem cacheTracked_stays (H : Nat → Hash) (q : Queue) (h : Hash)
    (hd : q.cacheRing.disposed = true) (ht : q.cacheTracked h = true) (op : Op) :
    (op.run H q).cacheTracked h = true := by
  cases op with
  | putFinal fuel ps =>
    show (q.PutFinal H fuel ps).1.cacheTracked h = true
    simp only [Queue.cacheTracked, (PutFinal_frame H fuel q ps).2]
    exact ht
  | putCache fuel ps => exact (PutCache_keeps_tracked H fuel q ps h).1 ht
  | popFinal =>
    show (q.PopFinal H).1.cacheTracked h = true
    simp only [Queue.cacheTracked, (PopFinal_frame H q).2]
    exact ht
  | popCache =>
    show (q.PopCache H).1.cacheTracked h = true
    rw [PopCache_disposed H q hd]
    exact ht

/-- C17: a failing `Put` is not atomic.  In a reachable state, when `PutFinal(ps)`
with an untracked identity `h` returns an error, both rings are as before (and
hold no item of identity `h` on that channel), yet `h` is now marked in the final
dedup map; a later `PutFinal` of identity `h` returns `nil` without entering the
loop and without changing the state, and `h` stays marked after any further call.
The same holds for `PutCache` and the cache dedup map, where a later `PutCache` of
identity `h` returns `nil` and leaves the cache ring unchanged. -/
theorem C17_failing_put_keeps_entry (H : Nat → Hash) (fuel : Nat) (q : Queue)
    (ps : PeerSnapshot) (e : Err) (hq : Reachable H q) :
    (q.finalTracked (ps.Snapshot.PayloadHash H) = false →
      (q.PutFinal H fuel ps).2 = Outcome.returned (some e) →
      (q.PutFinal H fuel ps).1.finalRing = q.finalRing ∧
      (q.PutFinal H fuel ps).1.cacheRing = q.cacheRing ∧
      (q.PutFinal H fuel ps).1.finalTracked (ps.Snapshot.PayloadHash H) = true ∧
      ps.Snapshot.PayloadHash H ∉ ringIds H (q.PutFinal H fuel ps).1.finalRing ∧
      (∀ (fuel2 : Nat) (ps2 : PeerSnapshot),
        ps2.Snapshot.PayloadHash H = ps.Snapshot.PayloadHash H →
        (q.PutFinal H fuel ps).1.PutFinal H fuel2 ps2 =
          ((q.PutFinal H fuel ps).1, Outcome.returned none)) ∧
      (∀ op : Op,
        (op.run H (q.PutFinal H fuel ps).1).finalTracked (ps.Snapshot.PayloadHash H) = true)) ∧
    (q.cacheTracked (ps.Snapshot.PayloadHash H) = false →
      (q.PutCache H fuel ps).2 = Outcome.returned (some e) →
      (q.PutCache H fuel ps).1.cacheRing = q.cacheRing ∧
      (q.PutCache H fuel ps).1.finalRing = q.finalRing ∧
      (q.PutCache H fuel ps).1.cacheTracked (ps.Snapshot.PayloadHash H) = true ∧
      ps.Snapshot.PayloadHash H ∉ ringIds H (q.PutCache H fuel ps).1.cacheRing ∧
      (∀ (fuel2 : Nat) (ps2 : PeerSnapshot),
        ps2.Snapshot.PayloadHash H = ps.Snapshot.PayloadHash H →
        ((q.PutCache H fuel ps).1.PutCache H fuel2 ps2).2 = Outcome.returned none ∧
        ((q.PutCache H fuel ps).1.PutCache H fuel2 ps2).1.cacheRing = q.cacheRing) ∧
      (∀ op : Op,
        (op.run H (q.PutCache H fuel ps).1).cacheTracked (ps.Snapshot.PayloadHash H) = true)) := by
  have hi := hq.inv
  constructor
  · intro ht hret
    have hm := PutFinal_marks H fuel q ps
    have hnot : ps.Snapshot.PayloadHash H ∉ ringIds H q.finalRing := by
      intro hmem
      rw [hi.finalSub _ hmem] at ht
      exact Bool.noConfusion ht
    have e1 := PutFinal_untracked H fuel q ps ht
    have hr1 : retryOffer fuel q.finalRing ps =
        ((retryOffer fuel q.finalRing ps).1, Outcome.returned (some e)) := by
      rw [e1] at hret
      exact Prod.ext rfl hret
    rcases retryOffer_returned hr1 with ⟨hd, hrb, _⟩ | ⟨_, _, _, hn⟩
    · have hring : (q.PutFinal H fuel ps).1.finalRing = q.finalRing := by
        rw [e1]; exact hrb
      refine ⟨hring, (PutFinal_frame H fuel q ps).1, hm, by rw [hring]; exact hnot, ?_, ?_⟩
      · intro fuel2 ps2 hid
        exact PutFinal_tracked H fuel2 _ ps2 (by rw [hid]; exact hm)
      · intro op
        exact finalTracked_stays H _ _ (by rw [hring]; exact hd) hm op
    · exact absurd hn (by simp)
  · intro ht hret
    have hm : (q.PutCache H fuel ps).1.cacheTracked (ps.Snapshot.PayloadHash H) = true := by
      simp [Queue.cacheTracked, PutCache_marks H fuel q ps]
    have hnot : ps.Snapshot.PayloadHash H ∉ ringIds H q.cacheRing := by
      intro hmem
      rw [hi.cacheSub _ hmem] at ht
      exact Bool.noConfusion ht
    have e1 := PutCache_untracked H fuel q ps ht
    have hr1 : retryOffer fuel q.cacheRing ps =
        ((retryOffer fuel q.cacheRing ps).1, Outcome.returned (some e)) := by
      rw [e1] at hret
      exact Prod.ext rfl hret
    rcases retryOffer_returned hr1 with ⟨hd, hrb, _⟩ | ⟨_, _, _, hn⟩
    · have hring : (q.PutCache H fuel ps).1.cacheRing = q.cacheRing := by
        rw [e1]; exact hrb
      refine ⟨hring, (PutCache_frame H fuel q ps).1, hm, by rw [hring]; exact hnot, ?_, ?_⟩
      · intro fuel2 ps2 hid
        have e2 := PutCache_tracked H fuel2 (q.PutCache H fuel ps).1 ps2 (by rw [hid]; exact hm)
        rw [e2]
        exact ⟨rfl, hring⟩
      · intro op
        exact cacheTracked_stays H _ _ (by rw [hring]; exact hd) hm op
    · exact absurd hn (by simp)

/-- C17 at a concrete input: `PutFinal` and `PutCache` of identity 1 on a fresh
queue that has been disposed. -/
theorem C17_failing_put_keeps_entry_witness :
    (NewQueue.Dispose.PutFinal id 1 ⟨7, ⟨1, none⟩⟩).2 = Outcome.returned (some Err.disposed) ∧
    (NewQueue.Dispose.PutFinal id 1 ⟨7, ⟨1, none⟩⟩).1.finalTracked 1 = true ∧
    (1 : Hash) ∉ ringIds id (NewQueue.Dispose.PutFinal id 1 ⟨7, ⟨1, none⟩⟩).1.finalRing ∧
    (NewQueue.Dispose.PutCache id 1 ⟨7, ⟨1, none⟩⟩).1.cacheTracked 1 = true ∧
    (1 : Hash) ∉ ringIds id (NewQueue.Dispose.PutCache id 1 ⟨7, ⟨1, none⟩⟩).1.cacheRing :=
  have h := C17_failing_put_keeps_entry id 1 NewQueue.Dispose ⟨7, ⟨1, none⟩⟩ Err.disposed
    (Reachable.dispose Reachable.init)
  have hf := h.1 (by decide) (by decide)
  have hc := h.2 (by decide) (by decide)
  ⟨by decide, hf.2.2.1, hf.2.2.2.1, hc.2.2.1, hc.2.2.2.1⟩

/-! ## A blocked `Put` and the mutex -/

theorem ringOf_withRing (final : Bool) (q : Queue) (rb : RingBuffer PeerSnapshot) :
    ringOf final (withRing final q rb) = rb := by
  cases final <;> rfl

theorem withRing_withRing (final : Bool) (q : Queue) (rb rb2 : RingBuffer PeerSnapshot) :
    withRing final (withRing final q rb) rb2 = withRing final q rb2 := by
  cases final <;> rfl

theorem withRing_ringOf (final : Bool) (q : Queue) : withRing final q (ringOf final q) = q := by
  cases final <;> rfl

theorem run_put_done (H : Nat → Hash) (final : Bool) (ps : PeerSnapshot) (n : Nat) :
    ∀ (c : Conc) (e : Option Err), c.put = PutAt.done e →
      Conc.run H final ps (List.replicate n Act.put) c = c := by
  induction n with
  | zero => intro c e _; rfl
  | succ n ih =>
    intro c e hc
    have hs : Conc.step H final ps Act.put c = c := by simp [Conc.step, hc]
    simp only [List.replicate_succ, Conc.run, hs]
    exact ih c e hc

/-- The passes of the retry loop made by the `Put` caller are those of the
sequential retry loop. -/
theorem run_put_retry (H : Nat → Hash) (final : Bool) (ps : PeerSnapshot) (n : Nat) :
    ∀ c : Conc, c.put = PutAt.retry →
      (Conc.run H final ps (List.replicate n Act.put) c).queue =
        withRing final c.queue (retryOffer n (ringOf final c.queue) ps).1 ∧
      (Conc.run H final ps (List.replicate n Act.put) c).put =
        (match (retryOffer n (ringOf final c.queue) ps).2 with
          | Outcome.returned e => PutAt.done e
          | Outcome.blocked => PutAt.retry) := by
  induction n with
  | zero =>
    intro c hc
    simp only [List.replicate_zero, Conc.run, retryOffer, withRing_ringOf]
    refine ⟨?_, ?_⟩ <;> first | rfl | trivial
  | succ n ih =>
    intro c hc
    simp only [List.replicate_succ, Conc.run]
    rcases hp : offerPass (ringOf final c.queue) ps with ⟨rb, _ | err⟩
    · have hs : Conc.step H final ps Act.put c =
          { c with queue := withRing final c.queue rb } := by
        simp [Conc.step, hc, hp]
      have hi := ih { c with queue := withRing final c.queue rb } hc
      rw [hs]
      simp only [ringOf_withRing, withRing_withRing] at hi
      simp only [retryOffer, hp]
      exact hi
    · have hs : Conc.step H final ps Act.put c =
          { c with queue := withRing final c.queue rb, locked := false,
                   put := PutAt.done err } := by
        simp [Conc.step, hc, hp]
      rw [hs, run_put_done H final ps n _ err rfl]
      simp only [retryOffer, hp]
      refine ⟨?_, ?_⟩ <;> first | rfl | trivial

/-- Running the `Put` caller alone, for the lock and `n` passes of the loop, gives
the queue state and the result of the sequential `PutFinal` (resp. `PutCache`)
with `n` iterations. -/
theorem run_put_alone (H : Nat → Hash) (ps : PeerSnapshot) (n : Nat) (q : Queue) :
    ((Conc.run H true ps (List.replicate (n + 1) Act.put) (Conc.start q)).queue =
        (q.PutFinal H n ps).1 ∧
      (Conc.run H true ps (List.replicate (n + 1) Act.put) (Conc.start q)).put =
        (match (q.PutFinal H n ps).2 with
          | Outcome.returned e => PutAt.done e
          | Outcome.blocked => PutAt.retry)) ∧
    ((Conc.run H false ps (List.replicate (n + 1) Act.put) (Conc.start q)).queue =
        (q.PutCache H n ps).1 ∧
      (Conc.run H false ps (List.replicate (n + 1) Act.put) (Conc.start q)).put =
        (match (q.PutCache H n ps).2 with
          | Outcome.returned e => PutAt.done e
          | Outcome.blocked => PutAt.retry)) := by
  constructor
  · rcases Bool.eq_false_or_eq_true (q.finalTracked (ps.Snapshot.PayloadHash H)) with ht | ht
    · have hs : Conc.step H true ps Act.put (Conc.start q) =
          { Conc.start q with put := PutAt.done none } := by
        unfold Queue.finalTracked at ht
        simp [Conc.step, Conc.start, putEnter, putMarked, ht]
      simp only [List.replicate_succ, Conc.run, hs]
      rw [run_put_done H true ps n _ none rfl, PutFinal_tracked H n q ps ht]
      exact ⟨rfl, rfl⟩
    · have hs : Conc.step H true ps Act.put (Conc.start q) =
          { Conc.start q with
            queue := putMarked H true q ps,
            locked := true, put := PutAt.retry } := by
        unfold Queue.finalTracked at ht
        simp [Conc.step, Conc.start, putEnter, putMarked, ht]
      simp only [List.replicate_succ, Conc.run, hs]
      have hr := run_put_retry H true ps n
        { Conc.start q with
          queue := putMarked H true q ps,
          locked := true, put := PutAt.retry } rfl
      rw [PutFinal_untracked H n q ps ht]
      unfold Queue.finalTracked at ht
      simpa [putMarked, putEnter, ht, withRing, ringOf] using hr
  · rcases Bool.eq_false_or_eq_true (q.cacheTracked (ps.Snapshot.PayloadHash H)) with ht | ht
    · have hs : Conc.step H false ps Act.put (Conc.start q) =
          { Conc.start q with
            queue := putMarked H false q ps,
            put := PutAt.done none } := by
        unfold Queue.cacheTracked at ht
        simp [Conc.step, Conc.start, putEnter, putMarked, ht]
      simp only [List.replicate_succ, Conc.run, hs]
      rw [run_put_done H false ps n _ none rfl, PutCache_tracked H n q ps ht]
      exact ⟨rfl, rfl⟩
    · have hs : Conc.step H false ps Act.put (Conc.start q) =
          { Conc.start q with
            queue := putMarked H false q ps,
            locked := true, put := PutAt.retry } := by
        unfold Queue.cacheTracked at ht
        simp [Conc.step, Conc.start, putEnter, putMarked, ht]
      simp only [List.replicate_succ, Conc.run, hs]
      have hr := run_put_retry H false ps n
        { Conc.start q with
          queue := putMarked H false q ps,
          locked := true, put := PutAt.retry } rfl
      rw [PutCache_untracked H n q ps ht]
      unfold Queue.cacheTracked at ht
      simpa [putMarked, putEnter, ht, withRing, ringOf] using hr

theorem ringOf_putMarked (H : Nat → Hash) (final : Bool) (q : Queue) (ps : PeerSnapshot) :
    ringOf final (putMarked H final q ps) = ringOf final q := by
  cases final
  · rfl
  · unfold putMarked putEnter ringOf
    simp only [if_true]
    split <;> rfl

theorem ringOf_dispose (final : Bool) (q : Queue) :
    ringOf final q.Dispose = (ringOf final q).Dispose := by
  cases final <;> rfl

theorem step_put_full (H : Nat → Hash) (final : Bool) (ps : PeerSnapshot) (c : Conc)
    (hp : c.put = PutAt.retry) (hd : (ringOf final c.queue).disposed = false)
    (hf : (ringOf final c.queue).capacity ≤ (ringOf final c.queue).items.length) :
    Conc.step H final ps Act.put c = c := by
  obtain ⟨cq, cl, cp, cpop⟩ := c
  have hp1 : cp = PutAt.retry := hp
  subst hp1
  have hd1 : (ringOf final cq).disposed = false := hd
  have hf1 : (ringOf final cq).capacity ≤ (ringOf final cq).items.length := hf
  simp [Conc.step, offerPass_full _ ps hd1 hf1, withRing_ringOf]

theorem waiting_step (H : Nat → Hash) (final : Bool) (ps : PeerSnapshot)
    (items : List PeerSnapshot) (a : Act) (c : Conc) (hw : Waiting final items c) :
    Waiting final items (Conc.step H final ps a c) := by
  rcases hw with ⟨hp, hl, hpop, hit, hr⟩ | ⟨hdone, hfree⟩
  · cases a with
    | put =>
      rcases Bool.eq_false_or_eq_true (ringOf final c.queue).disposed with hd | hd
      · right
        simp [Conc.step, hp, offerPass_disposed _ ps hd]
      · rcases hr with hr | hr
        · rw [hr] at hd
          exact Bool.noConfusion hd
        · left
          rw [step_put_full H final ps c hp hd hr]
          exact ⟨hp, hl, hpop, hit, Or.inr hr⟩
    | popFinal =>
      left
      have hs : Conc.step H final ps Act.popFinal c = c := by simp [Conc.step, hl]
      rw [hs]
      exact ⟨hp, hl, hpop, hit, hr⟩
    | popCache =>
      left
      have hs : Conc.step H final ps Act.popCache c = c := by simp [Conc.step, hl]
      rw [hs]
      exact ⟨hp, hl, hpop, hit, hr⟩
    | dispose =>
      left
      refine ⟨hp, hl, hpop, ?_, Or.inl ?_⟩
      · show (ringOf final c.queue.Dispose).items = items
        rw [ringOf_dispose]
        exact hit
      · show (ringOf final c.queue.Dispose).disposed = true
        rw [ringOf_dispose]
        rfl
  · right
    cases a with
    | put => simp [Conc.step, hdone, hfree]
    | popFinal => simp [Conc.step, hfree, hdone]
    | popCache => simp [Conc.step, hfree, hdone]
    | dispose => exact ⟨hdone, hfree⟩

theorem waiting_run (H : Nat → Hash) (final : Bool) (ps : PeerSnapshot)
    (items : List PeerSnapshot) (sched : List Act) :
    ∀ c : Conc, Waiting final items c → Waiting final items (Conc.run H final ps sched c) := by
  induction sched with
  | nil => intro c hw; exact hw
  | cons a rest ih => intro c hw; exact ih _ (waiting_step H final ps items a c hw)

/-- While the ring stays full and nobody calls `Dispose`, no scheduled step
changes anything: the pops wait for the mutex and each pass of the retry loop
goes back to sleep. -/
theorem blocked_run_same (H : Nat → Hash) (final : Bool) (ps : PeerSnapshot)
    (sched : List Act) (hnd : Act.dispose ∉ sched) (c : Conc) (hp : c.put = PutAt.retry)
    (hl : c.locked = true) (hd : (ringOf final c.queue).disposed = false)
    (hf : (ringOf final c.queue).capacity ≤ (ringOf final c.queue).items.length) :
    Conc.run H final ps sched c = c := by
  induction sched with
  | nil => rfl
  | cons a rest ih =>
    have hs : Conc.step H final ps a c = c := by
      cases a with
      | put => exact step_put_full H final ps c hp hd hf
      | popFinal => simp [Conc.step, hl]
      | popCache => simp [Conc.step, hl]
      | dispose => exact absurd (List.mem_cons_self _ _) hnd
    simp only [Conc.run, hs]
    exact ih (fun hm => hnd (List.mem_cons_of_mem _ hm))

theorem blocked_enter (H : Nat → Hash) (final : Bool) (q : Queue) (ps : PeerSnapshot)
    (ht : (putEnter H final q ps).2 = false) :
    Conc.step H final ps Act.put (Conc.start q) =
      { queue := putMarked H final q ps, locked := true, put := PutAt.retry, popped := [] } := by
  have e : putEnter H final q ps = (putMarked H final q ps, false) := Prod.ext rfl ht
  simp [Conc.step, Conc.start, e]

theorem run_append (H : Nat → Hash) (final : Bool) (ps : PeerSnapshot) (s1 s2 : List Act) :
    ∀ c : Conc, Conc.run H final ps (s1 ++ s2) c =
      Conc.run H final ps s2 (Conc.run H final ps s1 c) := by
  induction s1 with
  | nil => intro c; rfl
  | cons a rest ih => intro c; exact ih _

theorem waiting_blocked (H : Nat → Hash) (final : Bool) (q : Queue) (ps : PeerSnapshot)
    (hf : (ringOf final q).items.length = (ringOf final q).capacity)
    (ht : (putEnter H final q ps).2 = false) :
    Waiting final (ringOf final q).items (Conc.step H final ps Act.put (Conc.start q)) := by
  rw [blocked_enter H final q ps ht]
  left
  refine ⟨rfl, rfl, rfl, ?_, Or.inr ?_⟩
  · show (ringOf final (putMarked H final q ps)).items = _
    rw [ringOf_putMarked]
  · show (ringOf final (putMarked H final q ps)).capacity ≤
      (ringOf final (putMarked H final q ps)).items.length
    rw [ringOf_putMarked]
    exact Nat.le_of_eq hf.symm

/-- C12: the release of a blocked `Put` by a pop does not happen.  On `fullQueue`,
whose two rings are at capacity, the `PutFinal` of the new identity 3 is inside
its retry loop with the mutex locked; the `PopFinal` and `PopCache` calls that
other callers make after it wait at the mutex, return nothing and free no slot,
and the `Put` is still retrying.  No schedule at all makes this `Put` return
`nil`. -/
theorem C12_pop_cannot_release :
    (Conc.run id true ⟨9, ⟨3, none⟩⟩
      [Act.put, Act.popFinal, Act.put, Act.popFinal, Act.popCache, Act.put]
      (Conc.start fullQueue)).put = PutAt.retry ∧
    (Conc.run id true ⟨9, ⟨3, none⟩⟩
      [Act.put, Act.popFinal, Act.put, Act.popFinal, Act.popCache, Act.put]
      (Conc.start fullQueue)).popped = [] ∧
    (Conc.run id true ⟨9, ⟨3, none⟩⟩
      [Act.put, Act.popFinal, Act.put, Act.popFinal, Act.popCache, Act.put]
      (Conc.start fullQueue)).queue.finalRing.items = [⟨7, ⟨1, none⟩⟩] ∧
    ¬ ∃ sched : List Act,
      (Conc.run id true ⟨9, ⟨3, none⟩⟩ sched
        (Conc.step id true ⟨9, ⟨3, none⟩⟩ Act.put (Conc.start fullQueue))).put =
        PutAt.done none := by
  refine ⟨by decide, by decide, by decide, ?_⟩
  rintro ⟨sched, hs⟩
  have hw := waiting_run id true ⟨9, ⟨3, none⟩⟩ _ sched _
    (waiting_blocked id true fullQueue ⟨9, ⟨3, none⟩⟩ rfl (by decide))
  rcases hw with ⟨hp, _⟩ | ⟨hp, _⟩
  · rw [hp] at hs
    exact PutAt.noConfusion hs
  · rw [hp] at hs
    simp at hs

/-- A blocked `Put` keeps the mutex, for every queue and either channel.  With the
ring of the channel not disposed and at capacity, a `PutFinal` (resp. `PutCache`)
of an identity that is not tracked gets the mutex, records the identity and blocks
inside its retry loop with the mutex locked.  As long as nobody calls `Dispose`,
every schedule of further steps of the `Put` and of `PopFinal`/`PopCache` calls by
other callers leaves the whole state as it is: the pops wait at the mutex, no slot
is freed, the `Put` does not return.  Under every schedule the `Put` never returns
`nil`, and while it is still retrying the mutex is locked, no pop has returned and
the ring holds its old items.  After a `Dispose`, the next pass of the loop returns
the disposal error and frees the mutex. -/
theorem blocked_put_keeps_mutex (H : Nat → Hash) (final : Bool) (q : Queue)
    (ps : PeerSnapshot) (sched : List Act)
    (hd : (ringOf final q).disposed = false)
    (hf : (ringOf final q).items.length = (ringOf final q).capacity)
    (ht : (putEnter H final q ps).2 = false) :
    Conc.step H final ps Act.put (Conc.start q) =
      { queue := putMarked H final q ps, locked := true, put := PutAt.retry, popped := [] } ∧
    (Act.dispose ∉ sched →
      Conc.run H final ps sched (Conc.step H final ps Act.put (Conc.start q)) =
        Conc.step H final ps Act.put (Conc.start q)) ∧
    (Conc.run H final ps sched (Conc.step H final ps Act.put (Conc.start q))).put ≠
      PutAt.done none ∧
    ((Conc.run H final ps sched (Conc.step H final ps Act.put (Conc.start q))).put =
        PutAt.retry →
      (Conc.run H final ps sched (Conc.step H final ps Act.put (Conc.start q))).locked = true ∧
      (Conc.run H final ps sched (Conc.step H final ps Act.put (Conc.start q))).popped = [] ∧
      (ringOf final
        (Conc.run H final ps sched (Conc.step H final ps Act.put (Conc.start q))).queue).items =
        (ringOf final q).items) ∧
    ((Conc.run H final ps (sched ++ [Act.dispose, Act.put])
        (Conc.step H final ps Act.put (Conc.start q))).put = PutAt.done (some Err.disposed) ∧
      (Conc.run H final ps (sched ++ [Act.dispose, Act.put])
        (Conc.step H final ps Act.put (Conc.start q))).locked = false) := by
  have hb := blocked_enter H final q ps ht
  have hw0 := waiting_blocked H final q ps hf ht
  have hw := waiting_run H final ps _ sched _ hw0
  refine ⟨hb, ?_, ?_, ?_, ?_⟩
  · intro hnd
    apply blocked_run_same H final ps sched hnd
    · rw [hb]
    · rw [hb]
    · rw [hb]
      show (ringOf final (putMarked H final q ps)).disposed = false
      rw [ringOf_putMarked]
      exact hd
    · rw [hb]
      show (ringOf final (putMarked H final q ps)).capacity ≤
        (ringOf final (putMarked H final q ps)).items.length
      rw [ringOf_putMarked]
      exact Nat.le_of_eq hf.symm
  · intro hn
    rcases hw with ⟨hp, _⟩ | ⟨hp, _⟩
    · rw [hp] at hn
      exact PutAt.noConfusion hn
    · rw [hp] at hn
      simp at hn
  · intro hr
    rcases hw with ⟨_, hl, hpop, hit, _⟩ | ⟨hp, _⟩
    · exact ⟨hl, hpop, hit⟩
    · rw [hp] at hr
      exact PutAt.noConfusion hr
  · rw [run_append]
    generalize Conc.run H final ps sched (Conc.step H final ps Act.put (Conc.start q)) = c1
      at hw
    rcases hw with ⟨hp, hl, _, _, _⟩ | ⟨hp, hl⟩
    · have hdd : (ringOf final c1.queue.Dispose).disposed = true := by
        rw [ringOf_dispose]
        rfl
      simp [Conc.run, Conc.step, hp, offerPass_disposed _ ps hdd]
    · simp [Conc.run, Conc.step, hp, hl]

/-- The blocked `Put` on `fullQueue`: a `PutCache` of the new identity 3 and pops
of both channels scheduled after it. -/
theorem blocked_put_keeps_mutex_fullQueue :
    (Conc.run id false ⟨9, ⟨3, none⟩⟩ [Act.popCache, Act.put, Act.popFinal, Act.put]
      (Conc.step id false ⟨9, ⟨3, none⟩⟩ Act.put (Conc.start fullQueue))) =
      Conc.step id false ⟨9, ⟨3, none⟩⟩ Act.put (Conc.start fullQueue) ∧
    (Conc.run id false ⟨9, ⟨3, none⟩⟩
      ([Act.popCache, Act.put, Act.popFinal, Act.put] ++ [Act.dispose, Act.put])
      (Conc.step id false ⟨9, ⟨3, none⟩⟩ Act.put (Conc.start fullQueue))).put =
      PutAt.done (some Err.disposed) :=
  have h := blocked_put_keeps_mutex id false fullQueue ⟨9, ⟨3, none⟩⟩
    [Act.popCache, Act.put, Act.popFinal, Act.put] rfl rfl (by decide)
  ⟨h.2.1 (by decide), h.2.2.2.2.1⟩

end Storage
